import Mathlib

/-!
# closedfish: the one-player depth-first search driver (`draft/DFS1P/DFS1P.cpp`)

A shallow embedding of the search driver and of the helpers it consumes.

* Squares ("tiles") are the numbers `0..63`, tile `= row*8+col`.
* A 64-bit board (`uint64_t`) is a natural number; bit `t` is the square `t`.
* Composite piece ids are `2*kind + colour` (`0..11`), `-1` is the empty square.
* The board class `CFBoard` itself is not part of the sources: the driver is
  embedded over the interface it calls (`CFBoard β`), so every statement about
  the driver holds for every implementation of that interface.
-/

namespace DFS1P

/-! ## Helpers the driver calls -/

/-- Modelled from the spec: the helper `isBitSet(board, tile)`, whose definition is
not part of the sources. Bit `tile` of the 64-bit board ("each bit position `0..63`
maps to a square"); a negative index names no square. -/
def isBitSet (board : Nat) (tile : Int) : Bool :=
  decide (0 ≤ tile) && board.testBit tile.toNat

/-- Modelled from the spec: the helper `bitSetPositions(board)`, whose definition is
not part of the sources. The squares `0..63` whose bit is set, in ascending order. -/
def bitSetPositions (board : Nat) : List Nat :=
  (List.range 64).filter (fun t => board.testBit t)

/-- Modelled from the spec: `Heatmap::posToTile({row, col})`, whose definition is not
part of the sources: "each bit position `0..63` maps to a square via `row*8+col`". -/
def Heatmap.posToTile (row col : Int) : Int := row * 8 + col

/-- Modelled from the spec: `Heatmap::validSquare(i, j)`, whose definition is not part
of the sources: the square `(i, j)` lies on the 8x8 board. -/
def Heatmap.validSquare (i j : Int) : Bool :=
  decide (0 ≤ i) && decide (i < 8) && decide (0 ≤ j) && decide (j < 8)

/-- The function `squareSafeFromOpponentPawns` of `DFS1P.cpp` (lines 14-21).
The C++ `||` and `&&` short-circuit, so the tile of an off-board neighbour is never
looked up. -/
def squareSafeFromOpponentPawns (currentTurn : Bool) (opponentPawnBoard : Nat)
    (row col : Int) : Bool :=
  if currentTurn then
    row == 7 || ((col == 0 || !isBitSet opponentPawnBoard (Heatmap.posToTile (row + 1) (col - 1)))
      && (col == 7 || !isBitSet opponentPawnBoard (Heatmap.posToTile (row + 1) (col + 1))))
  else
    row == 0 || ((col == 0 || !isBitSet opponentPawnBoard (Heatmap.posToTile (row - 1) (col - 1)))
      && (col == 7 || !isBitSet opponentPawnBoard (Heatmap.posToTile (row - 1) (col + 1))))

/-- The rank from which an opposing pawn can threaten row `row`, as the code looks it
up: `row + 1` for black to move (`currentTurn = true`), `row - 1` for white. -/
def pawnThreatRow (currentTurn : Bool) (row : Int) : Int :=
  if currentTurn then row + 1 else row - 1

/-- An opposing pawn stands on the in-bounds square `(r, c)`. -/
def pawnOn (opponentPawnBoard : Nat) (r c : Int) : Prop :=
  0 ≤ r ∧ r < 8 ∧ 0 ≤ c ∧ c < 8 ∧ opponentPawnBoard.testBit (r * 8 + c).toNat = true

/-- C++ integral promotion of a `bool`: `false` is `0`, `true` is `1`. -/
def boolToInt (b : Bool) : Int := if b then 1 else 0

/-! ## The board interface -/

/-- The member functions of the board class `CFBoard` that `DFS1P.cpp` calls, over an
arbitrary type `β` of board states. The class itself is not part of the sources; the
driver is embedded over this interface. Mutating members return the new state. -/
structure CFBoard (β : Type) where
  /-- The side to move: `false` white, `true` black. -/
  getCurrentPlayer : β → Bool
  /-- The 64-bit occupancy board of a composite piece index. -/
  getPieceColorBitBoard : β → Int → Nat
  /-- The composite piece index on a square, `-1` for an empty square. -/
  getPieceFromCoords : β → Nat → Int
  /-- The destination bitmask of a piece (composite index) on an origin square. -/
  getLegalMoves : β → Int → Nat → Nat
  /-- Apply a move from an origin to a destination square. -/
  movePiece : β → Nat → Nat → β
  /-- Take back the most recent move. -/
  undoLastMove : β → β
  /-- Toggle the side to move. -/
  forceFlipTurn : β → β

/-- The assumption of the frame claims on the board: `undoLastMove` exactly reverses
the most recent `movePiece`, also when the turn was flipped in between (the driver
always flips between the two), and `forceFlipTurn` only toggles the side to move, so
that flipping twice is the identity. -/
structure CFBoard.Lawful {β : Type} (B : CFBoard β) : Prop where
  undo_flip_move : ∀ b s e,
    B.undoLastMove (B.forceFlipTurn (B.movePiece b s e)) = B.forceFlipTurn b
  flip_flip : ∀ b, B.forceFlipTurn (B.forceFlipTurn b) = b

/-! ## Distances (`distFromTileToTilesAsPiece`, `distFromHeatmap`) -/

/-- The C++ `std::array<std::array<int, 8>, 8>`: entry `d i j` for row `i`, column `j`
(only `i, j < 8` is ever read or written). -/
abbrev Grid := Nat → Nat → Int

/-- The assignment `dist[i][j] = v`. -/
def Grid.set (d : Grid) (i j : Nat) (v : Int) : Grid :=
  fun i' j' => if i' = i ∧ j' = j then v else d i' j'

/-- The body of the inner `for` loop of `distFromTileToTilesAsPiece` (lines 38-48) for
one `newTile`, on the pair (distance grid, queue). -/
def bfsVisit {β : Type} (B : CFBoard β) (board : β) (currentTurn : Bool)
    (opponentPawnBoard : Nat) (curi curj : Nat) (st : Grid × List (Nat × Nat))
    (newTile : Nat) : Grid × List (Nat × Nat) :=
  let newi := newTile / 8
  let newj := newTile % 8
  if !Heatmap.validSquare newi newj then st
  else if st.1 newi newj != -1 then st
  else if B.getPieceFromCoords board (newi * 8 + newj) != -1 then st
  else if !squareSafeFromOpponentPawns currentTurn opponentPawnBoard newi newj then st
  else (st.1.set newi newj (st.1 curi curj + 1), st.2 ++ [(newi, newj)])

/-- The `while (!q.empty())` loop of `distFromTileToTilesAsPiece` (lines 33-49). Each
unit of fuel pays for one iteration; `none` means the fuel ran out with a non-empty
queue. -/
def bfsLoop {β : Type} (B : CFBoard β) (board : β) (pieceId : Int) (currentTurn : Bool)
    (opponentPawnBoard : Nat) : Nat → Grid → List (Nat × Nat) → Option Grid
  | _, dist, [] => some dist
  | 0, _, _ :: _ => none
  | fuel + 1, dist, (curi, curj) :: q =>
    let nextSquares := B.getLegalMoves board pieceId (curi * 8 + curj)
    let st := (bitSetPositions nextSquares).foldl
      (bfsVisit B board currentTurn opponentPawnBoard curi curj) (dist, q)
    bfsLoop B board pieceId currentTurn opponentPawnBoard fuel st.1 st.2

/-- The function `distFromTileToTilesAsPiece` of `DFS1P.cpp` (lines 23-51). -/
def distFromTileToTilesAsPiece {β : Type} (fuel : Nat) (B : CFBoard β) (board : β)
    (halfPieceId : Int) (startTile : Nat) : Option Grid :=
  let currentTurn := B.getCurrentPlayer board
  let opponentPawnBoard := B.getPieceColorBitBoard board (boolToInt (!currentTurn))
  let dist : Grid := fun _ _ => -1
  let dist := dist.set (startTile / 8) (startTile % 8) 0
  bfsLoop B board (2 * halfPieceId + boolToInt currentTurn) currentTurn opponentPawnBoard
    fuel dist [(startTile / 8, startTile % 8)]

/-- The C++ `int heatMap[6][8][8]`: entry `heatMap kind i j`. -/
abbrev HeatMap := Nat → Nat → Nat → Int

/-- The two innermost loops of `distFromHeatmap` (lines 61-67): rows `0..7`, then
columns `0..7`, overwriting `dist` at every target that is reachable. -/
def scanHeatmap (heatMap : HeatMap) (halfPieceId : Nat) (distFromStart : Grid)
    (dist : Int) : Int :=
  (List.range 8).foldl (fun dist i =>
    (List.range 8).foldl (fun dist j =>
      if heatMap halfPieceId i j != 0 && distFromStart i j != -1 then distFromStart i j
      else dist) dist) dist

/-- The function `distFromHeatmap` of `DFS1P.cpp` (lines 53-72). -/
def distFromHeatmap {β : Type} (fuel : Nat) (B : CFBoard β) (board : β)
    (heatMap : HeatMap) : Option Int :=
  let currentTurn := B.getCurrentPlayer board
  List.foldlM (fun (dist : Int) (halfPieceId : Nat) =>
    let pieceBoard :=
      B.getPieceColorBitBoard board (Int.lor (2 * (halfPieceId : Int)) (boolToInt currentTurn))
    let pieceTiles := bitSetPositions pieceBoard
    List.foldlM (fun (dist : Int) (startTile : Nat) =>
      (distFromTileToTilesAsPiece fuel B board halfPieceId startTile).map
        (fun distFromStart => scanHeatmap heatMap halfPieceId distFromStart dist))
      dist pieceTiles)
    0 (List.range 6)

/-! ## The search (`DFS1pAux`, `DFS1P::getNextMove`) -/

/-- The C++ `std::tuple<int, int, float>`: origin square, destination square and an
evaluation that the driver always sets to `0.0` (kept as the integer `0`). -/
structure Move where
  start : Nat
  dest : Nat
  eval : Int
  deriving DecidableEq

/-- One line: the moves of one depth-first path. -/
abbrev Line := List Move

/-- What the loops of `DFS1pAux` update: the board behind `currentBoard`, the local
`curLine`, and the result set `possibleLines`. -/
structure SearchState (β : Type) where
  board : β
  curLine : Line
  possibleLines : List Line

/-- The condition `pieceId == -1 || pieceId&1 != currentTurn` of line 83 as C++ parses
it: `!=` binds tighter than `&`, so the second operand is
`pieceId & (1 != currentTurn)`, tested against zero. -/
def skipStartTile (pieceId : Int) (currentTurn : Bool) : Bool :=
  pieceId == -1 ||
    Int.land pieceId (boolToInt ((1 : Int) != boolToInt currentTurn)) != 0

/-- The body of the loop over `endTiles` in `DFS1pAux` (lines 87-102) for one
`endTile`; `recur` is the nested call `DFS1pAux(currentBoard, ...)`. -/
def dfsEndTile {β : Type} (B : CFBoard β)
    (recur : β → Int → Int → Line → List Line → Option (β × List Line))
    (currentTurn : Bool) (depth maxDepth : Int) (startTile : Nat)
    (st : SearchState β) (endTile : Nat) : Option (SearchState β) :=
  if B.getPieceFromCoords st.board endTile != -1 then some st
  else if !squareSafeFromOpponentPawns currentTurn
      (B.getPieceColorBitBoard st.board (boolToInt (!currentTurn)))
      (endTile / 8 : Nat) (endTile % 8 : Nat) then some st
  else
    let pushed := st.curLine ++ [Move.mk startTile endTile 0]
    let moved := B.forceFlipTurn (B.movePiece st.board startTile endTile)
    (recur moved (depth + 1) maxDepth pushed st.possibleLines).map
      (fun r => SearchState.mk (B.forceFlipTurn (B.undoLastMove r.1)) pushed.dropLast r.2)

/-- The body of the loop over `startTile` in `DFS1pAux` (lines 81-103) for one
`startTile`. -/
def dfsStartTile {β : Type} (B : CFBoard β)
    (recur : β → Int → Int → Line → List Line → Option (β × List Line))
    (currentTurn : Bool) (depth maxDepth : Int)
    (st : SearchState β) (startTile : Nat) : Option (SearchState β) :=
  let pieceId := B.getPieceFromCoords st.board startTile
  if skipStartTile pieceId currentTurn then some st
  else
    let legalMoves := B.getLegalMoves st.board pieceId startTile
    let endTiles := bitSetPositions legalMoves
    List.foldlM (dfsEndTile B recur currentTurn depth maxDepth startTile) st endTiles

/-- The function `DFS1pAux` of `DFS1P.cpp` (lines 74-104). Each unit of fuel pays for
one level of nested calls; `none` means the fuel ran out. `curLine` is passed by value,
so a call hands back only the board and the result set. -/
def DFS1pAux {β : Type} (B : CFBoard β) :
    Nat → β → Int → Int → Line → List Line → Option (β × List Line)
  | 0, _, _, _, _, _ => none
  | fuel + 1, currentBoard, depth, maxDepth, curLine, possibleLines =>
    if depth == maxDepth then
      some (currentBoard, possibleLines ++ [curLine])
    else
      let currentTurn := B.getCurrentPlayer currentBoard
      (List.foldlM (dfsStartTile B (DFS1pAux B fuel) currentTurn depth maxDepth)
        (SearchState.mk currentBoard curLine possibleLines) (List.range 64)).map
        (fun st => (st.board, st.possibleLines))

/-- The first loop over a line in `getNextMove` (lines 123-134): every move is applied
and followed by a turn flip. -/
def replayLine {β : Type} (B : CFBoard β) (board : β) (line : Line) : β :=
  line.foldl (fun b move => B.forceFlipTurn (B.movePiece b move.start move.dest)) board

/-- The second loop over a line in `getNextMove` (lines 140-143): one `undoLastMove`
and one turn flip per move of the line. -/
def unwindLine {β : Type} (B : CFBoard β) (board : β) (line : Line) : β :=
  line.foldl (fun b _ => B.forceFlipTurn (B.undoLastMove b)) board

/-- What the scoring loop of `getNextMove` updates: the board, `minDist`, `ansLine`. -/
structure ScoreState (β : Type) where
  board : β
  minDist : Int
  ansLine : Line

/-- The body of the loop `for (auto line: possibleLines)` of `getNextMove`
(lines 121-144). -/
def scoreLine {β : Type} (fuel : Nat) (B : CFBoard β) (heatMap : HeatMap)
    (st : ScoreState β) (line : Line) : Option (ScoreState β) :=
  let replayed := replayLine B st.board line
  (distFromHeatmap fuel B replayed heatMap).bind (fun d =>
    if d < st.minDist then
      (distFromHeatmap fuel B replayed heatMap).map
        (fun d2 => ScoreState.mk (unwindLine B replayed line) d2 line)
    else
      some (ScoreState.mk (unwindLine B replayed line) st.minDist st.ansLine))

/-- The function `DFS1P::getNextMove` of `DFS1P.cpp` (lines 106-148). The heatmap
builder `Heatmap::addHeatMap`, which is not part of the sources, is a parameter: it
receives the board, the zeroed heatmap and the weak-pawn mask and hands back the board
and the filled heatmap. The result is the board at exit together with `ansLine[0]`,
which is `none` when the index is out of bounds; the outer `none` means the fuel ran
out. -/
def getNextMove {β : Type} (fuel : Nat) (B : CFBoard β)
    (addHeatMap : β → HeatMap → Nat → β × HeatMap) (currentBoard : β) :
    Option (β × Option Move) :=
  let heatMap : HeatMap := fun _ _ _ => 0
  let weakPawns : Nat := 8
  let built := addHeatMap currentBoard heatMap weakPawns
  let maxDepth : Int := 3
  let minDist : Int := 1000000000
  (DFS1pAux B fuel built.1 0 maxDepth [] []).bind (fun r =>
    (List.foldlM (scoreLine fuel B built.2) (ScoreState.mk r.1 minDist []) r.2).map
      (fun st => (st.board, st.ansLine[0]?)))

/-! ## The queue loop over an abstract graph (used to prove the distance claims) -/

/-- The inner loop body of the breadth-first search over an abstract node type: a
successor that is unvisited and admissible gets the distance of `u` plus one and joins
the queue. -/
def gVisit {α : Type} [DecidableEq α] (ok : α → Bool) (u : α)
    (st : (α → Int) × List α) (w : α) : (α → Int) × List α :=
  if st.1 w ≠ -1 ∨ ok w = false then st
  else (Function.update st.1 w (st.1 u + 1), st.2 ++ [w])

/-- The queue loop of the breadth-first search over an abstract node type. -/
def gLoop {α : Type} [DecidableEq α] (succ : α → List α) (ok : α → Bool) :
    Nat → (α → Int) → List α → Option (α → Int)
  | _, dist, [] => some dist
  | 0, _, _ :: _ => none
  | fuel + 1, dist, u :: q =>
    let st := (succ u).foldl (gVisit ok u) (dist, q)
    gLoop succ ok fuel st.1 st.2

/-- A walk of `n` edges of the relation `E` from `s`. -/
inductive Walk {α : Type} (E : α → α → Prop) (s : α) : Nat → α → Prop
  | nil : Walk E s 0 s
  | snoc {n : Nat} {u w : α} : Walk E s n u → E u w → Walk E s (n + 1) w

/-- The number of unvisited nodes of the universe `univ`. -/
def unvisited {α : Type} (univ : List α) (dist : α → Int) : Nat :=
  univ.countP (fun v => dist v == -1)

/-- The invariant of the inner loop while the successors of `u` are visited: `q` is
the queue behind `u`, `done` the successors already handled, `K` a bound. -/
structure VisitInv {α : Type} (succ : α → List α) (ok : α → Bool) (univ : List α)
    (K : Int) (s u : α) (done : List α) (dist : α → Int) (q : List α) : Prop where
  start : dist s = 0
  cur : dist u ≠ -1
  queued : ∀ v ∈ q, dist v ≠ -1
  reach : ∀ v, dist v ≠ -1 →
    ∃ n : Nat, dist v = n ∧ Walk (fun a b => b ∈ succ a ∧ ok b = true) s n v
  sorted : q.Pairwise (fun a b => dist a ≤ dist b)
  front : ∀ v ∈ q, dist u ≤ dist v
  near : ∀ v, dist v ≠ -1 → dist v ≤ dist u + 1
  closed : ∀ v, dist v ≠ -1 → v ∉ q → v ≠ u →
    ∀ w, w ∈ succ v → ok w = true → dist w ≠ -1 ∧ dist w ≤ dist v + 1
  handled : ∀ w ∈ done, ok w = true → dist w ≠ -1 ∧ dist w ≤ dist u + 1
  bound : ∀ v, dist v ≠ -1 → dist v + unvisited univ dist ≤ K

/-- The invariant of the queue loop between two iterations. -/
structure LoopInv {α : Type} (succ : α → List α) (ok : α → Bool) (univ : List α)
    (K : Int) (s : α) (dist : α → Int) (q : List α) : Prop where
  start : dist s = 0
  queued : ∀ v ∈ q, dist v ≠ -1
  reach : ∀ v, dist v ≠ -1 →
    ∃ n : Nat, dist v = n ∧ Walk (fun a b => b ∈ succ a ∧ ok b = true) s n v
  sorted : q.Pairwise (fun a b => dist a ≤ dist b)
  near : ∀ v, dist v ≠ -1 → ∀ u ∈ q, dist v ≤ dist u + 1
  closed : ∀ v, dist v ≠ -1 → v ∉ q →
    ∀ w, w ∈ succ v → ok w = true → dist w ≠ -1 ∧ dist w ≤ dist v + 1
  bound : ∀ v, dist v ≠ -1 → dist v + unvisited univ dist ≤ K

/-! ## The move graph of `distFromTileToTilesAsPiece` -/

/-- The square `(row, column)` of a tile, as the code computes it (`t/8`, `t%8`). -/
def squareOf (t : Nat) : Nat × Nat := (t / 8, t % 8)

/-- The successors the loop of `distFromTileToTilesAsPiece` enumerates from a square:
the set bits of `getLegalMoves`, as squares. -/
def squareSucc {β : Type} (B : CFBoard β) (board : β) (pieceId : Int) (p : Nat × Nat) :
    List (Nat × Nat) :=
  (bitSetPositions (B.getLegalMoves board pieceId (p.1 * 8 + p.2))).map squareOf

/-- The tests a new square has to pass in the loop, apart from being unvisited: on the
board, empty, and safe from the opponent's pawns. -/
def squareOk {β : Type} (B : CFBoard β) (board : β) (currentTurn : Bool)
    (opponentPawnBoard : Nat) (p : Nat × Nat) : Bool :=
  Heatmap.validSquare p.1 p.2 && (B.getPieceFromCoords board (p.1 * 8 + p.2) == -1)
    && squareSafeFromOpponentPawns currentTurn opponentPawnBoard p.1 p.2

/-- A distance grid as a function on squares. -/
def gridOf (d : Grid) : Nat × Nat → Int := fun p => d p.1 p.2

/-- The 64 squares of the board. -/
def allSquares : List (Nat × Nat) := (List.range 64).map squareOf

/-- The edge `u -> v` of the move graph of a piece kind on a board: bit `v` is set in
`getLegalMoves(2h + sideToMove, u)`, the square `v` is empty, and `v` is safe from the
pawns of the opponent of the side to move. -/
def moveEdge {β : Type} (B : CFBoard β) (board : β) (halfPieceId : Int) (u v : Nat) : Prop :=
  v < 64 ∧
  (B.getLegalMoves board (2 * halfPieceId + boolToInt (B.getCurrentPlayer board)) u).testBit v
    = true ∧
  B.getPieceFromCoords board v = -1 ∧
  squareSafeFromOpponentPawns (B.getCurrentPlayer board)
    (B.getPieceColorBitBoard board (boolToInt (!B.getCurrentPlayer board)))
    (v / 8 : Nat) (v % 8 : Nat) = true

/-- The tile `t` is reachable from `s` by a path of `n` edges of the move graph. -/
def MovePath {β : Type} (B : CFBoard β) (board : β) (halfPieceId : Int) (s : Nat) (n : Nat)
    (t : Nat) : Prop :=
  Walk (moveEdge B board halfPieceId) s n t

/-! ## A position store, for concrete boards -/

/-- Modelled from the spec: one entry of the move-history stack of `CFBoard`, a class
that is not part of the sources. An entry records "source square, destination square,
any captured piece, and the side-to-move flag prior to the move". -/
structure HistoryEntry where
  source : Nat
  destination : Nat
  captured : Int
  turnBefore : Bool
  deriving DecidableEq

/-- Modelled from the spec: the state of the board class `CFBoard`, which is not part
of the sources. The piece-at-square lookup (one entry per square, `-1` for an empty
square) is the stored component and the twelve bitboards are read off it, so that the
consistency invariant of the spec (bit `s` of bitboard `i` is set iff the lookup at
`s` is `i`) holds by construction. The last four fields of the FEN the position was
created from (castling rights, en-passant square, the two move counters) are kept as
the text that was read: the spec gives them no effect on any operation, and its
round-trip law asks the export to write them back. -/
structure Position where
  squares : List Int
  turn : Bool
  history : List HistoryEntry
  fenFields : List (List Char)
  deriving DecidableEq

/-- The last four FEN fields of the fixed starting layout, `KQkq - 0 1`. -/
def startFields : List (List Char) := [['K', 'Q', 'k', 'q'], ['-'], ['0'], ['1']]

/-- The piece index stored for a square, `-1` when the square is empty or off the
board. -/
def Position.pieceAt (p : Position) (square : Nat) : Int := p.squares.getD square (-1)

namespace Position

/-- Modelled from the spec: `getCurrentPlayer`, `false` for white to move. -/
def getCurrentPlayer (p : Position) : Bool := p.turn

/-- Modelled from the spec: `getPieceFromCoords`, the piece index on a square or `-1`. -/
def getPieceFromCoords (p : Position) (square : Nat) : Int := p.pieceAt square

/-- Modelled from the spec: `getPieceColorBitBoard`, the occupancy board of a
composite index `0..11`, and `0` for an index out of range. -/
def getPieceColorBitBoard (p : Position) (pieceColorIndex : Int) : Nat :=
  if 0 ≤ pieceColorIndex ∧ pieceColorIndex < 12 then
    (List.range 64).foldl
      (fun acc s => if p.pieceAt s = pieceColorIndex then acc ||| 2 ^ s else acc) 0
  else 0

/-- The tile of an in-bounds square `(r, c)`. -/
def tileOf (r c : Int) : Nat := (r * 8 + c).toNat

/-- Modelled from the spec: one ray of a sliding piece, cast "until blocked by any
occupied square"; an own-occupied square is excluded, an enemy-occupied square is
included and stops the ray. -/
def ray (p : Position) (colour dr dc : Int) : Nat → Int → Int → List Nat
  | 0, _, _ => []
  | n + 1, r, c =>
    let r' := r + dr
    let c' := c + dc
    if !Heatmap.validSquare r' c' then []
    else if p.pieceAt (tileOf r' c') == -1 then tileOf r' c' :: ray p colour dr dc n r' c'
    else if p.pieceAt (tileOf r' c') % 2 == colour then []
    else [tileOf r' c']

/-- Modelled from the spec: a fixed offset pattern (knight, king), "filtered to board
bounds and to exclude squares occupied by own pieces". -/
def jumps (p : Position) (colour r c : Int) (offsets : List (Int × Int)) : List Nat :=
  offsets.filterMap (fun o =>
    let r' := r + o.1
    let c' := c + o.2
    if !Heatmap.validSquare r' c' then none
    else if p.pieceAt (tileOf r' c') != -1 && p.pieceAt (tileOf r' c') % 2 == colour then none
    else some (tileOf r' c'))

/-- Modelled from the spec: the pawn pattern, "forward-one only onto empty squares;
diagonal captures only onto enemy-occupied squares", in the direction "+row for white,
-row for black". -/
def pawnMoves (p : Position) (colour r c : Int) : List Nat :=
  let r' := if colour == 0 then r + 1 else r - 1
  (if Heatmap.validSquare r' c && p.pieceAt (tileOf r' c) == -1 then [tileOf r' c] else [])
  ++ [c - 1, c + 1].filterMap (fun c' =>
    if Heatmap.validSquare r' c' && p.pieceAt (tileOf r' c') != -1
        && p.pieceAt (tileOf r' c') % 2 != colour then some (tileOf r' c')
    else none)

/-- The four diagonal directions. -/
def diagonals : List (Int × Int) := [(1, 1), (1, -1), (-1, 1), (-1, -1)]

/-- The four rank and file directions. -/
def cardinals : List (Int × Int) := [(1, 0), (-1, 0), (0, 1), (0, -1)]

/-- The eight knight offsets. -/
def knightPattern : List (Int × Int) :=
  [(1, 2), (2, 1), (-1, 2), (-2, 1), (1, -2), (2, -1), (-1, -2), (-2, -1)]

/-- Modelled from the spec: the destination squares of `getLegalMoves` by piece kind
(`0` pawn, `1` knight, `2` bishop, `3` rook, `4` queen, `5` king) for the piece index
`2*kind + colour`; an index outside `0..11` has no destinations. -/
def destinations (p : Position) (pieceId : Int) (origin : Nat) : List Nat :=
  let colour := pieceId % 2
  let r : Int := (origin / 8 : Nat)
  let c : Int := (origin % 8 : Nat)
  let slide := fun (dirs : List (Int × Int)) =>
    dirs.flatMap (fun d => ray p colour d.1 d.2 7 r c)
  if pieceId < 0 || 12 ≤ pieceId then []
  else if pieceId / 2 == 0 then pawnMoves p colour r c
  else if pieceId / 2 == 1 then jumps p colour r c knightPattern
  else if pieceId / 2 == 2 then slide diagonals
  else if pieceId / 2 == 3 then slide cardinals
  else if pieceId / 2 == 4 then slide (cardinals ++ diagonals)
  else if pieceId / 2 == 5 then jumps p colour r c (cardinals ++ diagonals)
  else []

/-- Modelled from the spec: `getLegalMoves`, the destination squares as a bitmask. -/
def getLegalMoves (p : Position) (pieceId : Int) (origin : Nat) : Nat :=
  (destinations p pieceId origin).foldl (fun acc t => acc ||| 2 ^ t) 0

/-- Modelled from the spec: `movePiece` "removes any piece at destination, relocates
the piece at origin to destination, pushes a history entry" and "does not flip side to
move". A square off the board is a violated precondition: the occupancy is left as it
is. -/
def movePiece (p : Position) (origin destination : Nat) : Position :=
  if origin < p.squares.length ∧ destination < p.squares.length then
    { squares := (p.squares.set origin (-1)).set destination (p.pieceAt origin)
      turn := p.turn
      history := HistoryEntry.mk origin destination (p.pieceAt destination) p.turn :: p.history
      fenFields := p.fenFields }
  else
    { squares := p.squares
      turn := p.turn
      history := HistoryEntry.mk origin destination (-1) p.turn :: p.history
      fenFields := p.fenFields }

/-- Modelled from the spec: `undoLastMove` "pops the most recent history entry and
restores prior occupancy and captured piece, if any"; the side to move, which
`movePiece` does not change, is left as it is. With an empty history the position is
left as it is. -/
def undoLastMove (p : Position) : Position :=
  match p.history with
  | [] => p
  | e :: rest =>
    if e.source < p.squares.length ∧ e.destination < p.squares.length then
      { squares := (p.squares.set e.destination e.captured).set e.source (p.pieceAt e.destination)
        turn := p.turn
        history := rest
        fenFields := p.fenFields }
    else
      { squares := p.squares, turn := p.turn, history := rest, fenFields := p.fenFields }

/-- Modelled from the spec: `forceFlipTurn` "toggles side-to-move without touching
bitboards". -/
def forceFlipTurn (p : Position) : Position :=
  { squares := p.squares, turn := !p.turn, history := p.history, fenFields := p.fenFields }

/-- The position with the given pieces (square, composite index), the given side to
move, an empty history and the last four FEN fields of the starting layout. -/
def ofPieces (pieces : List (Nat × Int)) (turn : Bool) : Position :=
  { squares := (List.range 64).map (fun s => (pieces.lookup s).getD (-1))
    turn := turn
    history := []
    fenFields := startFields }

end Position

/-- The spec-modelled position store as an implementation of the board interface. -/
def positionStore : CFBoard Position where
  getCurrentPlayer := Position.getCurrentPlayer
  getPieceColorBitBoard := Position.getPieceColorBitBoard
  getPieceFromCoords := Position.getPieceFromCoords
  getLegalMoves := Position.getLegalMoves
  movePiece := Position.movePiece
  undoLastMove := Position.undoLastMove
  forceFlipTurn := Position.forceFlipTurn

/-- A white king on tile 0 and a black king on tile 63, black to move. -/
def twoKingsBlackToMove : Position := Position.ofPieces [(0, 10), (63, 11)] true

/-- A lone white knight on tile 0, white to move. -/
def loneKnight : Position := Position.ofPieces [(0, 2)] false

/-- A heatmap whose only targets are the squares `(1, 2)` and `(7, 7)` for the knight
(piece kind 1). -/
def knightTargets : HeatMap :=
  fun kind i j => if kind = 1 ∧ ((i = 1 ∧ j = 2) ∨ (i = 7 ∧ j = 7)) then 1 else 0

/-- A heatmap builder in the place of `Heatmap::addHeatMap`: it leaves the board alone
and hands back the heatmap `knightTargets`. -/
def addKnightTargets (board : Position) (_heatMap : HeatMap) (_weakPawns : Nat) :
    Position × HeatMap :=
  (board, knightTargets)

/-- A lone white pawn on tile 8, white to move. -/
def lonePawn : Position := Position.ofPieces [(8, 0)] false

/-- A white knight on tile 0 that can capture a black pawn on tile 10, white to move. -/
def knightAndPawn : Position := Position.ofPieces [(0, 2), (10, 1)] false

/-! ## The search tree `DFS1pAux` walks -/

/-- The board one ply further: the move is applied, then the turn is flipped, as in
lines 94-95 and 128-129. -/
def afterMove {β : Type} (B : CFBoard β) (board : β) (m : Move) : β :=
  B.forceFlipTurn (B.movePiece board m.start m.dest)

/-- A move passes the filters of `DFS1pAux` on a board: its destination bit is set in
`getLegalMoves(piece at start, start)`, its destination is empty, and its destination
is safe from the pawns of the opponent of the side to move. -/
def moveSurvives {β : Type} (B : CFBoard β) (board : β) (m : Move) : Prop :=
  (B.getLegalMoves board (B.getPieceFromCoords board m.start) m.start).testBit m.dest = true ∧
  B.getPieceFromCoords board m.dest = -1 ∧
  squareSafeFromOpponentPawns (B.getCurrentPlayer board)
    (B.getPieceColorBitBoard board (boolToInt (!B.getCurrentPlayer board)))
    (m.dest / 8 : Nat) (m.dest % 8 : Nat) = true

/-- The move of one `endTile` of the inner loop, if it passes the two filters of lines
89-91. -/
def endTileMove {β : Type} (B : CFBoard β) (board : β) (startTile endTile : Nat) :
    Option Move :=
  if B.getPieceFromCoords board endTile = -1 ∧
      squareSafeFromOpponentPawns (B.getCurrentPlayer board)
        (B.getPieceColorBitBoard board (boolToInt (!B.getCurrentPlayer board)))
        (endTile / 8 : Nat) (endTile % 8 : Nat) = true
  then some (Move.mk startTile endTile 0) else none

/-- The moves explored from one `startTile`: none if line 83 skips the square. -/
def startTileMoves {β : Type} (B : CFBoard β) (board : β) (startTile : Nat) : List Move :=
  if skipStartTile (B.getPieceFromCoords board startTile) (B.getCurrentPlayer board) then []
  else
    (bitSetPositions
      (B.getLegalMoves board (B.getPieceFromCoords board startTile) startTile)).filterMap
      (endTileMove B board startTile)

/-- The surviving moves of one ply on a board, in the order of the loops of
`DFS1pAux`: start tiles `0..63`, then the destinations in `bitSetPositions` order. -/
def survivingMoves {β : Type} (B : CFBoard β) (board : β) : List Move :=
  (List.range 64).flatMap (startTileMoves B board)

/-- All sequences of `k` surviving moves from a board, depth first: a surviving move,
followed by a sequence of `k - 1` surviving moves from the board after it. -/
def linesFrom {β : Type} (B : CFBoard β) : Nat → β → List Line
  | 0, _ => [[]]
  | k + 1, board =>
    (survivingMoves B board).flatMap
      (fun m => (linesFrom B k (afterMove B board m)).map (fun l => m :: l))

/-- The shape of what a call of `DFS1pAux` adds to the result set: every new line is
the current line extended by `k` moves. -/
def Extends (cur : Line) (k : Nat) (old new : List Line) : Prop :=
  ∃ added : List Line, new = old ++ added ∧
    ∀ l ∈ added, ∃ suffix : Line, l = cur ++ suffix ∧ suffix.length = k

/-! ## The candidates of `distFromHeatmap` -/

/-- A candidate of `distFromHeatmap`: a piece kind, the tile of a piece of that kind, a
square `(row, col)` that is a target of the heatmap for the kind and reachable by the
piece, and the distance of the square in the grid of the piece. -/
structure Candidate where
  kind : Nat
  piece : Nat
  row : Nat
  col : Nat
  dist : Int
  deriving DecidableEq

/-- The candidates of one piece, rows `0..7`, then columns `0..7`. -/
def gridCandidates (heatMap : HeatMap) (kind piece : Nat) (grid : Grid) : List Candidate :=
  (List.range 8).flatMap (fun i =>
    (List.range 8).filterMap (fun j =>
      if heatMap kind i j ≠ 0 ∧ grid i j ≠ -1 then some (Candidate.mk kind piece i j (grid i j))
      else none))

/-- The candidates of a board in the iteration order of `distFromHeatmap`: piece kinds
`0..5`, then the pieces of the side to move of that kind in `bitSetPositions` order,
then rows, then columns. -/
def heatmapCandidates {β : Type} (fuel : Nat) (B : CFBoard β) (board : β)
    (heatMap : HeatMap) : List Candidate :=
  (List.range 6).flatMap (fun kind =>
    (bitSetPositions (B.getPieceColorBitBoard board
        (Int.lor (2 * (kind : Int)) (boolToInt (B.getCurrentPlayer board))))).flatMap
      (fun piece =>
        match distFromTileToTilesAsPiece fuel B board kind piece with
        | some grid => gridCandidates heatMap kind piece grid
        | none => []))

/-- The distance of the last candidate of a list, or `dist` if the list is empty. -/
def lastDist (cands : List Candidate) (dist : Int) : Int :=
  match cands.getLast? with
  | some c => c.dist
  | none => dist

/-- The update of `minDist` and `ansLine` by one line whose score is `score line`. -/
def keepBetter (score : Line → Int) (acc : Int × Line) (line : Line) : Int × Line :=
  if score line < acc.1 then (score line, line) else acc

/-- A call of `DFS1pAux` only appends to the result set, and at most `bound` lines. -/
def Grows (bound : Nat) (old new : List Line) : Prop :=
  ∃ added : List Line, new = old ++ added ∧ added.length ≤ bound

/-- The origin squares of the calls `board.getLegalMoves(2*halfPieceId + currentTurn,
curi*8 + curj)` that the loop of `distFromTileToTilesAsPiece` makes (line 37), in the
order of the calls: one per dequeued square, along the same recursion as `bfsLoop`. -/
def bfsOrigins {β : Type} (B : CFBoard β) (board : β) (pieceId : Int) (currentTurn : Bool)
    (opponentPawnBoard : Nat) : Nat → Grid → List (Nat × Nat) → List Nat
  | _, _, [] => []
  | 0, _, _ :: _ => []
  | fuel + 1, dist, (curi, curj) :: q =>
    let nextSquares := B.getLegalMoves board pieceId (curi * 8 + curj)
    let st := (bitSetPositions nextSquares).foldl
      (bfsVisit B board currentTurn opponentPawnBoard curi curj) (dist, q)
    (curi * 8 + curj) :: bfsOrigins B board pieceId currentTurn opponentPawnBoard fuel st.1 st.2

/-- The origin squares of the calls to `getLegalMoves` that one call of
`distFromTileToTilesAsPiece` makes, in order. -/
def legalMovesOrigins {β : Type} (fuel : Nat) (B : CFBoard β) (board : β)
    (halfPieceId : Int) (startTile : Nat) : List Nat :=
  let currentTurn := B.getCurrentPlayer board
  let opponentPawnBoard := B.getPieceColorBitBoard board (boolToInt (!currentTurn))
  let dist : Grid := fun _ _ => -1
  let dist := dist.set (startTile / 8) (startTile % 8) 0
  bfsOrigins B board (2 * halfPieceId + boolToInt currentTurn) currentTurn opponentPawnBoard
    fuel dist [(startTile / 8, startTile % 8)]

/-! ## FEN import and export, the starting layout, check detection -/

/-- Modelled from the spec: `pieceIdToChar` of `CFBoard`, which is not part of the
sources; the table is the one `test_pieceCharToId` lists: ids `0..11` are
`P p N n B b R r Q q K k`. -/
def pieceIdToChar (pieceId : Int) : Char :=
  if pieceId = 0 then 'P' else if pieceId = 1 then 'p'
  else if pieceId = 2 then 'N' else if pieceId = 3 then 'n'
  else if pieceId = 4 then 'B' else if pieceId = 5 then 'b'
  else if pieceId = 6 then 'R' else if pieceId = 7 then 'r'
  else if pieceId = 8 then 'Q' else if pieceId = 9 then 'q'
  else if pieceId = 10 then 'K' else if pieceId = 11 then 'k'
  else '?'

/-- Modelled from the spec: `pieceCharToId` of `CFBoard`, the inverse table. -/
def pieceCharToId (c : Char) : Option Int :=
  if c = 'P' then some 0 else if c = 'p' then some 1
  else if c = 'N' then some 2 else if c = 'n' then some 3
  else if c = 'B' then some 4 else if c = 'b' then some 5
  else if c = 'R' then some 6 else if c = 'r' then some 7
  else if c = 'Q' then some 8 else if c = 'q' then some 9
  else if c = 'K' then some 10 else if c = 'k' then some 11
  else none

/-- The FEN digit for a run of `n` empty squares (`1..8`). -/
def emptyRunChar (n : Nat) : Char :=
  if n = 1 then '1' else if n = 2 then '2' else if n = 3 then '3' else if n = 4 then '4'
  else if n = 5 then '5' else if n = 6 then '6' else if n = 7 then '7' else '8'

/-- The number of empty squares a FEN digit `1..8` stands for. -/
def emptyRunLength (c : Char) : Option Nat :=
  if c = '1' then some 1 else if c = '2' then some 2
  else if c = '3' then some 3 else if c = '4' then some 4
  else if c = '5' then some 5 else if c = '6' then some 6
  else if c = '7' then some 7 else if c = '8' then some 8
  else none

/-- Modelled from the spec: one piece-placement row of the FEN export; `run` counts the
empty squares not yet written. -/
def exportRow : List Int → Nat → List Char
  | [], 0 => []
  | [], run + 1 => [emptyRunChar (run + 1)]
  | x :: xs, run =>
    if x = -1 then exportRow xs (run + 1)
    else (if run = 0 then [] else [emptyRunChar run]) ++ pieceIdToChar x :: exportRow xs 0

/-- Modelled from the spec: one piece-placement row of the FEN import; a character that
is neither a digit `1..8` nor a piece letter is rejected. -/
def importRow : List Char → Option (List Int)
  | [] => some []
  | c :: cs =>
    match emptyRunLength c with
    | some n => (importRow cs).map (fun row => List.replicate n (-1) ++ row)
    | none =>
      match pieceCharToId c with
      | some pieceId => (importRow cs).map (fun row => pieceId :: row)
      | none => none

/-- All rows of a piece placement, or nothing if one row is rejected. -/
def importRows : List (List Char) → Option (List (List Int))
  | [] => some []
  | r :: rs =>
    match importRow r with
    | some row => (importRows rs).map (fun rows => row :: rows)
    | none => none

/-- The fields of a text between the separators. -/
def splitOn (sep : Char) : List Char → List (List Char)
  | [] => [[]]
  | c :: cs =>
    if c = sep then [] :: splitOn sep cs
    else
      match splitOn sep cs with
      | [] => [[c]]
      | f :: fs => (c :: f) :: fs

/-- The fields, with the separator between them. -/
def joinWith (sep : Char) : List (List Char) → List Char
  | [] => []
  | [a] => a
  | a :: b :: rest => a ++ sep :: joinWith sep (b :: rest)

/-- The eight rows of the lookup, row 0 first. -/
def boardRows (squares : List Int) : List (List Int) :=
  (List.range 8).map (fun r => (squares.drop (8 * r)).take 8)

/-- Modelled from the spec: the FEN export `toFEN` of `CFBoard`, which is not part of
the sources. The piece placement lists the rows from row 7 (rank 8, the black back
rank of the starting layout) down to row 0, then the side to move, then the four
remaining fields as the position holds them ("byte-exact inverse of import"). -/
def Position.toFEN (p : Position) : String :=
  String.mk (joinWith ' '
    ([joinWith '/' ((boardRows p.squares).reverse.map (fun row => exportRow row 0)),
      [if p.turn then 'b' else 'w']] ++ p.fenFields))

/-- Modelled from the spec: the FEN import `CFBoard(fen)`, which "parses the 6-field
FEN string, populating bitboards/coords/side-to-move" and "must reject malformed
piece-placement rows (wrong square count)"; the history is empty, and the four fields
after the side to move are kept as read. -/
def Position.fromFEN (fen : String) : Option Position :=
  match splitOn ' ' fen.data with
  | [placement, side, castling, enPassant, halfMoves, fullMoves] =>
    match importRows (splitOn '/' placement) with
    | some rows =>
      if rows.length = 8 ∧ rows.all (fun row => row.length == 8) then
        if side = ['w'] then
          some (Position.mk rows.reverse.flatten false []
            [castling, enPassant, halfMoves, fullMoves])
        else if side = ['b'] then
          some (Position.mk rows.reverse.flatten true []
            [castling, enPassant, halfMoves, fullMoves])
        else none
      else none
    | none => none
  | _ => none

/-- Modelled from the spec: the default constructor `CFBoard()`, the "fixed starting
layout": the white pieces on rows 0 and 1, the black pieces on rows 6 and 7, white to
move, no history. -/
def Position.startingLayout : Position :=
  Position.ofPieces
    [(0, 6), (1, 2), (2, 4), (3, 8), (4, 10), (5, 4), (6, 2), (7, 6),
     (8, 0), (9, 0), (10, 0), (11, 0), (12, 0), (13, 0), (14, 0), (15, 0),
     (48, 1), (49, 1), (50, 1), (51, 1), (52, 1), (53, 1), (54, 1), (55, 1),
     (56, 7), (57, 3), (58, 5), (59, 9), (60, 11), (61, 5), (62, 3), (63, 7)]
    false

/-- The FEN of the standard starting position. -/
def startFEN : String := "rnbqkbnr/pppppppp/8/8/8/8/PPPPPPPP/RNBQKBNR w KQkq - 0 1"

/-- The second position of the board tests: the white queen on a4 faces the black king
on e8 along the diagonal that the pawn move d7-d6 opened. -/
def queenCheckFEN : String := "rnbqkbnr/ppp1pppp/3p4/8/Q7/2P5/PP1PPPPP/RNBQKBNR w KQkq - 0 1"

/-- A position is well formed: 64 squares, each empty (`-1`) or a piece `0..11`, and
four trailing FEN fields without a blank. -/
def Position.WellFormed (p : Position) : Prop :=
  (p.squares.length = 64 ∧ ∀ x ∈ p.squares, -1 ≤ x ∧ x ≤ 11) ∧
    p.fenFields.length = 4 ∧ ∀ f ∈ p.fenFields, ' ' ∉ f

/-- A piece-placement row is written the way the export writes it: no two digits in a
row (a run of empty squares is one digit). -/
def canonicalRow : List Char → Bool
  | [] => true
  | [_] => true
  | c :: d :: cs =>
    !((emptyRunLength c).isSome && (emptyRunLength d).isSome) && canonicalRow (d :: cs)

/-- Every row of the piece placement of a FEN is written with merged runs of empty
squares, as FEN is. -/
def canonicalFEN (fen : String) : Bool :=
  match splitOn ' ' fen.data with
  | placement :: _ => (splitOn '/' placement).all canonicalRow
  | [] => false

/-- The FEN that `main` of `DFS1P.cpp` imports: white to move, no castling rights. -/
def blockedFEN : String :=
  "rkq1bnnr/2b2p1p/4pPpP/3pP1P1/p1pP2N1/PpP5/1P4K1/RNBQ1B1R w - - 0 1"

/-- A position reachable from the starting layout by legal moves: a piece of the side
to move goes to a destination of its `getLegalMoves` mask; the turn is flipped by the
separate operation `forceFlipTurn`. -/
inductive Position.Reachable : Position → Prop
  | start : Position.Reachable Position.startingLayout
  | move (p : Position) (origin destination : Nat) :
      Position.Reachable p → origin < 64 → destination < 64 →
      p.pieceAt origin ≠ -1 → p.pieceAt origin % 2 = boolToInt p.turn →
      (p.getLegalMoves (p.pieceAt origin) origin).testBit destination = true →
      Position.Reachable (p.movePiece origin destination)
  | flip (p : Position) : Position.Reachable p → Position.Reachable p.forceFlipTurn

/-- Modelled from the spec: the square of the king of a colour, located "via the
bitboard" (the first set bit of the king's board). -/
def Position.kingSquare (p : Position) (color : Bool) : Option Nat :=
  (bitSetPositions (p.getPieceColorBitBoard (10 + boolToInt color))).head?

/-- Modelled from the spec: `naiveCheckCheck(color)` of `CFBoard`, which is not part of
the sources: "locate its king's square via the bitboard, then for every enemy piece on
the board, generate its legal-move bitmask and test whether the king's square is set". -/
def Position.naiveCheckCheck (p : Position) (color : Bool) : Bool :=
  match p.kingSquare color with
  | none => false
  | some king =>
    (List.range 64).any (fun s =>
      p.pieceAt s != -1 && p.pieceAt s % 2 != boolToInt color
        && (p.getLegalMoves (p.pieceAt s) s).testBit king)


/-! ## The boards `getNextMove` scores -/

/-- The boards that the scoring loop of `getNextMove` (lines 121-144) passes to
`distFromHeatmap`, one per line and in the order of the lines: the board after the
replay of the line (lines 123-134); the next line starts from the board that the
unwinding loop (lines 140-143) leaves. -/
def scoredBoards {β : Type} (B : CFBoard β) : β → List Line → List β
  | _, [] => []
  | board, line :: rest =>
    replayLine B board line ::
      scoredBoards B (unwindLine B (replayLine B board line) line) rest

/-- What the board operations do to the side to move: `movePiece` and `undoLastMove`
leave it as it is, `forceFlipTurn` toggles it. -/
def CFBoard.TurnLaws {β : Type} (B : CFBoard β) : Prop :=
  (∀ b s e, B.getCurrentPlayer (B.movePiece b s e) = B.getCurrentPlayer b) ∧
  (∀ b, B.getCurrentPlayer (B.forceFlipTurn b) = !B.getCurrentPlayer b) ∧
  (∀ b, B.getCurrentPlayer (B.undoLastMove b) = B.getCurrentPlayer b)

/-- The heatmap without targets. -/
def zeroHeatMap : HeatMap := fun _ _ _ => 0

/-- A board without pieces, white to move. -/
def emptyBoard : Position := Position.ofPieces [] false

/-- White pawns on the tiles 49, 53 and 54 and black pawns on the tiles 23 and 56,
white to move. -/
def pawnRace : Position :=
  Position.ofPieces [(49, 0), (53, 0), (54, 0), (23, 1), (56, 1)] false

/-- A heatmap whose only targets are the squares `(0, 7)` and `(6, 0)` for the pawn
(piece kind 0). -/
def pawnTargets : HeatMap :=
  fun kind i j => if kind = 0 ∧ ((i = 0 ∧ j = 7) ∨ (i = 6 ∧ j = 0)) then 1 else 0

/-- A heatmap builder in the place of `Heatmap::addHeatMap`: it leaves the board alone
and hands back the heatmap `pawnTargets`. -/
def addPawnTargets (board : Position) (_heatMap : HeatMap) (_weakPawns : Nat) :
    Position × HeatMap :=
  (board, pawnTargets)

/-- Modelled from the spec: a second reading of `undoLastMove`. A history entry
records "the side-to-move flag prior to the move", and this `undoLastMove` also puts
that flag back; the other six operations are those of `positionStore`. -/
def restoringStore : CFBoard Position where
  getCurrentPlayer := Position.getCurrentPlayer
  getPieceColorBitBoard := Position.getPieceColorBitBoard
  getPieceFromCoords := Position.getPieceFromCoords
  getLegalMoves := Position.getLegalMoves
  movePiece := Position.movePiece
  undoLastMove := fun p =>
    match p.history with
    | [] => p
    | e :: _ => { p.undoLastMove with turn := e.turnBefore }
  forceFlipTurn := Position.forceFlipTurn

/-- A heatmap builder in the place of `Heatmap::addHeatMap` that hands the board back
with the other side to move, and the heatmap `knightTargets`. -/
def addFlippedBoard (board : Position) (_heatMap : HeatMap) (_weakPawns : Nat) :
    Position × HeatMap :=
  (board.forceFlipTurn, knightTargets)

end DFS1P

/-! ## The regression evaluator (`general_regression.h`, `GeneralRegression.cpp`)

An `int*` argument is modelled as the memory it points into, a function from the offset
to the `int` stored there: a pawn array has its eight entries at the offsets `0..7`.
`int` arithmetic wraps at 32 bits. A `float` is the rational number it holds, and every
`float` operation of `Func` gives the exact result rounded to the nearest number with
24 significant bits, ties to the even significand (IEEE 754 binary32, round to nearest
even); `none` is the value NaN, which the quotient `0/0` produces and every later
operation hands on. The regression itself (`bestFitF`) and the weighted sum of
`Evaluate` are taken in exact arithmetic; the inverse of a singular matrix is `none`. -/

namespace GeneralRegression

/-- A 32-bit `int` result: the value wrapped into `-2^31 .. 2^31 - 1`. -/
def wrapInt (x : Int) : Int := (x + 2 ^ 31) % 2 ^ 32 - 2 ^ 31

/-- The integer nearest to `q`, the even one of the two when `q` lies half-way. -/
def roundHalfEven (q : ℚ) : Int :=
  if q - Int.floor q < 1 / 2 then Int.floor q
  else if 1 / 2 < q - Int.floor q then Int.floor q + 1
  else if Int.floor q % 2 = 0 then Int.floor q else Int.floor q + 1

/-- The rounding of a `float` operation: the number `n * 2^(e - 23)` nearest to the
exact result `x`, where `2^e <= |x| < 2^(e + 1)`, so that `n` has 24 bits. The exponent
is not bounded: the results of `Func` are 0 or lie between `2^-27` and `2^39` in
absolute value, inside the range of the normal `float` numbers. -/
def roundFloat (x : ℚ) : ℚ :=
  if x = 0 then 0
  else (roundHalfEven (x / 2 ^ (Int.log 2 |x| - 23)) : ℚ) * 2 ^ (Int.log 2 |x| - 23)

/-- The conversion of an `int` to `float`. -/
def floatOfInt (n : Int) : ℚ := roundFloat n

/-- The conversion of a `double` to `int`, which drops the fractional part. -/
def truncToInt (q : ℚ) : Int := if 0 ≤ q then Int.floor q else Int.ceil q

/-- The fields of the class `Func` (`general_regression.h`, lines 152-157). -/
structure Func where
  func_num : Int
  placement : Int
  difference_type : Int
  height : Int
  deriving DecidableEq

namespace Func

/-- The method `Func::InitFunc` (lines 26-34): it sets all four fields. -/
def InitFunc (func_num position_to_consider difference_type height : Int) : Func :=
  { func_num := func_num
    placement := position_to_consider
    difference_type := difference_type
    height := height }

/-- The method `Func::SquareDistance` (lines 101-104). -/
def SquareDistance (x y : Int) : Int := wrapInt (wrapInt (x - y) * wrapInt (x - y))

/-- The method `Func::AbsoluteErfDistance` (lines 106-117); `erf` is the function of
the C math library, which is not part of the sources. -/
def AbsoluteErfDistance (erf : ℚ → ℚ) (x y : Int) : Int :=
  if x > y then
    wrapInt (truncToInt ((erf ((wrapInt (10 * wrapInt (wrapInt (x - y) - 1)) : Int) : ℚ) + 1) / 2))
  else
    wrapInt (truncToInt ((erf ((wrapInt (10 * wrapInt (wrapInt (y - x) - 1)) : Int) : ℚ) + 1) / 2))

/-- The body of the loop of `Func::AveragePos` (lines 124-139) for one column `i`; the
state is `(tot_sum, pon_count)`. -/
def averageStep (l_top_pons l_bottom_pons : Int → Int) (acc : Int × Nat) (i : Nat) :
    Int × Nat :=
  let pos_1 := l_top_pons i
  let pos_2 := l_bottom_pons i
  let acc := if pos_1 ≤ 7 then (wrapInt (acc.1 + pos_1), acc.2 + 1) else acc
  if pos_2 ≥ 0 then (wrapInt (acc.1 + pos_2), acc.2 + 1) else acc

/-- The method `Func::AveragePos` (lines 119-149). With no pawn counted `tot_sum` and
`pon_count` are 0 and the quotient `0.0f / 0.0f` is NaN: the test `ret > 3.5` fails and
`3.5 - ret` is NaN. Otherwise `ret` is the rounded quotient of the two `float`
conversions (`pon_count` is at most 16), the difference with the `double` 3.5 is
exact in `double` arithmetic, and the `return` rounds it to `float`. -/
def AveragePos (l_top_pons l_bottom_pons : Int → Int) : Option ℚ :=
  let s := (List.range 8).foldl (averageStep l_top_pons l_bottom_pons) (0, 0)
  if s.2 = 0 then none
  else
    let ret := roundFloat (floatOfInt s.1 / (s.2 : ℚ))
    some (roundFloat (if ret > 7 / 2 then ret - 7 / 2 else 7 / 2 - ret))

/-- The method `Func::Eval_help` with two arrays (lines 58-78). For `func_num == 0`
the product `100 * AveragePos(...)` is a `float` product, `ceil` gives its integer
ceiling, and the quotient by 100 is rounded to the `float` that is returned. -/
def Eval_help (erf : ℚ → ℚ) (f : Func) (l_top_pons l_bottom_pons : Int → Int) : Option ℚ :=
  let t := l_top_pons f.placement
  let b := l_bottom_pons f.placement
  if f.func_num = 0 then
    (AveragePos l_top_pons l_bottom_pons).map
      (fun a => roundFloat ((Int.ceil (roundFloat (100 * a)) : ℚ) / 100))
  else if f.func_num = 1 then some (floatOfInt (SquareDistance t b))
  else some (floatOfInt (AbsoluteErfDistance erf t b))

/-- The overload of `Func::Eval_help` with one array (lines 81-96). -/
def Eval_help_consecutive (erf : ℚ → ℚ) (f : Func) (l : Int → Int) : Option ℚ :=
  let pon1 := l f.placement
  let pon2 := l (f.placement + 1)
  if f.func_num = 1 then some (floatOfInt (SquareDistance pon1 pon2))
  else some (floatOfInt (AbsoluteErfDistance erf pon1 pon2))

/-- The method `Func::Eval` (lines 41-56). -/
def Eval (erf : ℚ → ℚ) (f : Func) (l_top_pons l_bottom_pons : Int → Int) : Option ℚ :=
  if f.difference_type = 1 then
    if f.height = 2 then Eval_help_consecutive erf f l_top_pons
    else Eval_help_consecutive erf f l_bottom_pons
  else Eval_help erf f l_top_pons l_bottom_pons

end Func

/-- The function `SqrtDifBasis::GenerateBasis` (`GeneralRegression.cpp`, lines
112-126); `fresh` is a default-constructed `Func`, whose fields are not set. The array
is the function from the index to the element. -/
def SqrtDifBasis.GenerateBasis (fresh : Func) : Nat → Func :=
  let basis : Nat → Func := fun _ => fresh
  let basis := (List.range 7).foldl (fun (basis : Nat → Func) i =>
    Function.update (Function.update basis i (Func.InitFunc 1 i 1 2))
      (i + 7) (Func.InitFunc 1 i 1 1)) basis
  let basis := (List.range 8).foldl (fun (basis : Nat → Func) j =>
    Function.update basis (j + 14) (Func.InitFunc 1 j 2 (-1))) basis
  Function.update basis 22 (Func.InitFunc 0 (-1) 2 (-1))

/-- The function `TheRegression::setUpQ` (`GeneralRegression.cpp`, lines 26-37): the
entry `(i, j)` is `basis[j].Eval(X[2 * i], X[2 * i + 1])`; each entry is assigned once,
so the two loops are the table of the entries. -/
def setUpQ (erf : ℚ → ℚ) (basis : Nat → Func) (X : Nat → Int → Int)
    (dimension num_data_points : Nat) :
    Option (Matrix (Fin num_data_points) (Fin dimension) ℚ) :=
  if h : ∀ (i : Fin num_data_points) (j : Fin dimension),
      ((basis j).Eval erf (X (2 * i)) (X (2 * i + 1))).isSome = true then
    some (Matrix.of fun i j => ((basis j).Eval erf (X (2 * i)) (X (2 * i + 1))).get (h i j))
  else none

/-- The function `TheRegression::setUpYVect` (`GeneralRegression.cpp`, lines 47-54). -/
def setUpYVect (data_outputs : Nat → ℚ) (num_data_points : Nat) : Fin num_data_points → ℚ :=
  fun i => data_outputs i

/-- The method `inverse()` of Eigen, which is not part of the sources: the inverse of
an invertible square matrix. -/
def inverse {d : Nat} (A : Matrix (Fin d) (Fin d) ℚ) : Option (Matrix (Fin d) (Fin d) ℚ) :=
  if A.det = 0 then none else some (A.det⁻¹ • A.adjugate)

/-- The function `TheRegression::bestFitF` (`GeneralRegression.cpp`, lines 76-88). The
matrix `mu` is the identity of size 23, so the sum `trans_Q * Q + mu * 0.001` exists
for `dimension = 23` only; `0.001` is the rational `1/1000`. -/
def bestFitF (erf : ℚ → ℚ) (basis : Nat → Func) (X : Nat → Int → Int)
    (data_outputs : Nat → ℚ) (dimension num_data_points : Nat) :
    Option (Fin dimension → ℚ) :=
  match setUpQ erf basis X dimension num_data_points with
  | none => none
  | some Q =>
    let Y := setUpYVect data_outputs num_data_points
    let trans_Q := Q.transpose
    if dimension = 23 then
      let mu : Matrix (Fin dimension) (Fin dimension) ℚ := 1
      match inverse (trans_Q * Q + (1 / 1000 : ℚ) • mu) with
      | none => none
      | some helper_M => some ((helper_M * trans_Q).mulVec Y)
    else none

/-- The eight entries of a pawn array are small enough for the `int` arithmetic of
`Func` not to wrap and for the squares to be `float` numbers: at most 2047 in absolute
value. -/
def SmallEntries (a : Int → Int) : Prop :=
  ∀ i : Nat, i < 8 → -2047 ≤ a i ∧ a i ≤ 2047

/-- The sum of the heights of the pawns present: a top entry counts iff it is `≤ 7`, a
bottom entry iff it is `≥ 0`. -/
def pawnSum (top bottom : Int → Int) : Int :=
  ((List.range 8).map (fun i : Nat =>
    (if top i ≤ 7 then top i else 0) + (if bottom i ≥ 0 then bottom i else 0))).sum

/-- The number of pawns present. -/
def pawnCount (top bottom : Int → Int) : Nat :=
  ((List.range 8).map (fun i : Nat =>
    (if top i ≤ 7 then 1 else 0) + (if bottom i ≥ 0 then 1 else 0))).sum

/-- The average height of the pawns of both players. -/
def averageHeight (top bottom : Int → Int) : ℚ :=
  (pawnSum top bottom : ℚ) / (pawnCount top bottom : ℚ)

/-- The sum over the data points of the squared residuals of the weights `theta`. -/
def squaredError {K : Type} [Field K] {n d : Nat} (Q : Matrix (Fin n) (Fin d) K)
    (Y : Fin n → K) (theta : Fin d → K) : K :=
  ∑ i, (∑ j, theta j * Q i j - Y i) ^ 2

/-- The squared error with the penalty `lam` times the sum of the squared weights. -/
def ridgeError {K : Type} [Field K] {n d : Nat} (Q : Matrix (Fin n) (Fin d) K)
    (Y : Fin n → K) (lam : K) (theta : Fin d → K) : K :=
  squaredError Q Y theta + lam * ∑ j, theta j ^ 2

/-- The memory of an `int` array with the given entries (and `0` around it). -/
def arrayOf (entries : List Int) : Int → Int :=
  fun k => if 0 ≤ k then entries.getD k.toNat 0 else 0

/-- The first data point of `getTheta` (`GeneralRegression.cpp`, lines 253-254):
`X[0]` holds the top pawns, `X[1]` the bottom pawns. -/
def firstDataPoint : Nat → Int → Int :=
  fun k => if k = 0 then arrayOf [3, 3, 4, 1, 1, 2, 2, 5] else arrayOf [4, 4, 5, 2, 2, 3, 3, 6]

/-- The data point of index 255 of `getTheta` (`GeneralRegression.cpp`, lines
1018-1019), `X[510]` and `X[511]`: six top pawns and four bottom pawns, of heights
`5, 3, 4, 4, 3, 4` and `5, 3, 3, 5`. -/
def laterDataPoint : Nat → Int → Int :=
  fun k => if k = 0 then arrayOf [5, 3, 4, 8, 8, 4, 3, 4] else arrayOf [-1, 5, -1, 3, 3, -1, 5, -1]

/-- The row of the matrix `Q` for the first data point of `getTheta`; the last entry
is the `float` nearest to `0.38`. -/
def firstDataMatrix : Matrix (Fin 1) (Fin 23) ℚ :=
  Matrix.of fun _ j =>
    ([0, 1, 9, 0, 1, 0, 9, 0, 1, 9, 0, 1, 0, 9, 1, 1, 1, 1, 1, 1, 1, 1,
      3187671 / 8388608] : List ℚ).getD j.val 0

/-- The outputs of the first data points of `getTheta` (line 1754), `0.01`. -/
def firstOutputs : Nat → ℚ := fun _ => 1 / 100

/-- A default-constructed `Func` for the examples. -/
def freshFunc : Func := Func.mk 0 0 0 0

/-- A function in the place of `erf` for the examples, which use the basis of
`SqrtDifBasis` and never call it. -/
def erfUnused : ℚ → ℚ := fun _ => 0

end GeneralRegression

namespace GeneralRegression

/-! ### The offsets `Func::Eval` reads, the other bases, `Evaluate` -/

namespace Func

/-- The offsets that the overload of `Func::Eval_help` with one array reads from it
(lines 83-84). -/
def Eval_help_consecutive_reads (f : Func) : List Int :=
  [f.placement, f.placement + 1]

/-- The offsets that `Func::Eval_help` with two arrays reads from them, in order:
`placement` in both arrays (lines 60-61), before `func_num` is tested, and for
`func_num == 0` the offsets `0..7` of both arrays in `AveragePos` (lines 124-127). -/
def Eval_help_reads (f : Func) : List Int :=
  [f.placement, f.placement] ++
    (if f.func_num = 0 then (List.range 8).flatMap (fun i : Nat => [(i : Int), (i : Int)])
     else [])

/-- The offsets that `Func::Eval` reads from its arrays (lines 41-56). -/
def Eval_reads (f : Func) : List Int :=
  if f.difference_type = 1 then f.Eval_help_consecutive_reads else f.Eval_help_reads

end Func

/-- The function `AbsErfBasis::GenerateBasis` (`GeneralRegression.cpp`, lines 148-162). -/
def AbsErfBasis.GenerateBasis (fresh : Func) : Nat → Func :=
  let basis : Nat → Func := fun _ => fresh
  let basis := (List.range 7).foldl (fun (basis : Nat → Func) i =>
    Function.update (Function.update basis i (Func.InitFunc 2 i 1 2))
      (i + 7) (Func.InitFunc 2 i 1 1)) basis
  let basis := (List.range 8).foldl (fun (basis : Nat → Func) j =>
    Function.update basis (j + 14) (Func.InitFunc 2 j 2 (-1))) basis
  Function.update basis 22 (Func.InitFunc 0 (-1) 2 (-1))

/-- The function `AbsSqrtDifBasis::GenerateBasis` (`GeneralRegression.cpp`, lines
167-181). -/
def AbsSqrtDifBasis.GenerateBasis (fresh : Func) : Nat → Func :=
  let basis : Nat → Func := fun _ => fresh
  let basis := (List.range 7).foldl (fun (basis : Nat → Func) i =>
    Function.update (Function.update basis i (Func.InitFunc 2 i 1 2))
      (i + 7) (Func.InitFunc 2 i 1 1)) basis
  let basis := (List.range 8).foldl (fun (basis : Nat → Func) j =>
    Function.update basis (j + 14) (Func.InitFunc 1 j 2 (-1))) basis
  Function.update basis 22 (Func.InitFunc 0 (-1) 2 (-1))

/-- The function `SqrtAbsDifBasis::GenerateBasis` (`GeneralRegression.cpp`, lines
186-200). -/
def SqrtAbsDifBasis.GenerateBasis (fresh : Func) : Nat → Func :=
  let basis : Nat → Func := fun _ => fresh
  let basis := (List.range 7).foldl (fun (basis : Nat → Func) i =>
    Function.update (Function.update basis i (Func.InitFunc 1 i 1 2))
      (i + 7) (Func.InitFunc 1 i 1 1)) basis
  let basis := (List.range 8).foldl (fun (basis : Nat → Func) j =>
    Function.update basis (j + 14) (Func.InitFunc 2 j 2 (-1))) basis
  Function.update basis 22 (Func.InitFunc 0 (-1) 2 (-1))

/-- The matrix that `bestFitF` inverts, `trans_Q * Q + mu * 0.001`, over any field. -/
def regularised {K : Type} [Field K] {n d : Nat} (Q : Matrix (Fin n) (Fin d) K) :
    Matrix (Fin d) (Fin d) K :=
  Q.transpose * Q + (1 / 1000 : K) • (1 : Matrix (Fin d) (Fin d) K)

namespace EvaluationFunction

end EvaluationFunction

end GeneralRegression

/-! ## The board tests (`test_Board_Implementation.cpp`) -/

namespace CFBoardTester

/-- The function `test_pieceCharToId` (`test_Board_Implementation.cpp`, lines 19-34),
as the list of the strings it prints. The text is read with its two slips repaired
(`bool TF = true;` and `TF = false;`). The comparison `test[i] != out[i]` compares two
`char` values, the character and the number. -/
def test_pieceCharToId : List String :=
  let test : List Char := ['P', 'p', 'N', 'n', 'B', 'b', 'R', 'r', 'Q', 'q', 'K', 'k']
  let out : List Nat := [0, 1, 2, 3, 4, 5, 6, 7, 8, 9, 10, 11]
  let start : List String × Bool := (["test_pieceCarToId ", "["], true)
  let st := (List.range 12).foldl (fun (st : List String × Bool) (i : Nat) =>
    if (test.getD i 'P').toNat != out.getD i 0 then (st.1 ++ ["Failure"], false)
    else st) start
  if st.2 == true then st.1 ++ ["Success"] else st.1

/-- The piece characters of the test, in its order. -/
def testChars : List Char := ['P', 'p', 'N', 'n', 'B', 'b', 'R', 'r', 'Q', 'q', 'K', 'k']

end CFBoardTester

/-! ## Theorems -/

namespace DFS1P

/-! ### Breadth-first search over an abstract graph -/

theorem unvisited_update_le {α : Type} [DecidableEq α]
    (univ : List α) (dist : α → Int) (w : α) (x : Int) (hx : x ≠ -1) :
    unvisited univ (Function.update dist w x) ≤ unvisited univ dist := by
  unfold unvisited
  induction univ with
  | nil => simp
  | cons a l ih =>
    simp only [List.countP_cons]
    by_cases ha : a = w
    · subst ha
      have h1 : (x == -1) = false := by simpa using hx
      simp only [Function.update_same, h1, Bool.false_eq_true, if_false]
      by_cases h2 : (dist a == -1) = true
      · simp only [h2, if_true]; omega
      · simp only [h2, if_false]; omega
    · simp only [Function.update_noteq ha]
      omega

theorem unvisited_update_lt {α : Type} [DecidableEq α]
    (univ : List α) (dist : α → Int) (w : α) (x : Int) (hx : x ≠ -1)
    (hw : w ∈ univ) (hd : dist w = -1) :
    unvisited univ (Function.update dist w x) < unvisited univ dist := by
  induction univ with
  | nil => simp at hw
  | cons a l ih =>
    have hle := unvisited_update_le l dist w x hx
    unfold unvisited at *
    simp only [List.countP_cons]
    by_cases ha : a = w
    · subst ha
      have h1 : (x == -1) = false := by simpa using hx
      have h2 : (dist a == -1) = true := by simp [hd]
      simp only [Function.update_same, h1, h2]
      simp
      omega
    · have hw' : w ∈ l := by
        rcases List.mem_cons.1 hw with h | h
        · exact absurd h.symm ha
        · exact h
      have := ih hw'
      simp only [Function.update_noteq ha]
      omega

theorem visit_step {α : Type} [DecidableEq α]
    (succ : α → List α) (ok : α → Bool) (univ : List α) (K : Int) (s u : α)
    (hU : ∀ w, ok w = true → w ∈ univ)
    (done : List α) (dist : α → Int) (q : List α) (w : α) (hw : w ∈ succ u)
    (inv : VisitInv succ ok univ K s u done dist q) :
    VisitInv succ ok univ K s u (done ++ [w]) (gVisit ok u (dist, q) w).1
        (gVisit ok u (dist, q) w).2 ∧
      unvisited univ (gVisit ok u (dist, q) w).1 + (gVisit ok u (dist, q) w).2.length
        ≤ unvisited univ dist + q.length := by
  unfold gVisit
  by_cases h : dist w ≠ -1 ∨ ok w = false
  · simp only [h, if_true]
    refine ⟨?_, le_refl _⟩
    refine { inv with handled := ?_ }
    intro x hx hokx
    rcases List.mem_append.1 hx with hx | hx
    · exact inv.handled x hx hokx
    · have hxw : x = w := by simpa using hx
      subst hxw
      have hv : dist x ≠ -1 := by
        rcases h with h | h
        · exact h
        · rw [hokx] at h; exact absurd h (by simp)
      exact ⟨hv, inv.near x hv⟩
  · simp only [h, if_false]
    have hdw : dist w = -1 := by
      by_contra hc; exact h (Or.inl hc)
    have hokw : ok w = true := by
      cases hk : ok w
      · exact absurd (Or.inr hk) h
      · rfl
    obtain ⟨nu, hnu, hwalk⟩ := inv.reach u inv.cur
    have hne : dist u + 1 ≠ -1 := by omega
    have hwu : w ≠ u := fun e => inv.cur (e ▸ hdw)
    have hws : w ≠ s := fun e => by
      have := inv.start; rw [← e, hdw] at this; omega
    have hwq : w ∉ q := fun hin => inv.queued w hin hdw
    have hold : ∀ v, v ≠ w → Function.update dist w (dist u + 1) v = dist v :=
      fun v hv => Function.update_noteq hv _ _
    have hnew : Function.update dist w (dist u + 1) w = dist u + 1 := Function.update_same _ _ _
    have hvis : ∀ v, Function.update dist w (dist u + 1) v ≠ -1 → v ≠ w → dist v ≠ -1 :=
      fun v hv hvw => by rwa [hold v hvw] at hv
    have hlt := unvisited_update_lt univ dist w (dist u + 1) hne (hU w hokw) hdw
    refine ⟨?_, ?_⟩
    · refine ⟨?_, ?_, ?_, ?_, ?_, ?_, ?_, ?_, ?_, ?_⟩
      · rw [hold s (Ne.symm hws)]; exact inv.start
      · rw [hold u (Ne.symm hwu)]; exact inv.cur
      · intro v hv
        rcases List.mem_append.1 hv with hv | hv
        · have hvw : v ≠ w := fun e => hwq (e ▸ hv)
          rw [hold v hvw]; exact inv.queued v hv
        · have hvw : v = w := by simpa using hv
          rw [hvw, hnew]; exact hne
      · intro v hv
        by_cases hvw : v = w
        · subst hvw
          refine ⟨nu + 1, ?_, Walk.snoc hwalk ⟨hw, hokw⟩⟩
          rw [hnew, hnu]; push_cast; ring
        · rw [hold v hvw]; exact inv.reach v (hvis v hv hvw)
      · rw [List.pairwise_append]
        refine ⟨?_, List.pairwise_singleton _ _, ?_⟩
        · refine inv.sorted.imp_of_mem ?_
          intro a b ha hb hab
          have haw : a ≠ w := fun e => hwq (e ▸ ha)
          have hbw : b ≠ w := fun e => hwq (e ▸ hb)
          rw [hold a haw, hold b hbw]; exact hab
        · intro a ha b hb
          have hbw : b = w := by simpa using hb
          have haw : a ≠ w := fun e => hwq (e ▸ ha)
          rw [hbw, hnew, hold a haw]
          exact inv.near a (inv.queued a ha)
      · intro v hv
        rw [hold u (Ne.symm hwu)]
        rcases List.mem_append.1 hv with hv | hv
        · have hvw : v ≠ w := fun e => hwq (e ▸ hv)
          rw [hold v hvw]; exact inv.front v hv
        · have hvw : v = w := by simpa using hv
          rw [hvw, hnew]; omega
      · intro v hv
        rw [hold u (Ne.symm hwu)]
        by_cases hvw : v = w
        · rw [hvw, hnew]
        · rw [hold v hvw]; exact inv.near v (hvis v hv hvw)
      · intro v hv hvq hvu x hx hokx
        have hvw : v ≠ w := fun e => hvq (by simp [e])
        have hvq' : v ∉ q := fun hin => hvq (List.mem_append.2 (Or.inl hin))
        have := inv.closed v (hvis v hv hvw) hvq' hvu x hx hokx
        have hxw : x ≠ w := fun e => this.1 (e ▸ hdw)
        rw [hold x hxw, hold v hvw]; exact this
      · intro x hx hokx
        rw [hold u (Ne.symm hwu)]
        by_cases hxw : x = w
        · rw [hxw, hnew]; exact ⟨hne, le_refl _⟩
        · rw [hold x hxw]
          rcases List.mem_append.1 hx with hx | hx
          · exact inv.handled x hx hokx
          · exact absurd (by simpa using hx) hxw
      · intro v hv
        by_cases hvw : v = w
        · rw [hvw, hnew]
          have := inv.bound u inv.cur
          omega
        · rw [hold v hvw]
          have := inv.bound v (hvis v hv hvw)
          omega
    · simp only [List.length_append, List.length_singleton]
      omega

theorem visit_fold {α : Type} [DecidableEq α]
    (succ : α → List α) (ok : α → Bool) (univ : List α) (K : Int) (s u : α)
    (hU : ∀ w, ok w = true → w ∈ univ) (l : List α) :
    ∀ (done : List α) (dist : α → Int) (q : List α), (∀ w ∈ l, w ∈ succ u) →
      VisitInv succ ok univ K s u done dist q →
      VisitInv succ ok univ K s u (done ++ l) (l.foldl (gVisit ok u) (dist, q)).1
          (l.foldl (gVisit ok u) (dist, q)).2 ∧
        unvisited univ (l.foldl (gVisit ok u) (dist, q)).1
            + (l.foldl (gVisit ok u) (dist, q)).2.length
          ≤ unvisited univ dist + q.length := by
  induction l with
  | nil => intro done dist q _ inv; simpa using inv
  | cons w l ih =>
    intro done dist q hl inv
    have h1 := visit_step succ ok univ K s u hU done dist q w (hl w (by simp)) inv
    have h2 := ih (done ++ [w]) (gVisit ok u (dist, q) w).1 (gVisit ok u (dist, q) w).2
      (fun x hx => hl x (by simp [hx])) h1.1
    simp only [List.foldl_cons]
    rw [List.append_assoc] at h2
    exact ⟨h2.1, le_trans h2.2 h1.2⟩

theorem visit_begin {α : Type}
    (succ : α → List α) (ok : α → Bool) (univ : List α) (K : Int) (s u : α)
    (dist : α → Int) (q : List α) (inv : LoopInv succ ok univ K s dist (u :: q)) :
    VisitInv succ ok univ K s u [] dist q := by
  have hs := List.pairwise_cons.1 inv.sorted
  refine ⟨inv.start, inv.queued u (by simp), fun v hv => inv.queued v (by simp [hv]), inv.reach,
    hs.2, fun v hv => hs.1 v hv, fun v hv => inv.near v hv u (by simp), ?_, ?_, inv.bound⟩
  · intro v hv hvq hvu
    exact inv.closed v hv (by simp [hvq, hvu])
  · intro w hw; simp at hw

theorem visit_end {α : Type} (succ : α → List α) (ok : α → Bool) (univ : List α) (K : Int) (s u : α)
    (dist : α → Int) (q : List α) (inv : VisitInv succ ok univ K s u (succ u) dist q) :
    LoopInv succ ok univ K s dist q := by
  refine ⟨inv.start, inv.queued, inv.reach, inv.sorted, ?_, ?_, inv.bound⟩
  · intro v hv x hx
    have h1 := inv.near v hv
    have h2 := inv.front x hx
    omega
  · intro v hv hvq w hw hokw
    by_cases hvu : v = u
    · subst hvu; exact inv.handled w hw hokw
    · exact inv.closed v hv hvq hvu w hw hokw

theorem gLoop_inv {α : Type} [DecidableEq α]
    (succ : α → List α) (ok : α → Bool) (univ : List α) (K : Int) (s : α)
    (hU : ∀ w, ok w = true → w ∈ univ) (fuel : Nat) :
    ∀ (dist : α → Int) (q : List α), LoopInv succ ok univ K s dist q →
      unvisited univ dist + q.length ≤ fuel →
      ∃ d, gLoop succ ok fuel dist q = some d ∧ LoopInv succ ok univ K s d [] := by
  induction fuel with
  | zero =>
    intro dist q inv hm
    cases q with
    | nil => exact ⟨dist, by simp [gLoop], inv⟩
    | cons u q => simp at hm
  | succ fuel ih =>
    intro dist q inv hm
    cases q with
    | nil => exact ⟨dist, by simp [gLoop], inv⟩
    | cons u q =>
      have h := visit_fold succ ok univ K s u hU (succ u) [] dist q (fun w hw => hw)
        (visit_begin succ ok univ K s u dist q inv)
      rw [List.nil_append] at h
      have hm' : unvisited univ ((succ u).foldl (gVisit ok u) (dist, q)).1
          + ((succ u).foldl (gVisit ok u) (dist, q)).2.length ≤ fuel := by
        have := h.2
        simp only [List.length_cons] at hm
        omega
      obtain ⟨d, hd, hinv⟩ := ih _ _ (visit_end succ ok univ K s u _ _ h.1) hm'
      exact ⟨d, by simpa [gLoop] using hd, hinv⟩

theorem loopInv_init {α : Type} (succ : α → List α) (ok : α → Bool) (univ : List α) (s : α)
    (dist : α → Int) (h0 : dist s = 0) (h1 : ∀ v, v ≠ s → dist v = -1) :
    LoopInv succ ok univ (unvisited univ dist) s dist [s] := by
  have hv : ∀ v, dist v ≠ -1 → v = s := fun v hv => by
    by_contra hc; exact hv (h1 v hc)
  refine ⟨h0, ?_, ?_, List.pairwise_singleton _ _, ?_, ?_, ?_⟩
  · intro v hv'
    have : v = s := by simpa using hv'
    rw [this, h0]; omega
  · intro v hv'
    rw [hv v hv']
    exact ⟨0, by simpa using h0, Walk.nil⟩
  · intro v hv' u hu
    have : u = s := by simpa using hu
    rw [this, hv v hv', h0]; omega
  · intro v hv' hq
    exact absurd (by simp [hv v hv']) hq
  · intro v hv'
    rw [hv v hv', h0]; omega

/-- Correctness of the queue loop over an abstract graph: started from the grid that
holds `0` at `s` and `-1` elsewhere, with the queue `[s]` and fuel for every node of
the universe, it returns a grid that holds at every node the length of a shortest walk
from `s`, and `-1` exactly at the nodes without a walk. -/
theorem gLoop_spec {α : Type} [DecidableEq α]
    (succ : α → List α) (ok : α → Bool) (univ : List α) (s : α)
    (hU : ∀ w, ok w = true → w ∈ univ)
    (dist : α → Int) (h0 : dist s = 0) (h1 : ∀ v, v ≠ s → dist v = -1)
    (fuel : Nat) (hf : unvisited univ dist + 1 ≤ fuel) :
    ∃ d, gLoop succ ok fuel dist [s] = some d ∧ d s = 0 ∧
      (∀ t, d t ≠ -1 →
        ∃ n : Nat, d t = n ∧ Walk (fun a b => b ∈ succ a ∧ ok b = true) s n t) ∧
      (∀ t n, Walk (fun a b => b ∈ succ a ∧ ok b = true) s n t → d t ≠ -1 ∧ d t ≤ n) ∧
      (∀ t, d t ≤ unvisited univ dist) := by
  obtain ⟨d, hd, inv⟩ := gLoop_inv succ ok univ (unvisited univ dist) s hU fuel dist [s]
    (loopInv_init succ ok univ s dist h0 h1) (by simpa using hf)
  refine ⟨d, hd, inv.start, inv.reach, ?_, ?_⟩
  · intro t n hw
    induction hw with
    | nil => rw [inv.start]; exact ⟨by omega, by omega⟩
    | snoc hwalk hedge ih =>
      have := inv.closed _ ih.1 (by simp) _ hedge.1 hedge.2
      exact ⟨this.1, by push_cast; omega⟩
  · intro t
    by_cases ht : d t = -1
    · rw [ht]; omega
    · have := inv.bound t ht
      omega

/-! ### The loop of `distFromTileToTilesAsPiece` is the abstract loop -/

theorem gridOf_set (d : Grid) (i j : Nat) (v : Int) :
    gridOf (d.set i j v) = Function.update (gridOf d) (i, j) v := by
  funext p
  obtain ⟨a, b⟩ := p
  by_cases h : a = i ∧ b = j
  · obtain ⟨rfl, rfl⟩ := h
    simp [gridOf, Grid.set]
  · have : (a, b) ≠ (i, j) := fun e => h (by simpa using e)
    simp [gridOf, Grid.set, h, Function.update_noteq this]

theorem bfsVisit_eq {β : Type} (B : CFBoard β) (board : β) (currentTurn : Bool)
    (opponentPawnBoard : Nat) (curi curj : Nat) (st : Grid × List (Nat × Nat)) (t : Nat) :
    gVisit (squareOk B board currentTurn opponentPawnBoard) (curi, curj) (gridOf st.1, st.2)
        (squareOf t)
      = (gridOf (bfsVisit B board currentTurn opponentPawnBoard curi curj st t).1,
          (bfsVisit B board currentTurn opponentPawnBoard curi curj st t).2) := by
  obtain ⟨d, q⟩ := st
  unfold gVisit bfsVisit squareOk squareOf
  simp only [gridOf]
  cases h1 : Heatmap.validSquare ((t / 8 : Nat) : Int) ((t % 8 : Nat) : Int) <;>
  cases h3 : (B.getPieceFromCoords board (t / 8 * 8 + t % 8) == -1) <;>
  cases h4 : squareSafeFromOpponentPawns currentTurn opponentPawnBoard
      ((t / 8 : Nat) : Int) ((t % 8 : Nat) : Int) <;>
  by_cases h2 : d (t / 8) (t % 8) = -1 <;>
  simp_all [gridOf_set, gridOf]

theorem bfsVisit_foldl_eq {β : Type} (B : CFBoard β) (board : β) (currentTurn : Bool)
    (opponentPawnBoard : Nat) (curi curj : Nat) (l : List Nat) :
    ∀ st : Grid × List (Nat × Nat),
      (l.map squareOf).foldl
          (gVisit (squareOk B board currentTurn opponentPawnBoard) (curi, curj))
          (gridOf st.1, st.2)
        = (gridOf (l.foldl (bfsVisit B board currentTurn opponentPawnBoard curi curj) st).1,
            (l.foldl (bfsVisit B board currentTurn opponentPawnBoard curi curj) st).2) := by
  induction l with
  | nil => intro st; rfl
  | cons t l ih =>
    intro st
    simp only [List.map_cons, List.foldl_cons]
    rw [bfsVisit_eq, ih]

theorem bfsLoop_eq {β : Type} (B : CFBoard β) (board : β) (pieceId : Int) (currentTurn : Bool)
    (opponentPawnBoard : Nat) (fuel : Nat) :
    ∀ (d : Grid) (q : List (Nat × Nat)),
      gLoop (squareSucc B board pieceId) (squareOk B board currentTurn opponentPawnBoard)
          fuel (gridOf d) q
        = (bfsLoop B board pieceId currentTurn opponentPawnBoard fuel d q).map gridOf := by
  induction fuel with
  | zero =>
    intro d q
    cases q <;> simp [gLoop, bfsLoop]
  | succ fuel ih =>
    intro d q
    cases q with
    | nil => simp [gLoop, bfsLoop]
    | cons u q =>
      obtain ⟨curi, curj⟩ := u
      simp only [gLoop, bfsLoop, squareSucc]
      have := bfsVisit_foldl_eq B board currentTurn opponentPawnBoard curi curj
        (bitSetPositions (B.getLegalMoves board pieceId (curi * 8 + curj))) (d, q)
      simp only at this
      rw [this, ih]

theorem mem_bitSetPositions (board t : Nat) :
    t ∈ bitSetPositions board ↔ t < 64 ∧ board.testBit t = true := by
  simp [bitSetPositions]

theorem tile_squareOf (t : Nat) : (squareOf t).1 * 8 + (squareOf t).2 = t := by
  simp only [squareOf]; omega

theorem squareOf_mem_allSquares (t : Nat) (ht : t < 64) : squareOf t ∈ allSquares :=
  List.mem_map.2 ⟨t, List.mem_range.2 ht, rfl⟩

theorem validSquare_iff (i j : Nat) :
    Heatmap.validSquare (i : Int) (j : Int) = true ↔ i < 8 ∧ j < 8 := by
  simp [Heatmap.validSquare]

theorem squareOk_mem_allSquares {β : Type} (B : CFBoard β) (board : β) (currentTurn : Bool)
    (opponentPawnBoard : Nat) (p : Nat × Nat)
    (h : squareOk B board currentTurn opponentPawnBoard p = true) : p ∈ allSquares := by
  obtain ⟨i, j⟩ := p
  simp only [squareOk, Bool.and_eq_true] at h
  have hv := (validSquare_iff i j).1 h.1.1
  have : squareOf (i * 8 + j) = (i, j) := by
    simp only [squareOf, Prod.mk.injEq]; omega
  rw [← this]
  exact squareOf_mem_allSquares _ (by omega)

/-! ### `distFromTileToTilesAsPiece` -/

theorem walk_to_tiles {β : Type} (B : CFBoard β) (board : β) (halfPieceId : Int) (s : Nat)
    (n : Nat) (w : Nat × Nat)
    (hw : Walk (fun a b =>
        b ∈ squareSucc B board (2 * halfPieceId + boolToInt (B.getCurrentPlayer board)) a ∧
        squareOk B board (B.getCurrentPlayer board)
          (B.getPieceColorBitBoard board (boolToInt (!B.getCurrentPlayer board))) b = true)
      (squareOf s) n w) :
    MovePath B board halfPieceId s n (w.1 * 8 + w.2) ∧ squareOf (w.1 * 8 + w.2) = w := by
  induction hw with
  | nil =>
    rw [tile_squareOf]
    exact ⟨Walk.nil, rfl⟩
  | snoc hwalk hedge ih =>
    rename_i k u w
    obtain ⟨hmem, hok⟩ := hedge
    obtain ⟨t, ht, rfl⟩ := List.mem_map.1 hmem
    rw [mem_bitSetPositions] at ht
    rw [tile_squareOf]
    refine ⟨Walk.snoc ih.1 ⟨ht.1, ht.2, ?_, ?_⟩, rfl⟩
    · simp only [squareOk, Bool.and_eq_true, tile_squareOf] at hok
      simpa using hok.1.2
    · simp only [squareOk, Bool.and_eq_true] at hok
      exact hok.2

theorem walk_of_tiles {β : Type} (B : CFBoard β) (board : β) (halfPieceId : Int) (s : Nat)
    (n : Nat) (t : Nat) (hw : MovePath B board halfPieceId s n t) :
    Walk (fun a b =>
        b ∈ squareSucc B board (2 * halfPieceId + boolToInt (B.getCurrentPlayer board)) a ∧
        squareOk B board (B.getCurrentPlayer board)
          (B.getPieceColorBitBoard board (boolToInt (!B.getCurrentPlayer board))) b = true)
      (squareOf s) n (squareOf t) := by
  induction hw with
  | nil => exact Walk.nil
  | snoc hwalk hedge ih =>
    rename_i k u v
    obtain ⟨hv, hbit, hempty, hsafe⟩ := hedge
    refine Walk.snoc ih ⟨?_, ?_⟩
    · refine List.mem_map.2 ⟨v, ?_, rfl⟩
      rw [tile_squareOf, mem_bitSetPositions]
      exact ⟨hv, hbit⟩
    · simp only [squareOk, Bool.and_eq_true, tile_squareOf]
      refine ⟨⟨?_, by simpa using hempty⟩, hsafe⟩
      exact (validSquare_iff _ _).2 ⟨by simp only [squareOf]; omega, by simp only [squareOf]; omega⟩

/-- What the breadth-first search returns, in one statement: with fuel for 64
iterations `distFromTileToTilesAsPiece` returns a grid; it holds `0` at the start;
every entry other than `-1` is the length of a path; every path is at least as long as
the entry of its end, which is not `-1`; and every entry lies in `-1..63`. -/
theorem distFromTileToTilesAsPiece_sound {β : Type} (B : CFBoard β) (board : β)
    (halfPieceId : Int) (s : Nat) (hs : s < 64) (fuel : Nat) (hf : 64 ≤ fuel) :
    ∃ d, distFromTileToTilesAsPiece fuel B board halfPieceId s = some d ∧
      d (s / 8) (s % 8) = 0 ∧
      (∀ t, d (t / 8) (t % 8) ≠ -1 →
        ∃ n : Nat, d (t / 8) (t % 8) = n ∧ MovePath B board halfPieceId s n t) ∧
      (∀ t n, MovePath B board halfPieceId s n t →
        d (t / 8) (t % 8) ≠ -1 ∧ d (t / 8) (t % 8) ≤ n) ∧
      (∀ i j, -1 ≤ d i j ∧ d i j ≤ 63) := by
  have h0 : gridOf (Grid.set (fun _ _ => -1) (s / 8) (s % 8) 0) (squareOf s) = 0 := by
    simp [gridOf, Grid.set, squareOf]
  have h1 : ∀ v, v ≠ squareOf s →
      gridOf (Grid.set (fun _ _ => -1) (s / 8) (s % 8) 0) v = -1 := by
    intro v hv
    obtain ⟨a, b⟩ := v
    have : ¬ (a = s / 8 ∧ b = s % 8) := fun e => hv (by simp [squareOf, e.1, e.2])
    simp [gridOf, Grid.set, this]
  have hcount64 : unvisited allSquares (gridOf (Grid.set (fun _ _ => -1) (s / 8) (s % 8) 0)) + 1
      ≤ 64 := by
    have hle : unvisited allSquares (gridOf (Grid.set (fun _ _ => -1) (s / 8) (s % 8) 0))
        ≤ allSquares.length := List.countP_le_length _
    have hne : unvisited allSquares (gridOf (Grid.set (fun _ _ => -1) (s / 8) (s % 8) 0))
        ≠ allSquares.length := by
      intro e
      have := List.countP_eq_length.1 e (squareOf s) (squareOf_mem_allSquares s hs)
      rw [h0] at this
      simp at this
    have hlen : allSquares.length = 64 := by simp [allSquares]
    omega
  have hcount : unvisited allSquares (gridOf (Grid.set (fun _ _ => -1) (s / 8) (s % 8) 0)) + 1
      ≤ fuel := le_trans hcount64 hf
  have hbound : unvisited allSquares (gridOf (Grid.set (fun _ _ => -1) (s / 8) (s % 8) 0))
      ≤ 63 := by
    have := hcount64
    omega
  obtain ⟨dg, hdg, hstart, hreach, hmin, hle⟩ := gLoop_spec
    (squareSucc B board (2 * halfPieceId + boolToInt (B.getCurrentPlayer board)))
    (squareOk B board (B.getCurrentPlayer board)
      (B.getPieceColorBitBoard board (boolToInt (!B.getCurrentPlayer board))))
    allSquares (squareOf s) (squareOk_mem_allSquares B board _ _) _ h0 h1 fuel hcount
  rw [bfsLoop_eq] at hdg
  obtain ⟨d, hd, rfl⟩ := Option.map_eq_some'.1 hdg
  refine ⟨d, hd, hstart, ?_, ?_, ?_⟩
  · intro t ht
    obtain ⟨n, hn, hw⟩ := hreach (squareOf t) ht
    have := walk_to_tiles B board halfPieceId s n (squareOf t) hw
    rw [tile_squareOf] at this
    exact ⟨n, hn, this.1⟩
  · intro t n hw
    exact hmin (squareOf t) n (walk_of_tiles B board halfPieceId s n t hw)
  · intro i j
    refine ⟨?_, ?_⟩
    · by_cases h : gridOf d (i, j) = -1
      · have : d i j = -1 := h
        omega
      · obtain ⟨n, hn, _⟩ := hreach (i, j) h
        have : d i j = n := hn
        omega
    · have := hle (i, j)
      have h2 : gridOf d (i, j) = d i j := rfl
      omega

/-! ### `DFS1pAux` -/

theorem dfsEndTile_foldlM {β : Type} (B : CFBoard β) (hL : B.Lawful) (k fuel : Nat)
    (ih : ∀ (b : β) (depth maxDepth : Int) (cur : Line) (acc : List Line),
      maxDepth = depth + k →
      DFS1pAux B fuel b depth maxDepth cur acc
        = some (b, acc ++ (linesFrom B k b).map (fun l => cur ++ l)))
    (b : β) (depth maxDepth : Int) (hd : maxDepth = depth + 1 + k) (cur : Line)
    (startTile : Nat) (l : List Nat) :
    ∀ acc : List Line,
      List.foldlM (dfsEndTile B (DFS1pAux B fuel) (B.getCurrentPlayer b) depth maxDepth startTile)
          (SearchState.mk b cur acc) l
        = some (SearchState.mk b cur
            (acc ++ (l.filterMap (endTileMove B b startTile)).flatMap
              (fun m => (linesFrom B k (afterMove B b m)).map (fun l => cur ++ m :: l)))) := by
  induction l with
  | nil => intro acc; simp
  | cons e l ihl =>
    intro acc
    rw [List.foldlM_cons]
    by_cases h1 : B.getPieceFromCoords b e = -1
    · by_cases h2 : squareSafeFromOpponentPawns (B.getCurrentPlayer b)
          (B.getPieceColorBitBoard b (boolToInt (!B.getCurrentPlayer b)))
          (e / 8 : Nat) (e % 8 : Nat) = true
      · have hstep : dfsEndTile B (DFS1pAux B fuel) (B.getCurrentPlayer b) depth maxDepth
            startTile (SearchState.mk b cur acc) e
            = some (SearchState.mk b cur
                (acc ++ (linesFrom B k (afterMove B b (Move.mk startTile e 0))).map
                  (fun l => cur ++ Move.mk startTile e 0 :: l))) := by
          unfold dfsEndTile
          simp only [h1, h2, bne_self_eq_false, Bool.not_true, Bool.false_eq_true, if_false]
          rw [ih _ (depth + 1) maxDepth _ _ hd]
          simp only [Option.map_some', afterMove, hL.undo_flip_move, hL.flip_flip,
            List.dropLast_concat, List.append_assoc, List.singleton_append]
        have he : endTileMove B b startTile e = some (Move.mk startTile e 0) := by
          unfold endTileMove; rw [if_pos ⟨h1, h2⟩]
        rw [hstep, Option.bind_eq_bind, Option.some_bind, ihl]
        simp [List.filterMap_cons, he, List.append_assoc]
      · have hstep : dfsEndTile B (DFS1pAux B fuel) (B.getCurrentPlayer b) depth maxDepth
            startTile (SearchState.mk b cur acc) e = some (SearchState.mk b cur acc) := by
          have h2' : squareSafeFromOpponentPawns (B.getCurrentPlayer b)
              (B.getPieceColorBitBoard b (boolToInt (!B.getCurrentPlayer b)))
              (e / 8 : Nat) (e % 8 : Nat) = false := by
            simpa using h2
          unfold dfsEndTile
          simp only [h1, h2', bne_self_eq_false, Bool.not_false, Bool.false_eq_true, if_false,
            if_true]
        have he : endTileMove B b startTile e = none := by
          unfold endTileMove; rw [if_neg (fun h => h2 h.2)]
        rw [hstep, Option.bind_eq_bind, Option.some_bind, ihl]
        simp [List.filterMap_cons, he]
    · have hstep : dfsEndTile B (DFS1pAux B fuel) (B.getCurrentPlayer b) depth maxDepth
          startTile (SearchState.mk b cur acc) e = some (SearchState.mk b cur acc) := by
        unfold dfsEndTile
        simp [h1]
      have he : endTileMove B b startTile e = none := by
        unfold endTileMove; rw [if_neg (fun h => h1 h.1)]
      rw [hstep, Option.bind_eq_bind, Option.some_bind, ihl]
      simp [List.filterMap_cons, he]

theorem dfsStartTile_foldlM {β : Type} (B : CFBoard β) (hL : B.Lawful) (k fuel : Nat)
    (ih : ∀ (b : β) (depth maxDepth : Int) (cur : Line) (acc : List Line),
      maxDepth = depth + k →
      DFS1pAux B fuel b depth maxDepth cur acc
        = some (b, acc ++ (linesFrom B k b).map (fun l => cur ++ l)))
    (b : β) (depth maxDepth : Int) (hd : maxDepth = depth + 1 + k) (cur : Line)
    (l : List Nat) :
    ∀ acc : List Line,
      List.foldlM (dfsStartTile B (DFS1pAux B fuel) (B.getCurrentPlayer b) depth maxDepth)
          (SearchState.mk b cur acc) l
        = some (SearchState.mk b cur
            (acc ++ (l.flatMap (startTileMoves B b)).flatMap
              (fun m => (linesFrom B k (afterMove B b m)).map (fun l => cur ++ m :: l)))) := by
  induction l with
  | nil => intro acc; simp
  | cons s l ihl =>
    intro acc
    rw [List.foldlM_cons]
    have hstep : dfsStartTile B (DFS1pAux B fuel) (B.getCurrentPlayer b) depth maxDepth
        (SearchState.mk b cur acc) s
        = some (SearchState.mk b cur
            (acc ++ (startTileMoves B b s).flatMap
              (fun m => (linesFrom B k (afterMove B b m)).map (fun l => cur ++ m :: l)))) := by
      unfold dfsStartTile startTileMoves
      by_cases hs : skipStartTile (B.getPieceFromCoords b s) (B.getCurrentPlayer b) = true
      · simp only [hs, if_true]
        simp
      · simp only [hs, if_false, Bool.false_eq_true]
        exact dfsEndTile_foldlM B hL k fuel ih b depth maxDepth hd cur s _ acc
    rw [hstep, Option.bind_eq_bind, Option.some_bind, ihl]
    simp [List.flatMap_cons, List.append_assoc]

/-- With a lawful board and enough fuel, `DFS1pAux` started `k` plies above `maxDepth`
returns, leaves the board as it found it, and appends to the result set exactly the
lines of `linesFrom`, each behind the current line. -/
theorem DFS1pAux_eq {β : Type} (B : CFBoard β) (hL : B.Lawful) (k : Nat) :
    ∀ (fuel : Nat) (b : β) (depth maxDepth : Int) (cur : Line) (acc : List Line),
      k + 1 ≤ fuel → maxDepth = depth + k →
      DFS1pAux B fuel b depth maxDepth cur acc
        = some (b, acc ++ (linesFrom B k b).map (fun l => cur ++ l)) := by
  induction k with
  | zero =>
    intro fuel b depth maxDepth cur acc hf hd
    obtain ⟨f, rfl⟩ : ∃ f, fuel = f + 1 := ⟨fuel - 1, by omega⟩
    have : depth = maxDepth := by simp [hd]
    simp [DFS1pAux, this, linesFrom]
  | succ k ih =>
    intro fuel b depth maxDepth cur acc hf hd
    obtain ⟨f, rfl⟩ : ∃ f, fuel = f + 1 := ⟨fuel - 1, by omega⟩
    have hne : (depth == maxDepth) = false := by
      have : depth ≠ maxDepth := by push_cast at hd; omega
      simpa using this
    have hd' : maxDepth = depth + 1 + k := by push_cast at hd; omega
    have ih' : ∀ (b : β) (depth maxDepth : Int) (cur : Line) (acc : List Line),
        maxDepth = depth + k →
        DFS1pAux B f b depth maxDepth cur acc
          = some (b, acc ++ (linesFrom B k b).map (fun l => cur ++ l)) :=
      fun b depth maxDepth cur acc h => ih f b depth maxDepth cur acc (by omega) h
    simp only [DFS1pAux, hne, Bool.false_eq_true, if_false]
    rw [dfsStartTile_foldlM B hL k f ih' b depth maxDepth hd' cur (List.range 64) acc]
    simp only [Option.map_some', linesFrom, survivingMoves, List.map_flatMap, List.map_map]
    rfl

theorem Extends.refl (cur : Line) (k : Nat) (old : List Line) : Extends cur k old old :=
  ⟨[], by simp, by simp⟩

theorem Extends.trans {cur : Line} {k : Nat} {a b c : List Line}
    (h1 : Extends cur k a b) (h2 : Extends cur k b c) : Extends cur k a c := by
  obtain ⟨x, rfl, hx⟩ := h1
  obtain ⟨y, rfl, hy⟩ := h2
  refine ⟨x ++ y, by simp, ?_⟩
  intro l hl
  rcases List.mem_append.1 hl with h | h
  · exact hx l h
  · exact hy l h

theorem dfsEndTile_foldlM_shape {β : Type} (B : CFBoard β) (k fuel : Nat)
    (ih : ∀ (b : β) (depth maxDepth : Int) (cur : Line) (acc : List Line),
      maxDepth = depth + k →
      ∃ r, DFS1pAux B fuel b depth maxDepth cur acc = some r ∧ Extends cur k acc r.2)
    (turn : Bool) (depth maxDepth : Int) (hd : maxDepth = depth + 1 + k)
    (startTile : Nat) (l : List Nat) :
    ∀ st : SearchState β,
      ∃ st', List.foldlM (dfsEndTile B (DFS1pAux B fuel) turn depth maxDepth startTile) st l
          = some st' ∧ st'.curLine = st.curLine ∧
        Extends st.curLine (k + 1) st.possibleLines st'.possibleLines := by
  induction l with
  | nil => intro st; exact ⟨st, by simp, rfl, Extends.refl _ _ _⟩
  | cons e l ihl =>
    intro st
    have hstep : ∃ s1, dfsEndTile B (DFS1pAux B fuel) turn depth maxDepth startTile st e
        = some s1 ∧ s1.curLine = st.curLine ∧
        Extends st.curLine (k + 1) st.possibleLines s1.possibleLines := by
      unfold dfsEndTile
      split
      · exact ⟨st, rfl, rfl, Extends.refl _ _ _⟩
      · split
        · exact ⟨st, rfl, rfl, Extends.refl _ _ _⟩
        · obtain ⟨r, hr, hext⟩ := ih (B.forceFlipTurn (B.movePiece st.board startTile e))
            (depth + 1) maxDepth (st.curLine ++ [Move.mk startTile e 0]) st.possibleLines hd
          obtain ⟨added, hadd, hall⟩ := hext
          refine ⟨SearchState.mk (B.forceFlipTurn (B.undoLastMove r.1))
            (st.curLine ++ [Move.mk startTile e 0]).dropLast r.2, ?_, ?_, added, hadd, ?_⟩
          · simp only [hr, Option.map_some']
          · simp
          intro x hx
          obtain ⟨suffix, rfl, hlen⟩ := hall x hx
          exact ⟨Move.mk startTile e 0 :: suffix, by simp, by simp [hlen]⟩
    obtain ⟨s1, hs1, hc1, he1⟩ := hstep
    obtain ⟨s2, hs2, hc2, he2⟩ := ihl s1
    refine ⟨s2, ?_, hc2.trans hc1, he1.trans (hc1 ▸ he2)⟩
    rw [List.foldlM_cons, hs1, Option.bind_eq_bind, Option.some_bind, hs2]

theorem dfsStartTile_foldlM_shape {β : Type} (B : CFBoard β) (k fuel : Nat)
    (ih : ∀ (b : β) (depth maxDepth : Int) (cur : Line) (acc : List Line),
      maxDepth = depth + k →
      ∃ r, DFS1pAux B fuel b depth maxDepth cur acc = some r ∧ Extends cur k acc r.2)
    (turn : Bool) (depth maxDepth : Int) (hd : maxDepth = depth + 1 + k) (l : List Nat) :
    ∀ st : SearchState β,
      ∃ st', List.foldlM (dfsStartTile B (DFS1pAux B fuel) turn depth maxDepth) st l
          = some st' ∧ st'.curLine = st.curLine ∧
        Extends st.curLine (k + 1) st.possibleLines st'.possibleLines := by
  induction l with
  | nil => intro st; exact ⟨st, by simp, rfl, Extends.refl _ _ _⟩
  | cons s l ihl =>
    intro st
    have hstep : ∃ s1, dfsStartTile B (DFS1pAux B fuel) turn depth maxDepth st s
        = some s1 ∧ s1.curLine = st.curLine ∧
        Extends st.curLine (k + 1) st.possibleLines s1.possibleLines := by
      unfold dfsStartTile
      by_cases hskip : skipStartTile (B.getPieceFromCoords st.board s) turn = true
      · simp only [hskip, if_true]
        exact ⟨st, rfl, rfl, Extends.refl _ _ _⟩
      · simp only [hskip, if_false, Bool.false_eq_true]
        exact dfsEndTile_foldlM_shape B k fuel ih turn depth maxDepth hd s _ st
    obtain ⟨s1, hs1, hc1, he1⟩ := hstep
    obtain ⟨s2, hs2, hc2, he2⟩ := ihl s1
    refine ⟨s2, ?_, hc2.trans hc1, he1.trans (hc1 ▸ he2)⟩
    rw [List.foldlM_cons, hs1, Option.bind_eq_bind, Option.some_bind, hs2]

/-- On every board, lawful or not, `DFS1pAux` started `k` plies above `maxDepth` with
fuel for `k + 1` levels returns, and every line it adds is the current line extended
by exactly `k` moves. -/
theorem DFS1pAux_shape {β : Type} (B : CFBoard β) (k : Nat) :
    ∀ (fuel : Nat) (b : β) (depth maxDepth : Int) (cur : Line) (acc : List Line),
      k + 1 ≤ fuel → maxDepth = depth + k →
      ∃ r, DFS1pAux B fuel b depth maxDepth cur acc = some r ∧ Extends cur k acc r.2 := by
  induction k with
  | zero =>
    intro fuel b depth maxDepth cur acc hf hd
    obtain ⟨f, rfl⟩ : ∃ f, fuel = f + 1 := ⟨fuel - 1, by omega⟩
    have : depth = maxDepth := by simp [hd]
    refine ⟨(b, acc ++ [cur]), by simp [DFS1pAux, this], [cur], rfl, ?_⟩
    intro l hl
    exact ⟨[], by simpa using hl, rfl⟩
  | succ k ih =>
    intro fuel b depth maxDepth cur acc hf hd
    obtain ⟨f, rfl⟩ : ∃ f, fuel = f + 1 := ⟨fuel - 1, by omega⟩
    have hne : (depth == maxDepth) = false := by
      have : depth ≠ maxDepth := by push_cast at hd; omega
      simpa using this
    have hd' : maxDepth = depth + 1 + k := by push_cast at hd; omega
    obtain ⟨st', hst, hcur, hext⟩ := dfsStartTile_foldlM_shape B k f
      (fun b depth maxDepth cur acc h => ih f b depth maxDepth cur acc (by omega) h)
      (B.getCurrentPlayer b) depth maxDepth hd' (List.range 64) (SearchState.mk b cur acc)
    refine ⟨(st'.board, st'.possibleLines), ?_, hext⟩
    simp only [DFS1pAux, hne, Bool.false_eq_true, if_false, hst, Option.map_some']

theorem positionStore_lawful : positionStore.Lawful := by
  refine ⟨?_, ?_⟩
  · intro b s e
    show Position.undoLastMove (Position.forceFlipTurn (Position.movePiece b s e))
      = Position.forceFlipTurn b
    unfold Position.movePiece
    by_cases h : s < b.squares.length ∧ e < b.squares.length
    · rw [if_pos h]
      simp only [Position.undoLastMove, Position.forceFlipTurn, List.length_set, h, and_self,
        if_true]
      congr 1
      apply List.ext_getElem?
      intro i
      simp only [Position.pieceAt, List.getD_eq_getElem?_getD, List.getElem?_set, List.length_set]
      by_cases h1 : s = i
      · subst h1
        simp [h.1, h.2]
      · by_cases h2 : e = i
        · subst h2
          simp [h1, h.2]
        · simp [h1, h2]
    · rw [if_neg h]
      simp only [Position.undoLastMove, Position.forceFlipTurn, h, if_false]
  · intro b
    show Position.forceFlipTurn (Position.forceFlipTurn b) = b
    simp [Position.forceFlipTurn]

theorem mem_startTileMoves {β : Type} (B : CFBoard β) (b : β) (s : Nat) (m : Move) :
    m ∈ startTileMoves B b s ↔
      skipStartTile (B.getPieceFromCoords b s) (B.getCurrentPlayer b) = false ∧
      m = Move.mk s m.dest 0 ∧ m.dest < 64 ∧ moveSurvives B b m := by
  unfold startTileMoves
  by_cases hs : skipStartTile (B.getPieceFromCoords b s) (B.getCurrentPlayer b) = true
  · simp [hs]
  · have hs' : skipStartTile (B.getPieceFromCoords b s) (B.getCurrentPlayer b) = false := by
      simpa using hs
    simp only [hs', Bool.false_eq_true, if_false, List.mem_filterMap, mem_bitSetPositions,
      true_and]
    constructor
    · rintro ⟨e, ⟨he, hbit⟩, hm⟩
      unfold endTileMove at hm
      split at hm
      · rename_i hc
        cases hm
        exact ⟨rfl, he, hbit, hc.1, hc.2⟩
      · cases hm
    · rintro ⟨hm, hd, hbit, hempty, hsafe⟩
      refine ⟨m.dest, ⟨hd, ?_⟩, ?_⟩
      · rw [hm] at hbit; exact hbit
      · unfold endTileMove
        rw [if_pos ⟨hempty, hsafe⟩]
        exact congrArg some hm.symm

theorem mem_survivingMoves {β : Type} (B : CFBoard β) (b : β) (m : Move) :
    m ∈ survivingMoves B b ↔
      m.start < 64 ∧
      skipStartTile (B.getPieceFromCoords b m.start) (B.getCurrentPlayer b) = false ∧
      m.eval = 0 ∧ m.dest < 64 ∧ moveSurvives B b m := by
  unfold survivingMoves
  simp only [List.mem_flatMap, List.mem_range, mem_startTileMoves]
  constructor
  · rintro ⟨s, hs, hskip, hm, hd, hsurv⟩
    have h1 : m.start = s := by rw [hm]
    have h2 : m.eval = 0 := by rw [hm]
    exact ⟨h1 ▸ hs, h1 ▸ hskip, h2, hd, hsurv⟩
  · rintro ⟨hs, hskip, he, hd, hsurv⟩
    refine ⟨m.start, hs, hskip, ?_, hd, hsurv⟩
    cases m
    simp_all

theorem length_of_mem_linesFrom {β : Type} (B : CFBoard β) (k : Nat) :
    ∀ (b : β) (l : Line), l ∈ linesFrom B k b → l.length = k := by
  induction k with
  | zero => intro b l hl; simp [linesFrom] at hl; simp [hl]
  | succ k ih =>
    intro b l hl
    simp only [linesFrom, List.mem_flatMap, List.mem_map] at hl
    obtain ⟨m, _, l', hl', rfl⟩ := hl
    simp [ih _ l' hl']

theorem replayLine_cons {β : Type} (B : CFBoard β) (b : β) (m : Move) (l : Line) :
    replayLine B b (m :: l) = replayLine B (afterMove B b m) l := rfl

theorem survives_of_mem_linesFrom {β : Type} (B : CFBoard β) (k : Nat) :
    ∀ (b : β) (l : Line), l ∈ linesFrom B k b →
      ∀ (i : Nat) (m : Move), l[i]? = some m →
        m ∈ survivingMoves B (replayLine B b (l.take i)) := by
  induction k with
  | zero =>
    intro b l hl i m hm
    simp [linesFrom] at hl
    simp [hl] at hm
  | succ k ih =>
    intro b l hl i m hm
    simp only [linesFrom, List.mem_flatMap, List.mem_map] at hl
    obtain ⟨m0, hm0, l', hl', rfl⟩ := hl
    cases i with
    | zero =>
      simp at hm
      subst hm
      simpa [replayLine] using hm0
    | succ i =>
      simp only [List.getElem?_cons_succ] at hm
      simp only [List.take_succ_cons, replayLine_cons]
      exact ih _ l' hl' i m hm

theorem nodup_bitSetPositions (board : Nat) : (bitSetPositions board).Nodup :=
  (List.nodup_range 64).filter _

theorem nodup_startTileMoves {β : Type} (B : CFBoard β) (b : β) (s : Nat) :
    (startTileMoves B b s).Nodup := by
  unfold startTileMoves
  split
  · exact List.nodup_nil
  · refine (nodup_bitSetPositions _).filterMap ?_
    intro a a' m h1 h2
    unfold endTileMove at h1 h2
    split at h1 <;> split at h2 <;> simp_all
    cases m
    simp_all

theorem nodup_survivingMoves {β : Type} (B : CFBoard β) (b : β) :
    (survivingMoves B b).Nodup := by
  unfold survivingMoves
  refine List.nodup_flatMap.2 ⟨fun s _ => nodup_startTileMoves B b s, ?_⟩
  refine (List.nodup_range 64).imp ?_
  intro s s' hne m h1 h2
  have e1 := ((mem_startTileMoves B b s m).1 h1).2.1
  have e2 := ((mem_startTileMoves B b s' m).1 h2).2.1
  have : s = s' := by
    have h3 : m.start = s := by rw [e1]
    have h4 : m.start = s' := by rw [e2]
    rw [← h3, ← h4]
  exact hne this

theorem nodup_linesFrom {β : Type} (B : CFBoard β) (k : Nat) :
    ∀ b : β, (linesFrom B k b).Nodup := by
  induction k with
  | zero => intro b; simp [linesFrom]
  | succ k ih =>
    intro b
    simp only [linesFrom]
    refine List.nodup_flatMap.2 ⟨?_, ?_⟩
    · intro m _
      exact (ih _).map (fun l l' h => by simpa using h)
    · refine (nodup_survivingMoves B b).imp ?_
      intro m m' hne l h1 h2
      obtain ⟨x, _, rfl⟩ := List.mem_map.1 h1
      obtain ⟨y, _, hy⟩ := List.mem_map.1 h2
      simp only [List.cons.injEq] at hy
      exact hne hy.1.symm

theorem sum_map_const_length {α : Type} (l : List α) (f : α → Nat) (c : Nat)
    (h : ∀ x ∈ l, f x = c) : (l.map f).sum = l.length * c := by
  induction l with
  | nil => simp
  | cons a l ih =>
    have h1 := h a (by simp)
    have h2 := ih (fun x hx => h x (by simp [hx]))
    simp only [List.map_cons, List.sum_cons, List.length_cons, h1, h2]
    ring

/-! ### `distFromHeatmap` -/

theorem lastDist_nil (d : Int) : lastDist [] d = d := rfl

theorem lastDist_append (a b : List Candidate) (d : Int) :
    lastDist (a ++ b) d = lastDist b (lastDist a d) := by
  unfold lastDist
  rw [List.getLast?_append]
  cases b.getLast? <;> cases a.getLast? <;> rfl

theorem lastDist_cons (c : Candidate) (l : List Candidate) (d : Int) :
    lastDist (c :: l) d = lastDist l c.dist := by
  have := lastDist_append [c] l d
  simpa [lastDist] using this

theorem scanRow_eq (heatMap : HeatMap) (kind piece : Nat) (grid : Grid) (i : Nat)
    (l : List Nat) :
    ∀ d : Int,
      l.foldl (fun dist j =>
          if heatMap kind i j != 0 && grid i j != -1 then grid i j else dist) d
        = lastDist (l.filterMap (fun j =>
            if heatMap kind i j ≠ 0 ∧ grid i j ≠ -1
            then some (Candidate.mk kind piece i j (grid i j)) else none)) d := by
  induction l with
  | nil => intro d; rfl
  | cons j l ih =>
    intro d
    rw [List.foldl_cons, ih, List.filterMap_cons]
    by_cases h : heatMap kind i j ≠ 0 ∧ grid i j ≠ -1
    · have hb : (heatMap kind i j != 0 && grid i j != -1) = true := by
        simp [h.1, h.2]
      rw [if_pos h, if_pos hb]
      simp only [lastDist_cons]
    · have hb : ¬ ((heatMap kind i j != 0 && grid i j != -1) = true) := by
        intro hc
        simp only [Bool.and_eq_true, bne_iff_ne] at hc
        exact h hc
      rw [if_neg h, if_neg hb]

theorem scanRows_eq (heatMap : HeatMap) (kind piece : Nat) (grid : Grid) (cols : List Nat)
    (rows : List Nat) :
    ∀ d : Int,
      rows.foldl (fun dist i =>
          cols.foldl (fun dist j =>
            if heatMap kind i j != 0 && grid i j != -1 then grid i j else dist) dist) d
        = lastDist (rows.flatMap (fun i =>
            cols.filterMap (fun j =>
              if heatMap kind i j ≠ 0 ∧ grid i j ≠ -1
              then some (Candidate.mk kind piece i j (grid i j)) else none))) d := by
  induction rows with
  | nil => intro d; rfl
  | cons i rows ih =>
    intro d
    rw [List.foldl_cons, ih, List.flatMap_cons, lastDist_append, scanRow_eq]

theorem scanHeatmap_eq (heatMap : HeatMap) (kind piece : Nat) (grid : Grid) (d : Int) :
    scanHeatmap heatMap kind grid d = lastDist (gridCandidates heatMap kind piece grid) d :=
  scanRows_eq heatMap kind piece grid (List.range 8) (List.range 8) d

theorem pieces_foldlM_eq {β : Type} (fuel : Nat) (hf : 64 ≤ fuel) (B : CFBoard β) (board : β)
    (heatMap : HeatMap) (kind : Nat) (l : List Nat) (hl : ∀ p ∈ l, p < 64) :
    ∀ d : Int,
      List.foldlM (fun (dist : Int) (startTile : Nat) =>
          (distFromTileToTilesAsPiece fuel B board kind startTile).map
            (fun distFromStart => scanHeatmap heatMap kind distFromStart dist)) d l
        = some (lastDist (l.flatMap (fun piece =>
            match distFromTileToTilesAsPiece fuel B board kind piece with
            | some grid => gridCandidates heatMap kind piece grid
            | none => [])) d) := by
  induction l with
  | nil => intro d; rfl
  | cons p l ih =>
    intro d
    obtain ⟨g, hg, _⟩ := distFromTileToTilesAsPiece_sound B board kind p (hl p (by simp)) fuel hf
    rw [List.foldlM_cons, hg, Option.map_some', Option.bind_eq_bind, Option.some_bind,
      ih (fun q hq => hl q (by simp [hq])), List.flatMap_cons, lastDist_append, hg,
      scanHeatmap_eq heatMap kind p]

theorem kinds_foldlM_eq {β : Type} (fuel : Nat) (hf : 64 ≤ fuel) (B : CFBoard β) (board : β)
    (heatMap : HeatMap) (l : List Nat) :
    ∀ d : Int,
      List.foldlM (fun (dist : Int) (halfPieceId : Nat) =>
          List.foldlM (fun (dist : Int) (startTile : Nat) =>
            (distFromTileToTilesAsPiece fuel B board halfPieceId startTile).map
              (fun distFromStart => scanHeatmap heatMap halfPieceId distFromStart dist))
            dist (bitSetPositions (B.getPieceColorBitBoard board
              (Int.lor (2 * (halfPieceId : Int)) (boolToInt (B.getCurrentPlayer board))))))
          d l
        = some (lastDist (l.flatMap (fun kind =>
            (bitSetPositions (B.getPieceColorBitBoard board
                (Int.lor (2 * (kind : Int)) (boolToInt (B.getCurrentPlayer board))))).flatMap
              (fun piece =>
                match distFromTileToTilesAsPiece fuel B board kind piece with
                | some grid => gridCandidates heatMap kind piece grid
                | none => []))) d) := by
  induction l with
  | nil => intro d; rfl
  | cons k l ih =>
    intro d
    rw [List.foldlM_cons, pieces_foldlM_eq fuel hf B board heatMap k _
      (fun p hp => ((mem_bitSetPositions _ p).1 hp).1), Option.bind_eq_bind, Option.some_bind,
      ih, List.flatMap_cons, lastDist_append]

/-- With fuel for the searches, `distFromHeatmap` returns the distance of the last
candidate in its iteration order, and `0` when there is no candidate. -/
theorem distFromHeatmap_eq {β : Type} (fuel : Nat) (hf : 64 ≤ fuel) (B : CFBoard β) (board : β)
    (heatMap : HeatMap) :
    distFromHeatmap fuel B board heatMap
      = some (lastDist (heatmapCandidates fuel B board heatMap) 0) :=
  kinds_foldlM_eq fuel hf B board heatMap (List.range 6) 0

theorem mem_gridCandidates (heatMap : HeatMap) (kind piece : Nat) (grid : Grid)
    (c : Candidate) :
    c ∈ gridCandidates heatMap kind piece grid ↔
      c.kind = kind ∧ c.piece = piece ∧ c.row < 8 ∧ c.col < 8 ∧
      heatMap kind c.row c.col ≠ 0 ∧ grid c.row c.col ≠ -1 ∧ c.dist = grid c.row c.col := by
  unfold gridCandidates
  simp only [List.mem_flatMap, List.mem_filterMap, List.mem_range]
  constructor
  · rintro ⟨i, hi, j, hj, h⟩
    split at h
    · rename_i hc
      cases h
      exact ⟨rfl, rfl, hi, hj, hc.1, hc.2, rfl⟩
    · cases h
  · rintro ⟨h1, h2, h3, h4, h5, h6, h7⟩
    refine ⟨c.row, h3, c.col, h4, ?_⟩
    rw [if_pos ⟨h5, h6⟩]
    cases c
    simp_all

theorem mem_heatmapCandidates {β : Type} (fuel : Nat) (B : CFBoard β) (board : β)
    (heatMap : HeatMap) (c : Candidate) :
    c ∈ heatmapCandidates fuel B board heatMap ↔
      c.kind < 6 ∧
      c.piece ∈ bitSetPositions (B.getPieceColorBitBoard board
        (Int.lor (2 * (c.kind : Int)) (boolToInt (B.getCurrentPlayer board)))) ∧
      c.row < 8 ∧ c.col < 8 ∧ heatMap c.kind c.row c.col ≠ 0 ∧
      ∃ grid, distFromTileToTilesAsPiece fuel B board c.kind c.piece = some grid ∧
        grid c.row c.col ≠ -1 ∧ c.dist = grid c.row c.col := by
  unfold heatmapCandidates
  simp only [List.mem_flatMap, List.mem_range]
  constructor
  · rintro ⟨k, hk, p, hp, h⟩
    split at h
    · rename_i grid hg
      obtain ⟨h1, h2, h3, h4, h5, h6, h7⟩ := (mem_gridCandidates _ _ _ _ _).1 h
      subst h1 h2
      exact ⟨hk, hp, h3, h4, h5, grid, hg, h6, h7⟩
    · simp at h
  · rintro ⟨h1, h2, h3, h4, h5, grid, hg, h6, h7⟩
    refine ⟨c.kind, h1, c.piece, h2, ?_⟩
    rw [hg]
    exact (mem_gridCandidates _ _ _ _ _).2 ⟨rfl, rfl, h3, h4, h5, h6, h7⟩

theorem lastDist_mem_or (l : List Candidate) (d : Int) :
    lastDist l d = d ∨ ∃ c ∈ l, lastDist l d = c.dist := by
  unfold lastDist
  cases h : l.getLast? with
  | none => exact Or.inl rfl
  | some c => exact Or.inr ⟨c, List.mem_of_getLast?_eq_some h, rfl⟩

/-- With fuel for the searches, `distFromHeatmap` returns a value in `0..63`. -/
theorem distFromHeatmap_bounds {β : Type} (fuel : Nat) (hf : 64 ≤ fuel) (B : CFBoard β)
    (board : β) (heatMap : HeatMap) :
    ∃ v, distFromHeatmap fuel B board heatMap = some v ∧ 0 ≤ v ∧ v ≤ 63 := by
  refine ⟨_, distFromHeatmap_eq fuel hf B board heatMap, ?_⟩
  rcases lastDist_mem_or (heatmapCandidates fuel B board heatMap) 0 with h | ⟨c, hc, h⟩
  · rw [h]; omega
  · rw [h]
    obtain ⟨_, hp, _, _, _, grid, hg, hne, hd⟩ := (mem_heatmapCandidates _ _ _ _ _).1 hc
    obtain ⟨g, hg', _, _, _, hb⟩ := distFromTileToTilesAsPiece_sound B board c.kind c.piece
      ((mem_bitSetPositions _ _).1 hp).1 fuel hf
    rw [hg] at hg'
    cases hg'
    have := hb c.row c.col
    rw [hd]
    omega

/-! ### `DFS1P::getNextMove` -/

theorem replayLine_append {β : Type} (B : CFBoard β) (b : β) (l : Line) (m : Move) :
    replayLine B b (l ++ [m]) = afterMove B (replayLine B b l) m := by
  simp [replayLine, afterMove, List.foldl_append]

theorem unwindLine_cons {β : Type} (B : CFBoard β) (b : β) (m : Move) (l : Line) :
    unwindLine B b (m :: l) = unwindLine B (B.forceFlipTurn (B.undoLastMove b)) l := rfl

theorem unwind_replay {β : Type} (B : CFBoard β) (hL : B.Lawful) (b : β) (n : Nat) :
    ∀ (l l' : Line), l.length = n → l'.length = n →
      unwindLine B (replayLine B b l) l' = b := by
  induction n with
  | zero =>
    intro l l' h h'
    rw [List.length_eq_zero] at h h'
    subst h h'
    rfl
  | succ n ih =>
    intro l l' h h'
    obtain ⟨l0, m, rfl⟩ : ∃ l0 m, l = l0 ++ [m] :=
      ⟨l.dropLast, l.getLast (by intro e; simp [e] at h), (List.dropLast_append_getLast _).symm⟩
    obtain ⟨m', l1, rfl⟩ : ∃ m' l1, l' = m' :: l1 := by
      cases l' with
      | nil => simp at h'
      | cons a t => exact ⟨a, t, rfl⟩
    rw [replayLine_append, unwindLine_cons, afterMove, hL.undo_flip_move, hL.flip_flip]
    exact ih l0 l1 (by simpa using h) (by simpa using h')

theorem scoreLine_eq {β : Type} (fuel : Nat) (B : CFBoard β) (hL : B.Lawful)
    (heatMap : HeatMap) (score : Line → Int) (b : β)
    (hscore : ∀ l, distFromHeatmap fuel B (replayLine B b l) heatMap = some (score l))
    (acc : Int × Line) (l : Line) :
    scoreLine fuel B heatMap (ScoreState.mk b acc.1 acc.2) l
      = some (ScoreState.mk b (keepBetter score acc l).1 (keepBetter score acc l).2) := by
  unfold scoreLine keepBetter
  simp only [hscore, Option.some_bind, Option.map_some', unwind_replay B hL b l.length l l rfl rfl]
  split <;> rfl

theorem scoreLine_foldlM_eq {β : Type} (fuel : Nat) (B : CFBoard β) (hL : B.Lawful)
    (heatMap : HeatMap) (score : Line → Int) (b : β)
    (hscore : ∀ l, distFromHeatmap fuel B (replayLine B b l) heatMap = some (score l))
    (ls : List Line) :
    ∀ acc : Int × Line,
      List.foldlM (scoreLine fuel B heatMap) (ScoreState.mk b acc.1 acc.2) ls
        = some (ScoreState.mk b (ls.foldl (keepBetter score) acc).1
            (ls.foldl (keepBetter score) acc).2) := by
  induction ls with
  | nil => intro acc; rfl
  | cons l ls ih =>
    intro acc
    rw [List.foldlM_cons, scoreLine_eq fuel B hL heatMap score b hscore, Option.bind_eq_bind,
      Option.some_bind, ih, List.foldl_cons]

/-- What the minimisation loop keeps: either nothing beat the initial bound, or the
first line of least score. -/
theorem keepBetter_foldl (score : Line → Int) (ls : List Line) :
    ∀ acc : Int × Line,
      (ls.foldl (keepBetter score) acc = acc ∧ ∀ l ∈ ls, acc.1 ≤ score l) ∨
      (∃ (i : Nat) (best : Line), ls[i]? = some best ∧
        ls.foldl (keepBetter score) acc = (score best, best) ∧ score best < acc.1 ∧
        ∀ (j : Nat) (other : Line), ls[j]? = some other →
          score best ≤ score other ∧ (j < i → score best < score other)) := by
  induction ls with
  | nil => intro acc; exact Or.inl ⟨rfl, by simp⟩
  | cons a ls ih =>
    intro acc
    rw [List.foldl_cons]
    by_cases h : score a < acc.1
    · have hk : keepBetter score acc a = (score a, a) := by simp [keepBetter, h]
      rw [hk]
      rcases ih (score a, a) with ⟨h1, h2⟩ | ⟨i, best, hi, h1, h2, h3⟩
      · refine Or.inr ⟨0, a, by simp, h1, h, ?_⟩
        intro j other hj
        cases j with
        | zero =>
          simp at hj
          subst hj
          exact ⟨le_refl _, fun h0 => absurd h0 (by omega)⟩
        | succ j =>
          simp only [List.getElem?_cons_succ] at hj
          exact ⟨h2 other (List.mem_iff_getElem?.2 ⟨j, hj⟩), fun h0 => absurd h0 (by omega)⟩
      · refine Or.inr ⟨i + 1, best, by simpa using hi, h1, by simp only at h2; omega, ?_⟩
        intro j other hj
        cases j with
        | zero =>
          simp at hj
          subst hj
          simp only at h2
          exact ⟨by omega, fun _ => h2⟩
        | succ j =>
          simp only [List.getElem?_cons_succ] at hj
          have := h3 j other hj
          exact ⟨this.1, fun h0 => this.2 (by omega)⟩
    · have hk : keepBetter score acc a = acc := by simp [keepBetter, h]
      rw [hk]
      rcases ih acc with ⟨h1, h2⟩ | ⟨i, best, hi, h1, h2, h3⟩
      · refine Or.inl ⟨h1, ?_⟩
        intro l hl
        rcases List.mem_cons.1 hl with rfl | hl
        · omega
        · exact h2 l hl
      · refine Or.inr ⟨i + 1, best, by simpa using hi, h1, h2, ?_⟩
        intro j other hj
        cases j with
        | zero =>
          simp at hj
          subst hj
          exact ⟨by omega, fun _ => by omega⟩
        | succ j =>
          simp only [List.getElem?_cons_succ] at hj
          have := h3 j other hj
          exact ⟨this.1, fun h0 => this.2 (by omega)⟩

/-- On a lawful board and with fuel for the searches, `getNextMove` returns, leaves
the board as the heatmap builder handed it over, and answers with the first move of
what the minimisation loop kept from the lines of `linesFrom`. -/
theorem getNextMove_eq {β : Type} (fuel : Nat) (hf : 64 ≤ fuel) (B : CFBoard β)
    (hL : B.Lawful) (addHeatMap : β → HeatMap → Nat → β × HeatMap) (b : β)
    (score : Line → Int)
    (hscore : ∀ l, distFromHeatmap fuel B
        (replayLine B (addHeatMap b (fun _ _ _ => 0) 8).1 l)
        (addHeatMap b (fun _ _ _ => 0) 8).2 = some (score l)) :
    getNextMove fuel B addHeatMap b
      = some ((addHeatMap b (fun _ _ _ => 0) 8).1,
          (((linesFrom B 3 (addHeatMap b (fun _ _ _ => 0) 8).1).foldl (keepBetter score)
            (1000000000, [])).2)[0]?) := by
  unfold getNextMove
  simp only
  rw [DFS1pAux_eq B hL 3 fuel _ 0 3 [] [] (by omega) (by simp)]
  simp only [Option.some_bind, List.nil_append, List.map_id']
  rw [scoreLine_foldlM_eq fuel B hL _ score _ hscore _ (1000000000, [])]
  rfl

/-! ### Termination and size of the search -/

theorem dfsEndTile_congr {β : Type} (B : CFBoard β)
    (r1 r2 : β → Int → Int → Line → List Line → Option (β × List Line))
    (depth maxDepth : Int)
    (h : ∀ b cur acc, r1 b (depth + 1) maxDepth cur acc = r2 b (depth + 1) maxDepth cur acc)
    (turn : Bool) (startTile : Nat) :
    dfsEndTile B r1 turn depth maxDepth startTile
      = dfsEndTile B r2 turn depth maxDepth startTile := by
  funext st e
  unfold dfsEndTile
  simp only [h]

theorem dfsStartTile_congr {β : Type} (B : CFBoard β)
    (r1 r2 : β → Int → Int → Line → List Line → Option (β × List Line))
    (depth maxDepth : Int)
    (h : ∀ b cur acc, r1 b (depth + 1) maxDepth cur acc = r2 b (depth + 1) maxDepth cur acc)
    (turn : Bool) :
    dfsStartTile B r1 turn depth maxDepth = dfsStartTile B r2 turn depth maxDepth := by
  funext st s
  unfold dfsStartTile
  simp only [dfsEndTile_congr B r1 r2 depth maxDepth h]

/-- Fuel beyond `maxDepth - depth + 1` is never used: the result of `DFS1pAux` is the
same for every amount of fuel that covers the `k + 1` levels down to `maxDepth`. -/
theorem DFS1pAux_fuel_irrelevant {β : Type} (B : CFBoard β) (k : Nat) :
    ∀ (f f' : Nat) (b : β) (depth maxDepth : Int) (cur : Line) (acc : List Line),
      k + 1 ≤ f → k + 1 ≤ f' → maxDepth = depth + k →
      DFS1pAux B f b depth maxDepth cur acc = DFS1pAux B f' b depth maxDepth cur acc := by
  induction k with
  | zero =>
    intro f f' b depth maxDepth cur acc hf hf' hd
    obtain ⟨m1, rfl⟩ : ∃ m1, f = m1 + 1 := ⟨f - 1, by omega⟩
    obtain ⟨m2, rfl⟩ : ∃ m2, f' = m2 + 1 := ⟨f' - 1, by omega⟩
    have : depth = maxDepth := by simp [hd]
    simp [DFS1pAux, this]
  | succ k ih =>
    intro f f' b depth maxDepth cur acc hf hf' hd
    obtain ⟨m1, rfl⟩ : ∃ m1, f = m1 + 1 := ⟨f - 1, by omega⟩
    obtain ⟨m2, rfl⟩ : ∃ m2, f' = m2 + 1 := ⟨f' - 1, by omega⟩
    have hd' : maxDepth = depth + 1 + k := by push_cast at hd; omega
    simp only [DFS1pAux]
    rw [dfsStartTile_congr B (DFS1pAux B m1) (DFS1pAux B m2) depth maxDepth
      (fun b cur acc => ih m1 m2 b (depth + 1) maxDepth cur acc (by omega) (by omega) hd')]

theorem Grows.unchanged (old : List Line) : Grows 0 old old := ⟨[], by simp, by simp⟩

theorem Grows.append {m n : Nat} {a b c : List Line} (h1 : Grows m a b) (h2 : Grows n b c) :
    Grows (m + n) a c := by
  obtain ⟨x, rfl, hx⟩ := h1
  obtain ⟨y, rfl, hy⟩ := h2
  exact ⟨x ++ y, by simp, by simp only [List.length_append]; omega⟩

theorem Grows.weaken {m n : Nat} {a b : List Line} (h : Grows m a b) (hmn : m ≤ n) :
    Grows n a b := by
  obtain ⟨x, hx, hl⟩ := h
  exact ⟨x, hx, le_trans hl hmn⟩

theorem length_bitSetPositions_le (board : Nat) : (bitSetPositions board).length ≤ 64 := by
  have := List.length_filter_le (fun t => board.testBit t) (List.range 64)
  simpa [bitSetPositions] using this

theorem dfsEndTile_foldlM_grows {β : Type} (B : CFBoard β) (c fuel : Nat)
    (ih : ∀ (b : β) (depth maxDepth : Int) (cur : Line) (acc : List Line),
      maxDepth = depth + c →
      ∃ r, DFS1pAux B fuel b depth maxDepth cur acc = some r ∧ Grows (4096 ^ c) acc r.2)
    (turn : Bool) (depth maxDepth : Int) (hd : maxDepth = depth + 1 + c)
    (startTile : Nat) (l : List Nat) :
    ∀ st : SearchState β,
      ∃ st', List.foldlM (dfsEndTile B (DFS1pAux B fuel) turn depth maxDepth startTile) st l
          = some st' ∧ Grows (l.length * 4096 ^ c) st.possibleLines st'.possibleLines := by
  induction l with
  | nil => intro st; exact ⟨st, by simp, by simpa using Grows.unchanged _⟩
  | cons e l ihl =>
    intro st
    have hstep : ∃ s1, dfsEndTile B (DFS1pAux B fuel) turn depth maxDepth startTile st e
        = some s1 ∧ Grows (4096 ^ c) st.possibleLines s1.possibleLines := by
      unfold dfsEndTile
      split
      · exact ⟨st, rfl, (Grows.unchanged _).weaken (Nat.zero_le _)⟩
      · split
        · exact ⟨st, rfl, (Grows.unchanged _).weaken (Nat.zero_le _)⟩
        · obtain ⟨r, hr, hg⟩ := ih (B.forceFlipTurn (B.movePiece st.board startTile e))
            (depth + 1) maxDepth (st.curLine ++ [Move.mk startTile e 0]) st.possibleLines hd
          exact ⟨SearchState.mk (B.forceFlipTurn (B.undoLastMove r.1))
            (st.curLine ++ [Move.mk startTile e 0]).dropLast r.2,
            by simp only [hr, Option.map_some'], hg⟩
    obtain ⟨s1, hs1, hg1⟩ := hstep
    obtain ⟨s2, hs2, hg2⟩ := ihl s1
    refine ⟨s2, ?_, (hg1.append hg2).weaken ?_⟩
    · rw [List.foldlM_cons, hs1, Option.bind_eq_bind, Option.some_bind, hs2]
    · simp only [List.length_cons]
      ring_nf
      omega

theorem dfsStartTile_foldlM_grows {β : Type} (B : CFBoard β) (c fuel : Nat)
    (ih : ∀ (b : β) (depth maxDepth : Int) (cur : Line) (acc : List Line),
      maxDepth = depth + c →
      ∃ r, DFS1pAux B fuel b depth maxDepth cur acc = some r ∧ Grows (4096 ^ c) acc r.2)
    (turn : Bool) (depth maxDepth : Int) (hd : maxDepth = depth + 1 + c) (l : List Nat) :
    ∀ st : SearchState β,
      ∃ st', List.foldlM (dfsStartTile B (DFS1pAux B fuel) turn depth maxDepth) st l
          = some st' ∧
        Grows (l.length * (64 * 4096 ^ c)) st.possibleLines st'.possibleLines := by
  induction l with
  | nil => intro st; exact ⟨st, by simp, by simpa using Grows.unchanged _⟩
  | cons s l ihl =>
    intro st
    have hstep : ∃ s1, dfsStartTile B (DFS1pAux B fuel) turn depth maxDepth st s
        = some s1 ∧ Grows (64 * 4096 ^ c) st.possibleLines s1.possibleLines := by
      unfold dfsStartTile
      by_cases hskip : skipStartTile (B.getPieceFromCoords st.board s) turn = true
      · simp only [hskip, if_true]
        exact ⟨st, rfl, (Grows.unchanged _).weaken (Nat.zero_le _)⟩
      · simp only [hskip, if_false, Bool.false_eq_true]
        obtain ⟨s1, hs1, hg⟩ := dfsEndTile_foldlM_grows B c fuel ih turn depth maxDepth hd s
          (bitSetPositions (B.getLegalMoves st.board (B.getPieceFromCoords st.board s) s)) st
        exact ⟨s1, hs1, hg.weaken (Nat.mul_le_mul_right _ (length_bitSetPositions_le _))⟩
    obtain ⟨s1, hs1, hg1⟩ := hstep
    obtain ⟨s2, hs2, hg2⟩ := ihl s1
    refine ⟨s2, ?_, (hg1.append hg2).weaken ?_⟩
    · rw [List.foldlM_cons, hs1, Option.bind_eq_bind, Option.some_bind, hs2]
    · simp only [List.length_cons]
      ring_nf
      omega

/-- On every board `DFS1pAux` started `k` plies above `maxDepth` returns with fuel for
`k + 1` levels and adds at most `4096 ^ k` lines: each level runs through 64 start
tiles and at most 64 destinations. -/
theorem DFS1pAux_grows {β : Type} (B : CFBoard β) (k : Nat) :
    ∀ (fuel : Nat) (b : β) (depth maxDepth : Int) (cur : Line) (acc : List Line),
      k + 1 ≤ fuel → maxDepth = depth + k →
      ∃ r, DFS1pAux B fuel b depth maxDepth cur acc = some r ∧ Grows (4096 ^ k) acc r.2 := by
  induction k with
  | zero =>
    intro fuel b depth maxDepth cur acc hf hd
    obtain ⟨f, rfl⟩ : ∃ f, fuel = f + 1 := ⟨fuel - 1, by omega⟩
    have : depth = maxDepth := by simp [hd]
    exact ⟨(b, acc ++ [cur]), by simp [DFS1pAux, this], [cur], rfl, by simp⟩
  | succ k ih =>
    intro fuel b depth maxDepth cur acc hf hd
    obtain ⟨f, rfl⟩ : ∃ f, fuel = f + 1 := ⟨fuel - 1, by omega⟩
    have hne : (depth == maxDepth) = false := by
      have : depth ≠ maxDepth := by push_cast at hd; omega
      simpa using this
    have hd' : maxDepth = depth + 1 + k := by push_cast at hd; omega
    obtain ⟨st', hst, hg⟩ := dfsStartTile_foldlM_grows B k f
      (fun b depth maxDepth cur acc h => ih f b depth maxDepth cur acc (by omega) h)
      (B.getCurrentPlayer b) depth maxDepth hd' (List.range 64) (SearchState.mk b cur acc)
    refine ⟨(st'.board, st'.possibleLines), ?_, hg.weaken ?_⟩
    · simp only [DFS1pAux, hne, Bool.false_eq_true, if_false, hst, Option.map_some']
    · simp only [List.length_range]
      rw [pow_succ]
      omega

/-! ### The squares `distFromTileToTilesAsPiece` asks the move generator about -/

theorem bfsVisit_queue {β : Type} (B : CFBoard β) (board : β) (currentTurn : Bool)
    (opponentPawnBoard : Nat) (curi curj : Nat) (st : Grid × List (Nat × Nat)) (t : Nat)
    (p : Nat × Nat)
    (hp : p ∈ (bfsVisit B board currentTurn opponentPawnBoard curi curj st t).2) :
    p ∈ st.2 ∨ squareOk B board currentTurn opponentPawnBoard p = true := by
  unfold bfsVisit at hp
  simp only at hp
  split at hp
  · exact Or.inl hp
  · split at hp
    · exact Or.inl hp
    · split at hp
      · exact Or.inl hp
      · split at hp
        · exact Or.inl hp
        · rename_i h1 h2 h3 h4
          rcases List.mem_append.1 hp with h | h
          · exact Or.inl h
          · have hpe : p = (t / 8, t % 8) := by simpa using h
            subst hpe
            refine Or.inr ?_
            simp only [squareOk, Bool.and_eq_true]
            refine ⟨⟨by simpa using h1, by simpa using h3⟩, by simpa using h4⟩

theorem bfsVisit_foldl_queue {β : Type} (B : CFBoard β) (board : β) (currentTurn : Bool)
    (opponentPawnBoard : Nat) (curi curj : Nat) (l : List Nat) :
    ∀ (st : Grid × List (Nat × Nat)) (p : Nat × Nat),
      p ∈ (l.foldl (bfsVisit B board currentTurn opponentPawnBoard curi curj) st).2 →
      p ∈ st.2 ∨ squareOk B board currentTurn opponentPawnBoard p = true := by
  induction l with
  | nil => intro st p hp; exact Or.inl hp
  | cons t l ih =>
    intro st p hp
    rcases ih _ p hp with h | h
    · exact bfsVisit_queue B board currentTurn opponentPawnBoard curi curj st t p h
    · exact Or.inr h

theorem bfsOrigins_empty {β : Type} (B : CFBoard β) (board : β) (pieceId : Int)
    (currentTurn : Bool) (opponentPawnBoard : Nat) (fuel : Nat) :
    ∀ (dist : Grid) (q : List (Nat × Nat)),
      (∀ p ∈ q, squareOk B board currentTurn opponentPawnBoard p = true) →
      ∀ t ∈ bfsOrigins B board pieceId currentTurn opponentPawnBoard fuel dist q,
        t < 64 ∧ B.getPieceFromCoords board t = -1 := by
  induction fuel with
  | zero =>
    intro dist q _ t ht
    cases q <;> simp [bfsOrigins] at ht
  | succ fuel ih =>
    intro dist q hq t ht
    cases q with
    | nil => simp [bfsOrigins] at ht
    | cons u q =>
      obtain ⟨curi, curj⟩ := u
      simp only [bfsOrigins, List.mem_cons] at ht
      rcases ht with rfl | ht
      · have hok := hq (curi, curj) (by simp)
        simp only [squareOk, Bool.and_eq_true] at hok
        have hv := (validSquare_iff curi curj).1 hok.1.1
        exact ⟨by omega, by simpa using hok.1.2⟩
      · refine ih _ _ ?_ t ht
        intro p hp
        rcases bfsVisit_foldl_queue B board currentTurn opponentPawnBoard curi curj _ _ p hp
          with h | h
        · exact hq p (by simp [h])
        · exact h

/-- The calls to `getLegalMoves` of one search: the first is for the start tile, and
every later one is for a tile of the board that is empty. -/
theorem legalMovesOrigins_eq {β : Type} (B : CFBoard β) (board : β) (halfPieceId : Int)
    (s : Nat) (fuel : Nat) (hf : 1 ≤ fuel) :
    ∃ later, legalMovesOrigins fuel B board halfPieceId s = (s / 8 * 8 + s % 8) :: later ∧
      ∀ t ∈ later, t < 64 ∧ B.getPieceFromCoords board t = -1 := by
  obtain ⟨f, rfl⟩ : ∃ f, fuel = f + 1 := ⟨fuel - 1, by omega⟩
  refine ⟨_, rfl, ?_⟩
  intro t ht
  refine bfsOrigins_empty B board _ _ _ f _ _ ?_ t ht
  intro p hp
  rcases bfsVisit_foldl_queue B board _ _ _ _ _ _ p hp with h | h
  · simp at h
  · exact h

/-! ### The direction of the pawn-safety test -/

theorem squareSafe_false_iff (currentTurn : Bool) (opponentPawnBoard : Nat)
    (row col : Int) (hr0 : 0 ≤ row) (hr8 : row < 8) (hc0 : 0 ≤ col) (hc8 : col < 8) :
    squareSafeFromOpponentPawns currentTurn opponentPawnBoard row col = false ↔
      (pawnOn opponentPawnBoard (pawnThreatRow currentTurn row) (col - 1) ∨
       pawnOn opponentPawnBoard (pawnThreatRow currentTurn row) (col + 1)) := by
  have e6 : 0 ≤ col + 1 := by omega
  have e8 : col - 1 < 8 := by omega
  have k2 : (0 ≤ col - 1) ↔ ¬ col = 0 := by omega
  have k3 : (col + 1 < 8) ↔ ¬ col = 7 := by omega
  cases currentTurn
  · simp only [squareSafeFromOpponentPawns, isBitSet, Heatmap.posToTile, pawnOn, pawnThreatRow,
      Bool.false_eq_true, if_false, if_true]
    generalize opponentPawnBoard.testBit ((row - 1) * 8 + (col - 1)).toNat = A
    generalize opponentPawnBoard.testBit ((row - 1) * 8 + (col + 1)).toNat = B
    have e7 : row - 1 < 8 := by omega
    have k1 : (0 ≤ row - 1) ↔ ¬ row = 0 := by omega
    by_cases h1 : row = 0 <;> by_cases h2 : col = 0 <;> by_cases h3 : col = 7 <;>
      cases A <;> cases B <;> simp [h1, h2, h3, e6, e7, e8, k1, k2, k3] <;> omega
  · simp only [squareSafeFromOpponentPawns, isBitSet, Heatmap.posToTile, pawnOn, pawnThreatRow,
      Bool.false_eq_true, if_false, if_true]
    generalize opponentPawnBoard.testBit ((row + 1) * 8 + (col - 1)).toNat = A
    generalize opponentPawnBoard.testBit ((row + 1) * 8 + (col + 1)).toNat = B
    have e7 : 0 ≤ row + 1 := by omega
    have k1 : (row + 1 < 8) ↔ ¬ row = 7 := by omega
    by_cases h1 : row = 7 <;> by_cases h2 : col = 0 <;> by_cases h3 : col = 7 <;>
      cases A <;> cases B <;> simp [h1, h2, h3, e6, e7, e8, k1, k2, k3] <;> omega

/-! ### Move and undo on the position store -/

theorem undoLastMove_movePiece (p : Position) (origin destination : Nat) :
    Position.undoLastMove (Position.movePiece p origin destination) = p := by
  unfold Position.movePiece
  by_cases h : origin < p.squares.length ∧ destination < p.squares.length
  · rw [if_pos h]
    simp only [Position.undoLastMove, List.length_set, h, and_self, if_true]
    have hsq : ((((p.squares.set origin (-1)).set destination (p.pieceAt origin)).set destination
        (p.pieceAt destination)).set origin
        (Position.pieceAt ⟨(p.squares.set origin (-1)).set destination (p.pieceAt origin),
          p.turn, HistoryEntry.mk origin destination (p.pieceAt destination) p.turn :: p.history,
          p.fenFields⟩
          destination)) = p.squares := by
      apply List.ext_getElem?
      intro i
      simp only [Position.pieceAt, List.getD_eq_getElem?_getD, List.getElem?_set, List.length_set]
      by_cases h1 : origin = i
      · subst h1
        simp [h.1, h.2]
      · by_cases h2 : destination = i
        · subst h2
          simp [h1, h.2]
        · simp [h1, h2]
    rw [hsq]
  · rw [if_neg h]
    simp only [Position.undoLastMove, h, if_false]

/-! ### FEN export and import -/

theorem emptyRunLength_emptyRunChar (n : Nat) (h1 : 1 ≤ n) (h8 : n ≤ 8) :
    emptyRunLength (emptyRunChar n) = some n := by
  interval_cases n <;> decide

theorem pieceCharToId_pieceIdToChar (x : Int) (h0 : 0 ≤ x) (h11 : x ≤ 11) :
    pieceCharToId (pieceIdToChar x) = some x ∧ emptyRunLength (pieceIdToChar x) = none := by
  interval_cases x <;> decide

theorem emptyRunChar_ne (n : Nat) : emptyRunChar n ≠ ' ' ∧ emptyRunChar n ≠ '/' := by
  unfold emptyRunChar
  split_ifs <;> decide

theorem pieceIdToChar_ne (x : Int) : pieceIdToChar x ≠ ' ' ∧ pieceIdToChar x ≠ '/' := by
  by_cases h : 0 ≤ x ∧ x ≤ 11
  · obtain ⟨h0, h11⟩ := h
    interval_cases x <;> decide
  · have hq : pieceIdToChar x = '?' := by
      unfold pieceIdToChar
      repeat rw [if_neg (by omega)]
    rw [hq]
    decide

theorem importRow_cons_run (c : Char) (cs : List Char) (n : Nat)
    (h : emptyRunLength c = some n) :
    importRow (c :: cs) = (importRow cs).map (fun row => List.replicate n (-1) ++ row) := by
  simp only [importRow, h]

theorem importRow_cons_piece (c : Char) (cs : List Char) (pieceId : Int)
    (h1 : emptyRunLength c = none) (h2 : pieceCharToId c = some pieceId) :
    importRow (c :: cs) = (importRow cs).map (fun row => pieceId :: row) := by
  simp only [importRow, h1, h2]

theorem exportRow_ne (xs : List Int) :
    ∀ (run : Nat) (c : Char), c ∈ exportRow xs run → c ≠ ' ' ∧ c ≠ '/' := by
  induction xs with
  | nil =>
    intro run c hc
    cases run with
    | zero => simp [exportRow] at hc
    | succ r =>
      simp only [exportRow, List.mem_singleton] at hc
      rw [hc]; exact emptyRunChar_ne _
  | cons x xs ih =>
    intro run c hc
    simp only [exportRow] at hc
    split at hc
    · exact ih _ c hc
    · rcases List.mem_append.1 hc with h | h
      · split at h
        · simp at h
        · simp only [List.mem_singleton] at h
          rw [h]; exact emptyRunChar_ne _
      · rcases List.mem_cons.1 h with h | h
        · rw [h]; exact pieceIdToChar_ne _
        · exact ih _ c h

theorem importRow_exportRow (xs : List Int) :
    ∀ run : Nat, run + xs.length ≤ 8 → (∀ x ∈ xs, -1 ≤ x ∧ x ≤ 11) →
      importRow (exportRow xs run) = some (List.replicate run (-1) ++ xs) := by
  induction xs with
  | nil =>
    intro run _ _
    cases run with
    | zero => simp [exportRow, importRow]
    | succ r =>
      simp only [exportRow]
      rw [importRow_cons_run _ _ _
        (emptyRunLength_emptyRunChar (r + 1) (by omega) (by simp at *; omega))]
      simp [importRow]
  | cons x xs ih =>
    intro run hlen hval
    have hx := hval x (by simp)
    have hxs : ∀ y ∈ xs, -1 ≤ y ∧ y ≤ 11 := fun y hy => hval y (by simp [hy])
    simp only [List.length_cons] at hlen
    simp only [exportRow]
    by_cases hx1 : x = -1
    · rw [if_pos hx1, ih (run + 1) (by omega) hxs, hx1]
      congr 1
      rw [List.replicate_succ', List.append_assoc]
      rfl
    · rw [if_neg hx1]
      have hp := pieceCharToId_pieceIdToChar x (by omega) hx.2
      have hrest : importRow (pieceIdToChar x :: exportRow xs 0) = some (x :: xs) := by
        rw [importRow_cons_piece _ _ x hp.2 hp.1, ih 0 (by omega) hxs]
        simp
      by_cases hr : run = 0
      · rw [if_pos hr, hr]
        simpa using hrest
      · rw [if_neg hr]
        rw [List.singleton_append, importRow_cons_run _ _ _
          (emptyRunLength_emptyRunChar run (by omega) (by omega)), hrest]
        simp

theorem splitOn_of_not_mem (sep : Char) (a : List Char) (h : sep ∉ a) :
    splitOn sep a = [a] := by
  induction a with
  | nil => rfl
  | cons c cs ih =>
    have hc : c ≠ sep := fun e => h (by simp [e])
    have hcs : sep ∉ cs := fun e => h (by simp [e])
    simp [splitOn, hc, ih hcs]

theorem splitOn_append (sep : Char) (a rest : List Char) (h : sep ∉ a) :
    splitOn sep (a ++ sep :: rest) = a :: splitOn sep rest := by
  induction a with
  | nil => simp [splitOn]
  | cons c cs ih =>
    have hc : c ≠ sep := fun e => h (by simp [e])
    have hcs : sep ∉ cs := fun e => h (by simp [e])
    simp [splitOn, hc, ih hcs]

theorem splitOn_joinWith (sep : Char) (fields : List (List Char)) (hne : fields ≠ [])
    (h : ∀ f ∈ fields, sep ∉ f) : splitOn sep (joinWith sep fields) = fields := by
  induction fields with
  | nil => exact absurd rfl hne
  | cons a rest ih =>
    cases rest with
    | nil => simpa [joinWith] using splitOn_of_not_mem sep a (h a (by simp))
    | cons b rest =>
      simp only [joinWith]
      rw [splitOn_append sep a _ (h a (by simp)),
        ih (by simp) (fun f hf => h f (by simp [hf]))]

theorem importRows_exportRow (rows : List (List Int))
    (h : ∀ row ∈ rows, row.length ≤ 8 ∧ ∀ x ∈ row, -1 ≤ x ∧ x ≤ 11) :
    importRows (rows.map (fun row => exportRow row 0)) = some rows := by
  induction rows with
  | nil => rfl
  | cons r rs ih =>
    have hr := h r (by simp)
    simp only [List.map_cons, importRows,
      importRow_exportRow r 0 (by omega) hr.2, ih (fun row hrow => h row (by simp [hrow]))]
    simp


theorem flatten_chunks (n : Nat) : ∀ l : List Int, l.length = 8 * n →
    ((List.range n).map (fun r => (l.drop (8 * r)).take 8)).flatten = l := by
  induction n with
  | zero =>
    intro l h
    have : l = [] := List.length_eq_zero.1 (by omega)
    simp [this]
  | succ n ih =>
    intro l h
    rw [List.range_succ_eq_map, List.map_cons, List.map_map, List.flatten_cons]
    have hfun : ((fun r => List.take 8 (List.drop (8 * r) l)) ∘ Nat.succ)
        = fun r => List.take 8 (List.drop (8 * r) (l.drop 8)) := by
      funext r
      simp only [Function.comp, List.drop_drop]
      congr 2
      omega
    rw [hfun, ih (l.drop 8) (by rw [List.length_drop]; omega)]
    simp

theorem boardRows_flatten (squares : List Int) (h : squares.length = 64) :
    (boardRows squares).flatten = squares :=
  flatten_chunks 8 squares h

theorem length_boardRows (squares : List Int) : (boardRows squares).length = 8 := by
  simp [boardRows]

theorem mem_boardRows (squares : List Int) (h : squares.length = 64) (row : List Int)
    (hrow : row ∈ boardRows squares) : row.length = 8 ∧ ∀ x ∈ row, x ∈ squares := by
  simp only [boardRows, List.mem_map, List.mem_range] at hrow
  obtain ⟨r, hr, rfl⟩ := hrow
  constructor
  · rw [List.length_take, List.length_drop]; omega
  · intro x hx
    exact List.mem_of_mem_drop (List.mem_of_mem_take hx)

theorem mem_joinWith (sep c : Char) (fields : List (List Char)) (h : c ∈ joinWith sep fields) :
    c = sep ∨ ∃ f ∈ fields, c ∈ f := by
  induction fields with
  | nil => simp [joinWith] at h
  | cons a rest ih =>
    cases rest with
    | nil => exact Or.inr ⟨a, by simp, by simpa [joinWith] using h⟩
    | cons b rest =>
      simp only [joinWith, List.mem_append, List.mem_cons] at h
      rcases h with h | h | h
      · exact Or.inr ⟨a, by simp, h⟩
      · exact Or.inl h
      · rcases ih h with h | ⟨f, hf, hc⟩
        · exact Or.inl h
        · exact Or.inr ⟨f, by simp [hf], hc⟩

/-- Importing the exported FEN of a well-formed position gives back its lookup, its
side to move and its four trailing fields, with an empty history. -/
theorem fromFEN_toFEN (p : Position) (h : p.WellFormed) :
    Position.fromFEN p.toFEN = some (Position.mk p.squares p.turn [] p.fenFields) := by
  obtain ⟨⟨hlen, hval⟩, hfour, hblank⟩ := h
  obtain ⟨f1, f2, f3, f4, hfields⟩ : ∃ f1 f2 f3 f4, p.fenFields = [f1, f2, f3, f4] := by
    match hf : p.fenFields, hfour with
    | [f1, f2, f3, f4], _ => exact ⟨f1, f2, f3, f4, rfl⟩
  have hrowsOk : ∀ row ∈ (boardRows p.squares).reverse,
      row.length ≤ 8 ∧ ∀ x ∈ row, -1 ≤ x ∧ x ≤ 11 := by
    intro row hrow
    have := mem_boardRows p.squares hlen row (List.mem_reverse.1 hrow)
    exact ⟨by omega, fun x hx => hval x (this.2 x hx)⟩
  have hslash : splitOn '/' (joinWith '/'
      ((boardRows p.squares).reverse.map (fun row => exportRow row 0)))
      = (boardRows p.squares).reverse.map (fun row => exportRow row 0) := by
    apply splitOn_joinWith
    · intro e
      have := congrArg List.length e
      simp [length_boardRows] at this
    · intro f hf hmem
      obtain ⟨row, _, rfl⟩ := List.mem_map.1 hf
      exact (exportRow_ne row 0 '/' hmem).2 rfl
  have hplace : (' ' : Char) ∉ joinWith '/'
      ((boardRows p.squares).reverse.map (fun row => exportRow row 0)) := by
    intro hmem
    rcases mem_joinWith '/' ' ' _ hmem with h | ⟨f, hf, hc⟩
    · exact absurd h (by decide)
    · obtain ⟨row, _, rfl⟩ := List.mem_map.1 hf
      exact (exportRow_ne row 0 ' ' hc).1 rfl
  have hspace : splitOn ' ' p.toFEN.data =
      [joinWith '/' ((boardRows p.squares).reverse.map (fun row => exportRow row 0)),
        [if p.turn then 'b' else 'w'], f1, f2, f3, f4] := by
    unfold Position.toFEN
    rw [hfields]
    apply splitOn_joinWith
    · simp
    · intro f hf
      simp only [List.cons_append, List.nil_append, List.mem_cons, List.mem_singleton,
        List.not_mem_nil, or_false] at hf
      rcases hf with rfl | rfl | hf
      · exact hplace
      · cases p.turn <;> decide
      · exact hblank f (by rw [hfields]; simpa using hf)
  have hall : ((boardRows p.squares).reverse.all (fun row => row.length == 8)) = true := by
    rw [List.all_eq_true]
    intro row hrow
    have := mem_boardRows p.squares hlen row (List.mem_reverse.1 hrow)
    simp [this.1]
  unfold Position.fromFEN
  rw [hspace]
  simp only [hslash, importRows_exportRow _ hrowsOk, List.length_reverse, length_boardRows,
    hall, true_and, if_true, List.reverse_reverse, boardRows_flatten p.squares hlen, hfields]
  cases p.turn <;> simp

theorem pieceAt_range (p : Position) (h : p.WellFormed) (s : Nat) :
    -1 ≤ p.pieceAt s ∧ p.pieceAt s ≤ 11 := by
  unfold Position.pieceAt
  by_cases hs : s < p.squares.length
  · rw [List.getD_eq_getElem _ _ hs]
    exact h.1.2 _ (List.getElem_mem _)
  · rw [List.getD_eq_default _ _ (by omega)]
    omega

theorem wellFormed_movePiece (p : Position) (h : p.WellFormed) (origin destination : Nat) :
    (p.movePiece origin destination).WellFormed := by
  unfold Position.movePiece
  split
  · refine ⟨⟨by simp [h.1.1], ?_⟩, h.2⟩
    intro x hx
    simp only at hx
    rcases List.mem_or_eq_of_mem_set hx with hx | rfl
    · rcases List.mem_or_eq_of_mem_set hx with hx | rfl
      · exact h.1.2 x hx
      · omega
    · exact pieceAt_range p h origin
  · exact h

theorem wellFormed_forceFlipTurn (p : Position) (h : p.WellFormed) :
    p.forceFlipTurn.WellFormed := h

theorem wellFormed_startingLayout : Position.startingLayout.WellFormed := by
  refine ⟨⟨by decide, by decide⟩, by decide, by decide⟩

theorem wellFormed_of_reachable (p : Position) (h : p.Reachable) : p.WellFormed := by
  induction h with
  | start => exact wellFormed_startingLayout
  | move p origin destination _ _ _ _ _ _ ih => exact wellFormed_movePiece p ih origin destination
  | flip p _ ih => exact wellFormed_forceFlipTurn p ih

theorem toFEN_congr (p q : Position) (hs : p.squares = q.squares) (ht : p.turn = q.turn)
    (hf : p.fenFields = q.fenFields) : p.toFEN = q.toFEN := by
  unfold Position.toFEN
  rw [hs, ht, hf]

/-! ### Export after import -/

theorem splitOn_ne_nil (sep : Char) (cs : List Char) : splitOn sep cs ≠ [] := by
  induction cs with
  | nil => simp [splitOn]
  | cons c cs ih =>
    unfold splitOn
    split
    · simp
    · split <;> simp

theorem joinWith_splitOn (sep : Char) (cs : List Char) :
    joinWith sep (splitOn sep cs) = cs := by
  induction cs with
  | nil => rfl
  | cons c cs ih =>
    unfold splitOn
    by_cases hc : c = sep
    · rw [if_pos hc]
      match hs : splitOn sep cs with
      | [] => exact absurd hs (splitOn_ne_nil sep cs)
      | f :: fs =>
        rw [hs] at ih
        simp only [joinWith, List.nil_append, ih, hc]
    · rw [if_neg hc]
      match hs : splitOn sep cs with
      | [] => exact absurd hs (splitOn_ne_nil sep cs)
      | [f] =>
        rw [hs] at ih
        simp only [joinWith] at ih ⊢
        rw [ih]
      | f :: g :: fs =>
        rw [hs] at ih
        simp only [joinWith, List.cons_append] at ih ⊢
        rw [ih]

theorem exportRow_replicate (n : Nat) (row : List Int) (run : Nat) :
    exportRow (List.replicate n (-1) ++ row) run = exportRow row (run + n) := by
  induction n generalizing run with
  | zero => simp
  | succ n ih =>
    rw [List.replicate_succ, List.cons_append, exportRow, if_pos rfl, ih]
    congr 1
    omega

theorem emptyRunChar_emptyRunLength (c : Char) (n : Nat) (h : emptyRunLength c = some n) :
    emptyRunChar n = c ∧ 1 ≤ n := by
  have hn : n = (emptyRunLength c).getD 0 := by rw [h]; rfl
  by_cases hmem : c ∈ ['1', '2', '3', '4', '5', '6', '7', '8']
  · simp only [List.mem_cons, List.mem_singleton, List.not_mem_nil, or_false] at hmem
    rcases hmem with rfl | rfl | rfl | rfl | rfl | rfl | rfl | rfl <;>
      (subst hn; exact ⟨by decide, by decide⟩)
  · simp only [List.mem_cons, List.mem_singleton, List.not_mem_nil, or_false, not_or] at hmem
    simp [emptyRunLength, hmem] at h

theorem pieceIdToChar_pieceCharToId (c : Char) (x : Int) (h : pieceCharToId c = some x) :
    pieceIdToChar x = c ∧ x ≠ -1 := by
  have hx : x = (pieceCharToId c).getD 0 := by rw [h]; rfl
  by_cases hmem : c ∈ ['P', 'p', 'N', 'n', 'B', 'b', 'R', 'r', 'Q', 'q', 'K', 'k']
  · simp only [List.mem_cons, List.mem_singleton, List.not_mem_nil, or_false] at hmem
    rcases hmem with rfl | rfl | rfl | rfl | rfl | rfl | rfl | rfl | rfl | rfl | rfl | rfl <;>
      (subst hx; exact ⟨by decide, by decide⟩)
  · simp only [List.mem_cons, List.mem_singleton, List.not_mem_nil, or_false, not_or] at hmem
    simp [pieceCharToId, hmem] at h

theorem canonicalRow_tail (c : Char) (cs : List Char) (h : canonicalRow (c :: cs) = true) :
    canonicalRow cs = true := by
  cases cs with
  | nil => rfl
  | cons d ds =>
    simp only [canonicalRow, Bool.and_eq_true] at h
    exact h.2

theorem canonicalRow_digit (c d : Char) (cs : List Char) (n : Nat)
    (h : canonicalRow (c :: d :: cs) = true) (hn : emptyRunLength c = some n) :
    emptyRunLength d = none := by
  simp only [canonicalRow, hn, Option.isSome_some, Bool.true_and, Bool.and_eq_true,
    Bool.not_eq_true'] at h
  cases hd : emptyRunLength d with
  | none => rfl
  | some m => rw [hd] at h; exact absurd h.1 (by simp)

/-- Exporting an imported row gives the row text back when the text has no two digits
in a row. -/
theorem exportRow_importRow : ∀ (cs : List Char) (row : List Int),
    importRow cs = some row → canonicalRow cs = true → exportRow row 0 = cs
  | [], row, h, _ => by
    simp only [importRow, Option.some.injEq] at h
    subst h
    rfl
  | c :: cs, row, h, hc => by
    unfold importRow at h
    have htail := canonicalRow_tail c cs hc
    match hn : emptyRunLength c with
    | some n =>
      rw [hn] at h
      obtain ⟨hchar, hpos⟩ := emptyRunChar_emptyRunLength c n hn
      match hrest : importRow cs with
      | none => simp [hrest] at h
      | some rest =>
        rw [hrest] at h
        simp only [Option.map_some', Option.some.injEq] at h
        subst h
        have ih := exportRow_importRow cs rest hrest htail
        rw [exportRow_replicate, Nat.zero_add]
        match cs, rest, hrest, hc, ih with
        | [], rest, hrest, _, _ =>
          simp only [importRow, Option.some.injEq] at hrest
          subst hrest
          obtain ⟨m, rfl⟩ : ∃ m, n = m + 1 := ⟨n - 1, by omega⟩
          rw [exportRow, hchar]
        | d :: ds, rest, hrest, hc, ih =>
          have hd : emptyRunLength d = none := canonicalRow_digit c d ds n hc hn
          unfold importRow at hrest
          rw [hd] at hrest
          match hx : pieceCharToId d with
          | none => simp [hx] at hrest
          | some x =>
            rw [hx] at hrest
            match hrr : importRow ds with
            | none => simp [hrr] at hrest
            | some rr =>
              rw [hrr] at hrest
              simp only [Option.map_some', Option.some.injEq] at hrest
              subst hrest
              have hx1 := (pieceIdToChar_pieceCharToId d x hx).2
              rw [exportRow, if_neg hx1, if_pos rfl, List.nil_append] at ih
              rw [exportRow, if_neg hx1, if_neg (by omega), hchar, ih]
              rfl
    | none =>
      rw [hn] at h
      match hx : pieceCharToId c with
      | none => simp [hx] at h
      | some x =>
        rw [hx] at h
        match hrest : importRow cs with
        | none => simp [hrest] at h
        | some rest =>
          rw [hrest] at h
          simp only [Option.map_some', Option.some.injEq] at h
          subst h
          obtain ⟨hchar, hx1⟩ := pieceIdToChar_pieceCharToId c x hx
          rw [exportRow, if_neg hx1, if_pos rfl, List.nil_append, hchar,
            exportRow_importRow cs rest hrest htail]

theorem exportRow_importRows : ∀ (texts : List (List Char)) (rows : List (List Int)),
    importRows texts = some rows → texts.all canonicalRow = true →
    rows.map (fun row => exportRow row 0) = texts
  | [], rows, h, _ => by
    simp only [importRows, Option.some.injEq] at h
    subst h
    rfl
  | t :: ts, rows, h, hc => by
    unfold importRows at h
    simp only [List.all_cons, Bool.and_eq_true] at hc
    match hr : importRow t with
    | none => simp [hr] at h
    | some row =>
      rw [hr] at h
      match hrs : importRows ts with
      | none => simp [hrs] at h
      | some rest =>
        rw [hrs] at h
        simp only [Option.map_some', Option.some.injEq] at h
        subst h
        rw [List.map_cons, exportRow_importRow t row hr hc.1,
          exportRow_importRows ts rest hrs hc.2]

theorem chunks_flatten : ∀ rows : List (List Int), (∀ row ∈ rows, row.length = 8) →
    (List.range rows.length).map (fun r => (rows.flatten.drop (8 * r)).take 8) = rows
  | [], _ => rfl
  | row :: rows, h => by
    have hrow : row.length = 8 := h row (by simp)
    rw [List.length_cons, List.range_succ_eq_map, List.map_cons, List.map_map,
      List.flatten_cons]
    have hfun : ((fun r => List.take 8 (List.drop (8 * r) (row ++ rows.flatten))) ∘ Nat.succ)
        = fun r => List.take 8 (List.drop (8 * r) rows.flatten) := by
      funext r
      simp only [Function.comp]
      rw [List.drop_append_eq_append_drop, List.drop_of_length_le (by omega), List.nil_append]
      congr 2
      omega
    rw [hfun, chunks_flatten rows (fun r hr => h r (by simp [hr]))]
    simp [hrow]

theorem boardRows_of_flatten (rows : List (List Int)) (hlen : rows.length = 8)
    (h : ∀ row ∈ rows, row.length = 8) : boardRows rows.flatten = rows := by
  have := chunks_flatten rows h
  rw [hlen] at this
  exact this

/-- Export after import: a FEN that the import accepts, with the runs of empty squares
of its piece placement merged, is what the export of the imported position writes. -/
theorem toFEN_fromFEN (fen : String) (p : Position) (h : Position.fromFEN fen = some p)
    (hc : canonicalFEN fen = true) : p.toFEN = fen := by
  unfold Position.fromFEN at h
  unfold canonicalFEN at hc
  have hjoin := joinWith_splitOn ' ' fen.data
  match hs : splitOn ' ' fen.data with
  | [placement, side, castling, enPassant, halfMoves, fullMoves] =>
    rw [hs] at h hc hjoin
    simp only at h hc
    match hr : importRows (splitOn '/' placement) with
    | none => simp [hr] at h
    | some rows =>
      rw [hr] at h
      simp only at h
      by_cases hrows : rows.length = 8 ∧ rows.all (fun row => row.length == 8) = true
      · rw [if_pos hrows] at h
        have hall : ∀ row ∈ rows.reverse, row.length = 8 := by
          intro row hrow
          have := List.all_eq_true.1 hrows.2 row (List.mem_reverse.1 hrow)
          simpa using this
        have hplace : joinWith '/' (rows.map (fun row => exportRow row 0)) = placement := by
          rw [exportRow_importRows _ rows hr hc, joinWith_splitOn]
        have hboard : (boardRows rows.reverse.flatten).reverse = rows := by
          rw [boardRows_of_flatten rows.reverse (by simp [hrows.1]) hall, List.reverse_reverse]
        by_cases hw : side = ['w']
        · rw [if_pos hw] at h
          simp only [Option.some.injEq] at h
          subst h
          subst hw
          unfold Position.toFEN
          simp only [hboard, hplace, List.cons_append, List.nil_append, Bool.false_eq_true,
            if_false]
          rw [hjoin]
        · rw [if_neg hw] at h
          by_cases hb : side = ['b']
          · rw [if_pos hb] at h
            simp only [Option.some.injEq] at h
            subst h
            subst hb
            unfold Position.toFEN
            simp only [hboard, hplace, List.cons_append, List.nil_append, if_true]
            rw [hjoin]
          · rw [if_neg hb] at h
            exact absurd h (by simp)
      · rw [if_neg hrows] at h
        exact absurd h (by simp)
  | [] => exact absurd hs (splitOn_ne_nil ' ' fen.data)
  | [_] => rw [hs] at h; exact absurd h (by simp)
  | [_, _] => rw [hs] at h; exact absurd h (by simp)
  | [_, _, _] => rw [hs] at h; exact absurd h (by simp)
  | [_, _, _, _] => rw [hs] at h; exact absurd h (by simp)
  | [_, _, _, _, _] => rw [hs] at h; exact absurd h (by simp)
  | _ :: _ :: _ :: _ :: _ :: _ :: _ :: _ => rw [hs] at h; exact absurd h (by simp)

/-! ### Bitboards and check detection -/

theorem testBit_foldl_or (P : Nat → Prop) [DecidablePred P] (k : Nat) (l : List Nat) :
    ∀ acc : Nat, (l.foldl (fun acc s => if P s then acc ||| 2 ^ s else acc) acc).testBit k
      = true ↔ acc.testBit k = true ∨ (k ∈ l ∧ P k) := by
  induction l with
  | nil => intro acc; simp
  | cons s l ih =>
    intro acc
    rw [List.foldl_cons, ih]
    by_cases hP : P s
    · rw [if_pos hP, Nat.testBit_or, Bool.or_eq_true, Nat.testBit_two_pow]
      constructor
      · rintro ((h | h) | h)
        · exact Or.inl h
        · have : s = k := by simpa using h
          exact Or.inr ⟨by simp [this], this ▸ hP⟩
        · exact Or.inr ⟨by simp [h.1], h.2⟩
      · rintro (h | ⟨h1, h2⟩)
        · exact Or.inl (Or.inl h)
        · rcases List.mem_cons.1 h1 with h1 | h1
          · exact Or.inl (Or.inr (by simp [h1]))
          · exact Or.inr ⟨h1, h2⟩
    · rw [if_neg hP]
      constructor
      · rintro (h | h)
        · exact Or.inl h
        · exact Or.inr ⟨by simp [h.1], h.2⟩
      · rintro (h | ⟨h1, h2⟩)
        · exact Or.inl h
        · rcases List.mem_cons.1 h1 with h1 | h1
          · exact absurd (h1 ▸ h2) hP
          · exact Or.inr ⟨h1, h2⟩

/-- Consistency of the bitboards with the lookup: bit `s` of the board of index `i` is
set exactly when the lookup at `s` is `i`. -/
theorem testBit_getPieceColorBitBoard (p : Position) (i : Int) (s : Nat) :
    (p.getPieceColorBitBoard i).testBit s = true
      ↔ s < 64 ∧ p.pieceAt s = i ∧ 0 ≤ i ∧ i < 12 := by
  unfold Position.getPieceColorBitBoard
  split
  · rename_i hi
    rw [testBit_foldl_or (fun s => p.pieceAt s = i)]
    simp only [Nat.zero_testBit, Bool.false_eq_true, false_or, List.mem_range]
    tauto
  · rename_i hi
    simp only [Nat.zero_testBit, Bool.false_eq_true, false_iff]
    tauto

theorem kingSquare_some (p : Position) (color : Bool) (k : Nat)
    (h : p.kingSquare color = some k) : k < 64 ∧ p.pieceAt k = 10 + boolToInt color := by
  unfold Position.kingSquare at h
  have hmem : k ∈ bitSetPositions (p.getPieceColorBitBoard (10 + boolToInt color)) :=
    List.mem_of_mem_head? h
  rw [mem_bitSetPositions] at hmem
  have := (testBit_getPieceColorBitBoard p _ k).1 hmem.2
  exact ⟨this.1, this.2.1⟩

theorem kingSquare_none (p : Position) (color : Bool)
    (h : p.kingSquare color = none) : ∀ s < 64, p.pieceAt s ≠ 10 + boolToInt color := by
  intro s hs e
  unfold Position.kingSquare at h
  have hnil := List.head?_eq_none_iff.1 h
  have hmem : s ∈ bitSetPositions (p.getPieceColorBitBoard (10 + boolToInt color)) := by
    rw [mem_bitSetPositions]
    refine ⟨hs, (testBit_getPieceColorBitBoard p _ s).2 ⟨hs, e, ?_, ?_⟩⟩ <;>
      cases color <;> simp [boolToInt]
  rw [hnil] at hmem
  exact absurd hmem (List.not_mem_nil _)

theorem naiveCheckCheck_iff (p : Position) (color : Bool) :
    p.naiveCheckCheck color = true ↔
      ∃ king, p.kingSquare color = some king ∧ ∃ s, s < 64 ∧ p.pieceAt s ≠ -1
        ∧ p.pieceAt s % 2 ≠ boolToInt color
        ∧ (p.getLegalMoves (p.pieceAt s) s).testBit king = true := by
  unfold Position.naiveCheckCheck
  cases hk : p.kingSquare color with
  | none => simp
  | some king =>
    simp only [List.any_eq_true, List.mem_range, Bool.and_eq_true, bne_iff_ne, ne_eq,
      Option.some.injEq, exists_eq_left']
    constructor
    · rintro ⟨s, hs, ⟨h1, h2⟩, h3⟩
      exact ⟨s, hs, h1, h2, h3⟩
    · rintro ⟨s, hs, h1, h2, h3⟩
      exact ⟨s, hs, ⟨h1, h2⟩, h3⟩

/-! ### The board tests on the position store -/

set_option maxRecDepth 1000000 in
theorem toFEN_startingLayout : Position.startingLayout.toFEN = startFEN := by decide

set_option maxRecDepth 1000000 in
theorem fromFEN_startFEN : Position.fromFEN startFEN = some Position.startingLayout := by
  decide

/-! ### The scoring loop of `getNextMove` on every board -/

theorem scoreLine_some {β : Type} (fuel : Nat) (hf : 64 ≤ fuel) (B : CFBoard β)
    (heatMap : HeatMap) (st : ScoreState β) (ln : Line) :
    ∃ v, distFromHeatmap fuel B (replayLine B st.board ln) heatMap = some v ∧ 0 ≤ v ∧ v ≤ 63 ∧
      scoreLine fuel B heatMap st ln
        = some (ScoreState.mk (unwindLine B (replayLine B st.board ln) ln)
            (if v < st.minDist then v else st.minDist)
            (if v < st.minDist then ln else st.ansLine)) := by
  obtain ⟨v, hv, h0, h63⟩ := distFromHeatmap_bounds fuel hf B (replayLine B st.board ln) heatMap
  refine ⟨v, hv, h0, h63, ?_⟩
  unfold scoreLine
  simp only [hv, Option.some_bind, Option.map_some']
  split <;> rfl

/-- Once a line of three moves is kept, the scoring loop ends with a line of three
moves. -/
theorem scoreLine_foldlM_kept {β : Type} (fuel : Nat) (hf : 64 ≤ fuel) (B : CFBoard β)
    (heatMap : HeatMap) (ls : List Line) (hlen : ∀ l ∈ ls, l.length = 3) :
    ∀ st : ScoreState β, st.ansLine.length = 3 →
      ∃ st', List.foldlM (scoreLine fuel B heatMap) st ls = some st' ∧
        st'.ansLine.length = 3 := by
  induction ls with
  | nil => intro st h; exact ⟨st, rfl, h⟩
  | cons l ls ih =>
    intro st h
    obtain ⟨v, _, _, _, hs⟩ := scoreLine_some fuel hf B heatMap st l
    obtain ⟨st', hst', hl'⟩ := ih (fun x hx => hlen x (by simp [hx])) _
      (show (ScoreState.mk (unwindLine B (replayLine B st.board l) l)
        (if v < st.minDist then v else st.minDist)
        (if v < st.minDist then l else st.ansLine)).ansLine.length = 3 by
        simp only
        split
        · exact hlen l (by simp)
        · exact h)
    exact ⟨st', by rw [List.foldlM_cons, hs, Option.bind_eq_bind, Option.some_bind, hst'], hl'⟩

theorem lines_length_three {β : Type} (B : CFBoard β) (fuel : Nat) (hf : 4 ≤ fuel) (b : β) :
    ∃ r, DFS1pAux B fuel b 0 3 [] [] = some r ∧ ∀ l ∈ r.2, l.length = 3 := by
  obtain ⟨r, hr, added, hadd, hall⟩ := DFS1pAux_shape B 3 fuel b 0 3 [] [] hf (by simp)
  refine ⟨r, hr, ?_⟩
  intro l hl
  rw [hadd, List.nil_append] at hl
  obtain ⟨suffix, rfl, hlen⟩ := hall l hl
  simpa using hlen

/-! ### When `distFromHeatmap` has no candidate -/

theorem heatmapCandidates_nil_of_zero {β : Type} (fuel : Nat) (B : CFBoard β) (board : β)
    (heatMap : HeatMap) (h : ∀ kind i j, heatMap kind i j = 0) :
    heatmapCandidates fuel B board heatMap = [] := by
  rw [List.eq_nil_iff_forall_not_mem]
  intro c hc
  obtain ⟨_, _, _, _, hne, _⟩ := (mem_heatmapCandidates fuel B board heatMap c).1 hc
  exact hne (h _ _ _)

theorem heatmapCandidates_nil_of_no_pieces {β : Type} (fuel : Nat) (B : CFBoard β)
    (board : β) (heatMap : HeatMap)
    (h : ∀ kind : Nat, kind < 6 →
      bitSetPositions (B.getPieceColorBitBoard board
        (Int.lor (2 * (kind : Int)) (boolToInt (B.getCurrentPlayer board)))) = []) :
    heatmapCandidates fuel B board heatMap = [] := by
  rw [List.eq_nil_iff_forall_not_mem]
  intro c hc
  obtain ⟨hk, hp, _⟩ := (mem_heatmapCandidates fuel B board heatMap c).1 hc
  rw [h c.kind hk] at hp
  exact absurd hp (List.not_mem_nil _)

theorem heatmapCandidates_nil_of_unreachable {β : Type} (fuel : Nat) (B : CFBoard β)
    (board : β) (heatMap : HeatMap)
    (h : ∀ (kind piece : Nat) (grid : Grid) (i j : Nat), kind < 6 →
      piece ∈ bitSetPositions (B.getPieceColorBitBoard board
        (Int.lor (2 * (kind : Int)) (boolToInt (B.getCurrentPlayer board)))) →
      distFromTileToTilesAsPiece fuel B board kind piece = some grid →
      i < 8 → j < 8 → heatMap kind i j ≠ 0 → grid i j = -1) :
    heatmapCandidates fuel B board heatMap = [] := by
  rw [List.eq_nil_iff_forall_not_mem]
  intro c hc
  obtain ⟨hk, hp, hi, hj, hne, grid, hg, hr, _⟩ :=
    (mem_heatmapCandidates fuel B board heatMap c).1 hc
  exact hr (h c.kind c.piece grid c.row c.col hk hp hg hi hj hne)

/-! ### The side to move of the boards that are scored -/

theorem replayLine_turn {β : Type} (B : CFBoard β) (hT : B.TurnLaws) (l : Line) :
    ∀ b : β, B.getCurrentPlayer (replayLine B b l)
      = xor (B.getCurrentPlayer b) (decide (l.length % 2 = 1)) := by
  induction l with
  | nil => intro b; simp [replayLine]
  | cons m l ih =>
    intro b
    rw [replayLine_cons, ih]
    unfold afterMove
    rw [hT.2.1, hT.1]
    have h2 : (m :: l).length = l.length + 1 := rfl
    rw [h2]
    by_cases hl : l.length % 2 = 1
    · have : ¬ (l.length + 1) % 2 = 1 := by omega
      simp [hl, this]
    · have : (l.length + 1) % 2 = 1 := by omega
      simp [hl, this]

theorem unwindLine_turn {β : Type} (B : CFBoard β) (hT : B.TurnLaws) (l : Line) :
    ∀ b : β, B.getCurrentPlayer (unwindLine B b l)
      = xor (B.getCurrentPlayer b) (decide (l.length % 2 = 1)) := by
  induction l with
  | nil => intro b; simp [unwindLine]
  | cons m l ih =>
    intro b
    rw [unwindLine_cons, ih, hT.2.1, hT.2.2]
    have h2 : (m :: l).length = l.length + 1 := rfl
    rw [h2]
    by_cases hl : l.length % 2 = 1
    · have : ¬ (l.length + 1) % 2 = 1 := by omega
      simp [hl, this]
    · have : (l.length + 1) % 2 = 1 := by omega
      simp [hl, this]

theorem scoredBoards_turn {β : Type} (B : CFBoard β) (hT : B.TurnLaws) (ls : List Line)
    (hlen : ∀ l ∈ ls, l.length = 3) :
    ∀ b : β, ∀ bd ∈ scoredBoards B b ls, B.getCurrentPlayer bd = !B.getCurrentPlayer b := by
  induction ls with
  | nil => intro b bd hbd; simp [scoredBoards] at hbd
  | cons l ls ih =>
    intro b bd hbd
    have h3 := hlen l (by simp)
    simp only [scoredBoards, List.mem_cons] at hbd
    rcases hbd with rfl | hbd
    · rw [replayLine_turn B hT, h3]
      simp
    · rw [ih (fun x hx => hlen x (by simp [hx])) _ bd hbd, unwindLine_turn B hT,
        replayLine_turn B hT, h3]
      simp

theorem dfsEndTile_foldlM_turn {β : Type} (B : CFBoard β) (hT : B.TurnLaws) (fuel : Nat)
    (ih : ∀ (b : β) (depth maxDepth : Int) (cur : Line) (acc : List Line) r,
      DFS1pAux B fuel b depth maxDepth cur acc = some r →
      B.getCurrentPlayer r.1 = B.getCurrentPlayer b)
    (turn : Bool) (depth maxDepth : Int) (startTile : Nat) (l : List Nat) :
    ∀ st st' : SearchState β,
      List.foldlM (dfsEndTile B (DFS1pAux B fuel) turn depth maxDepth startTile) st l
        = some st' →
      B.getCurrentPlayer st'.board = B.getCurrentPlayer st.board := by
  induction l with
  | nil =>
    intro st st' h
    simp only [List.foldlM_nil] at h
    cases h
    rfl
  | cons e l ihl =>
    intro st st' h
    rw [List.foldlM_cons] at h
    cases hs : dfsEndTile B (DFS1pAux B fuel) turn depth maxDepth startTile st e with
    | none => rw [hs] at h; simp at h
    | some s1 =>
      rw [hs] at h
      simp only [Option.bind_eq_bind, Option.some_bind] at h
      rw [ihl s1 st' h]
      unfold dfsEndTile at hs
      split at hs
      · cases hs; rfl
      · split at hs
        · cases hs; rfl
        · cases hr : DFS1pAux B fuel (B.forceFlipTurn (B.movePiece st.board startTile e))
            (depth + 1) maxDepth (st.curLine ++ [Move.mk startTile e 0]) st.possibleLines with
          | none => simp [hr] at hs
          | some r =>
            simp only [hr, Option.map_some', Option.some.injEq] at hs
            subst hs
            simp only
            rw [hT.2.1, hT.2.2, ih _ _ _ _ _ r hr, hT.2.1, hT.1]
            simp

theorem dfsStartTile_foldlM_turn {β : Type} (B : CFBoard β) (hT : B.TurnLaws) (fuel : Nat)
    (ih : ∀ (b : β) (depth maxDepth : Int) (cur : Line) (acc : List Line) r,
      DFS1pAux B fuel b depth maxDepth cur acc = some r →
      B.getCurrentPlayer r.1 = B.getCurrentPlayer b)
    (turn : Bool) (depth maxDepth : Int) (l : List Nat) :
    ∀ st st' : SearchState β,
      List.foldlM (dfsStartTile B (DFS1pAux B fuel) turn depth maxDepth) st l = some st' →
      B.getCurrentPlayer st'.board = B.getCurrentPlayer st.board := by
  induction l with
  | nil =>
    intro st st' h
    simp only [List.foldlM_nil] at h
    cases h
    rfl
  | cons s l ihl =>
    intro st st' h
    rw [List.foldlM_cons] at h
    cases hs : dfsStartTile B (DFS1pAux B fuel) turn depth maxDepth st s with
    | none => rw [hs] at h; simp at h
    | some s1 =>
      rw [hs] at h
      simp only [Option.bind_eq_bind, Option.some_bind] at h
      rw [ihl s1 st' h]
      unfold dfsStartTile at hs
      by_cases hskip : skipStartTile (B.getPieceFromCoords st.board s) turn = true
      · simp only [hskip, if_true] at hs
        cases hs; rfl
      · simp only [hskip, if_false, Bool.false_eq_true] at hs
        exact dfsEndTile_foldlM_turn B hT fuel ih turn depth maxDepth s _ st s1 hs

/-- Under the laws of the side to move, `DFS1pAux` hands the board back with the side
to move it had. -/
theorem DFS1pAux_turn {β : Type} (B : CFBoard β) (hT : B.TurnLaws) :
    ∀ (fuel : Nat) (b : β) (depth maxDepth : Int) (cur : Line) (acc : List Line) r,
      DFS1pAux B fuel b depth maxDepth cur acc = some r →
      B.getCurrentPlayer r.1 = B.getCurrentPlayer b := by
  intro fuel
  induction fuel with
  | zero => intro b depth maxDepth cur acc r h; simp [DFS1pAux] at h
  | succ f ih =>
    intro b depth maxDepth cur acc r h
    simp only [DFS1pAux] at h
    split at h
    · cases h; rfl
    · cases hfold : List.foldlM (dfsStartTile B (DFS1pAux B f) (B.getCurrentPlayer b) depth
          maxDepth) (SearchState.mk b cur acc) (List.range 64) with
      | none => rw [hfold] at h; simp at h
      | some st' =>
        rw [hfold] at h
        simp only [Option.map_some'] at h
        cases h
        exact dfsStartTile_foldlM_turn B hT f ih _ depth maxDepth _ _ st' hfold

theorem positionStore_turnLaws : positionStore.TurnLaws := by
  refine ⟨?_, ?_, ?_⟩
  · intro b s e
    simp only [positionStore, Position.movePiece, Position.getCurrentPlayer]
    split <;> rfl
  · intro b
    rfl
  · intro b
    simp only [positionStore, Position.undoLastMove, Position.getCurrentPlayer]
    split
    · rfl
    · split <;> rfl

end DFS1P

namespace GeneralRegression

/-! ### The rounding of `float` operations -/

theorem roundHalfEven_error (q : ℚ) : |(roundHalfEven q : ℚ) - q| ≤ 1 / 2 := by
  have h1 := Int.floor_le q
  have h2 := Int.lt_floor_add_one q
  unfold roundHalfEven
  split_ifs with a b c
  · rw [abs_le]; constructor <;> linarith
  · push_cast; rw [abs_le]; constructor <;> linarith
  · rw [abs_le]; constructor <;> linarith
  · push_cast; rw [abs_le]; constructor <;> linarith

theorem roundHalfEven_eq (q : ℚ) (n : Int) (h : |q - n| < 1 / 2) : roundHalfEven q = n := by
  have h1 := Int.floor_le q
  have h2 := Int.lt_floor_add_one q
  rw [abs_lt] at h
  by_cases hn : (n : ℚ) ≤ q
  · have hf : Int.floor q = n := by
      rw [Int.floor_eq_iff]
      constructor <;> linarith [h.1, h.2]
    unfold roundHalfEven
    rw [hf, if_pos (by linarith [h.2])]
  · have hf : Int.floor q = n - 1 := by
      rw [Int.floor_eq_iff]
      push_cast
      constructor <;> linarith [h.1, h.2]
    unfold roundHalfEven
    rw [hf]
    push_cast
    rw [if_neg (by linarith [h.1]), if_pos (by linarith [h.1])]
    ring

theorem log_two_eq (x : ℚ) (e : Int) (h1 : (2 : ℚ) ^ e ≤ |x|) (h2 : |x| < (2 : ℚ) ^ (e + 1)) :
    Int.log 2 |x| = e := by
  have hpos : 0 < |x| := lt_of_lt_of_le (zpow_pos (by norm_num) e) h1
  have a : e ≤ Int.log 2 |x| :=
    (Int.zpow_le_iff_le_log (by norm_num) hpos).1 (by push_cast; exact h1)
  have b : Int.log 2 |x| < e + 1 :=
    (Int.lt_zpow_iff_log_lt (by norm_num) hpos).1 (by push_cast; exact h2)
  omega

/-- The value of `roundFloat` from the binade of `x` and the nearest significand. -/
theorem roundFloat_eq (x : ℚ) (e n : Int) (h1 : (2 : ℚ) ^ e ≤ |x|)
    (h2 : |x| < (2 : ℚ) ^ (e + 1)) (hn : |x / 2 ^ (e - 23) - n| < 1 / 2) :
    roundFloat x = n * 2 ^ (e - 23) := by
  have hpos : 0 < |x| := lt_of_lt_of_le (zpow_pos (by norm_num) e) h1
  have hx : x ≠ 0 := abs_pos.1 hpos
  unfold roundFloat
  rw [if_neg hx, log_two_eq x e h1 h2, roundHalfEven_eq _ n hn]

/-- The same for a positive number. -/
theorem roundFloat_eq_pos (x : ℚ) (e n : Int) (h1 : (2 : ℚ) ^ e ≤ x)
    (h2 : x < (2 : ℚ) ^ (e + 1)) (hn1 : (n : ℚ) - 1 / 2 < x / 2 ^ (e - 23))
    (hn2 : x / 2 ^ (e - 23) < (n : ℚ) + 1 / 2) :
    roundFloat x = n * 2 ^ (e - 23) := by
  have hpos : 0 < x := lt_of_lt_of_le (zpow_pos (by norm_num) e) h1
  apply roundFloat_eq x e n
  · rwa [abs_of_pos hpos]
  · rwa [abs_of_pos hpos]
  · rw [abs_lt]; constructor <;> linarith

/-- A number with a significand of at most 24 bits is a `float`. -/
theorem roundFloat_exact (m j : Int) (hm : |m| < 2 ^ 24) :
    roundFloat ((m : ℚ) * 2 ^ j) = (m : ℚ) * 2 ^ j := by
  by_cases hx : (m : ℚ) * 2 ^ j = 0
  · rw [hx]; simp [roundFloat]
  have h2pos : ∀ z : Int, (0 : ℚ) < 2 ^ z := fun z => zpow_pos (by norm_num) z
  have hpos : 0 < |(m : ℚ) * 2 ^ j| := abs_pos.2 hx
  have hlog : Int.log 2 |(m : ℚ) * 2 ^ j| < j + 24 := by
    rw [← Int.lt_zpow_iff_log_lt (by norm_num) hpos]
    push_cast
    rw [abs_mul, abs_of_pos (h2pos j), zpow_add₀ (by norm_num), mul_comm]
    have : |(m : ℚ)| < 2 ^ (24 : Int) := by
      have h24 : ((|m| : Int) : ℚ) < ((2 ^ 24 : Int) : ℚ) := by exact_mod_cast hm
      rw [Int.cast_abs] at h24
      norm_num at h24 ⊢
      exact h24
    exact mul_lt_mul_of_pos_left this (h2pos j)
  obtain ⟨k, hk⟩ : ∃ k : Nat, j - (Int.log 2 |(m : ℚ) * 2 ^ j| - 23) = k :=
    ⟨(j - (Int.log 2 |(m : ℚ) * 2 ^ j| - 23)).toNat, by omega⟩
  have hq : (m : ℚ) * 2 ^ j / 2 ^ (Int.log 2 |(m : ℚ) * 2 ^ j| - 23) = ((m * 2 ^ k : Int) : ℚ) := by
    rw [mul_div_assoc, ← zpow_sub₀ (by norm_num), hk, zpow_natCast]
    push_cast
    rfl
  unfold roundFloat
  rw [if_neg hx, hq, roundHalfEven_eq _ (m * 2 ^ k) (by simp)]
  rw [← hq]
  field_simp

theorem roundFloat_int (n : Int) (h : |n| ≤ 2 ^ 24) : roundFloat n = n := by
  rcases lt_or_eq_of_le h with h | h
  · have := roundFloat_exact n 0 h
    simpa using this
  · rcases abs_eq (by norm_num : (0 : Int) ≤ 2 ^ 24) |>.1 h with h | h
    · have := roundFloat_exact 1 24 (by norm_num)
      rw [h]
      norm_num at this ⊢
      exact this
    · have := roundFloat_exact (-1) 24 (by norm_num)
      rw [h]
      norm_num at this ⊢
      exact this

/-- The relative error of a `float` operation is at most `2^-24`. -/
theorem roundFloat_error (x : ℚ) : |roundFloat x - x| ≤ |x| / 2 ^ 24 := by
  by_cases hx : x = 0
  · simp [roundFloat, hx]
  have hpos : 0 < |x| := abs_pos.2 hx
  have hu : (0 : ℚ) < 2 ^ (Int.log 2 |x| - 23) := zpow_pos (by norm_num) _
  have hle : (2 : ℚ) ^ Int.log 2 |x| ≤ |x| := by
    have := Int.zpow_log_le_self (by norm_num : 1 < 2) hpos
    push_cast at this
    exact this
  have herr := roundHalfEven_error (x / 2 ^ (Int.log 2 |x| - 23))
  unfold roundFloat
  rw [if_neg hx]
  have e1 : (roundHalfEven (x / 2 ^ (Int.log 2 |x| - 23)) : ℚ) * 2 ^ (Int.log 2 |x| - 23) - x
      = ((roundHalfEven (x / 2 ^ (Int.log 2 |x| - 23)) : ℚ) - x / 2 ^ (Int.log 2 |x| - 23))
        * 2 ^ (Int.log 2 |x| - 23) := by
    field_simp
  rw [e1, abs_mul, abs_of_pos hu]
  have e2 : (2 : ℚ) ^ (Int.log 2 |x| - 23) = 2 ^ Int.log 2 |x| / 2 ^ 23 := by
    rw [zpow_sub₀ (by norm_num)]
    norm_num
  calc |(roundHalfEven (x / 2 ^ (Int.log 2 |x| - 23)) : ℚ) - x / 2 ^ (Int.log 2 |x| - 23)|
        * 2 ^ (Int.log 2 |x| - 23)
      ≤ 1 / 2 * 2 ^ (Int.log 2 |x| - 23) := mul_le_mul_of_nonneg_right herr hu.le
    _ = 2 ^ Int.log 2 |x| / 2 ^ 24 := by rw [e2]; ring
    _ ≤ |x| / 2 ^ 24 := by
      apply div_le_div_of_nonneg_right hle
      positivity

/-- A number half-way between two `float` numbers is rounded to the even significand. -/
theorem roundFloat_tie_pos (x : ℚ) (e n : Int) (h1 : (2 : ℚ) ^ e ≤ x)
    (h2 : x < (2 : ℚ) ^ (e + 1)) (hn : x / 2 ^ (e - 23) = (n : ℚ) + 1 / 2) (he : n % 2 = 0) :
    roundFloat x = n * 2 ^ (e - 23) := by
  have hpos : 0 < x := lt_of_lt_of_le (zpow_pos (by norm_num) e) h1
  have hx : x ≠ 0 := hpos.ne'
  have hf : Int.floor ((n : ℚ) + 1 / 2) = n := by
    rw [Int.floor_eq_iff]
    constructor <;> linarith
  unfold roundFloat
  rw [if_neg hx, log_two_eq x e (by rwa [abs_of_pos hpos]) (by rwa [abs_of_pos hpos]), hn]
  unfold roundHalfEven
  rw [hf, if_neg (by norm_num), if_neg (by norm_num), if_pos he]

theorem roundFloat_nonneg (x : ℚ) (h : 0 ≤ x) : 0 ≤ roundFloat x := by
  have := roundFloat_error x
  rw [abs_of_nonneg h, abs_le] at this
  have h24 : x / 2 ^ 24 ≤ x := div_le_self h (by norm_num)
  linarith [this.1]

theorem roundFloat_nineteen_fiftieths : roundFloat (19 / 50) = 3187671 / 8388608 := by
  rw [roundFloat_eq_pos (19 / 50) (-2) 12750684 (by norm_num) (by norm_num)
    (by norm_num) (by norm_num)]
  norm_num

/-! ### The basis functions -/

theorem wrapInt_eq (x : Int) (h1 : -2 ^ 31 ≤ x) (h2 : x < 2 ^ 31) : wrapInt x = x := by
  unfold wrapInt
  omega

theorem floatOfInt_SquareDistance (x y : Int) (hx1 : -2047 ≤ x) (hx2 : x ≤ 2047)
    (hy1 : -2047 ≤ y) (hy2 : y ≤ 2047) :
    floatOfInt (Func.SquareDistance x y) = (((x - y) ^ 2 : Int) : ℚ) := by
  have hd1 : -4094 ≤ x - y := by omega
  have hd2 : x - y ≤ 4094 := by omega
  have hsq1 : 0 ≤ (x - y) * (x - y) := mul_self_nonneg _
  have hsq2 : (x - y) * (x - y) ≤ 16760836 := by nlinarith
  unfold Func.SquareDistance
  rw [wrapInt_eq (x - y) (by omega) (by omega), wrapInt_eq _ (by omega) (by omega)]
  unfold floatOfInt
  rw [roundFloat_int _ (by rw [abs_of_nonneg hsq1]; omega), sq]

theorem GenerateBasis_top (fresh : Func) (i : Nat) (h : i < 7) :
    SqrtDifBasis.GenerateBasis fresh i = Func.InitFunc 1 i 1 2 := by
  interval_cases i <;> rfl

theorem GenerateBasis_bottom (fresh : Func) (i : Nat) (h : i < 7) :
    SqrtDifBasis.GenerateBasis fresh (7 + i) = Func.InitFunc 1 i 1 1 := by
  interval_cases i <;> rfl

theorem GenerateBasis_facing (fresh : Func) (j : Nat) (h : j < 8) :
    SqrtDifBasis.GenerateBasis fresh (14 + j) = Func.InitFunc 1 j 2 (-1) := by
  interval_cases j <;> rfl

theorem GenerateBasis_last (fresh : Func) :
    SqrtDifBasis.GenerateBasis fresh 22 = Func.InitFunc 0 (-1) 2 (-1) := rfl

theorem Eval_top (erf : ℚ → ℚ) (i : Int) (top bottom : Int → Int) :
    (Func.InitFunc 1 i 1 2).Eval erf top bottom
      = some (floatOfInt (Func.SquareDistance (top i) (top (i + 1)))) := by
  simp [Func.Eval, Func.InitFunc, Func.Eval_help_consecutive]

theorem Eval_bottom (erf : ℚ → ℚ) (i : Int) (top bottom : Int → Int) :
    (Func.InitFunc 1 i 1 1).Eval erf top bottom
      = some (floatOfInt (Func.SquareDistance (bottom i) (bottom (i + 1)))) := by
  simp [Func.Eval, Func.InitFunc, Func.Eval_help_consecutive]

theorem Eval_facing (erf : ℚ → ℚ) (j : Int) (top bottom : Int → Int) :
    (Func.InitFunc 1 j 2 (-1)).Eval erf top bottom
      = some (floatOfInt (Func.SquareDistance (top j) (bottom j))) := by
  simp [Func.Eval, Func.InitFunc, Func.Eval_help]

theorem Eval_last (erf : ℚ → ℚ) (top bottom : Int → Int) :
    (Func.InitFunc 0 (-1) 2 (-1)).Eval erf top bottom
      = (Func.AveragePos top bottom).map
          (fun a => roundFloat ((Int.ceil (roundFloat (100 * a)) : ℚ) / 100)) := by
  simp [Func.Eval, Func.InitFunc, Func.Eval_help]

/-- The values of the first 22 functions of the basis on arrays with small entries. -/
theorem Eval_GenerateBasis (erf : ℚ → ℚ) (fresh : Func) (top bottom : Int → Int)
    (ht : SmallEntries top) (hb : SmallEntries bottom) :
    (∀ i : Nat, i < 7 → (SqrtDifBasis.GenerateBasis fresh i).Eval erf top bottom
      = some (((top i - top (i + 1)) ^ 2 : Int) : ℚ)) ∧
    (∀ i : Nat, i < 7 → (SqrtDifBasis.GenerateBasis fresh (7 + i)).Eval erf top bottom
      = some (((bottom i - bottom (i + 1)) ^ 2 : Int) : ℚ)) ∧
    (∀ j : Nat, j < 8 → (SqrtDifBasis.GenerateBasis fresh (14 + j)).Eval erf top bottom
      = some (((top j - bottom j) ^ 2 : Int) : ℚ)) := by
  refine ⟨?_, ?_, ?_⟩
  · intro i hi
    have h1 := ht i (by omega)
    have h2 := ht (i + 1) (by omega)
    rw [GenerateBasis_top fresh i hi, Eval_top]
    push_cast at h2
    rw [floatOfInt_SquareDistance _ _ h1.1 h1.2 h2.1 h2.2]
  · intro i hi
    have h1 := hb i (by omega)
    have h2 := hb (i + 1) (by omega)
    rw [GenerateBasis_bottom fresh i hi, Eval_bottom]
    push_cast at h2
    rw [floatOfInt_SquareDistance _ _ h1.1 h1.2 h2.1 h2.2]
  · intro j hj
    have h1 := ht j hj
    have h2 := hb j hj
    rw [GenerateBasis_facing fresh j hj, Eval_facing,
      floatOfInt_SquareDistance _ _ h1.1 h1.2 h2.1 h2.2]

/-! ### The average height -/

theorem averageStep_foldl (top bottom : Int → Int) (l : List Nat) :
    ∀ acc : Int × Nat,
      (∀ i ∈ l, (-2047 ≤ top i ∧ top i ≤ 2047) ∧ (-2047 ≤ bottom i ∧ bottom i ≤ 2047)) →
      -(2 ^ 30 : Int) + 4094 * l.length ≤ acc.1 → acc.1 + 4094 * l.length ≤ 2 ^ 30 →
      l.foldl (Func.averageStep top bottom) acc
        = (acc.1 + (l.map (fun i : Nat =>
              (if top i ≤ 7 then top i else 0) + (if bottom i ≥ 0 then bottom i else 0))).sum,
           acc.2 + (l.map (fun i : Nat =>
              (if top i ≤ 7 then 1 else 0) + (if bottom i ≥ 0 then 1 else 0))).sum) := by
  induction l with
  | nil => intro acc _ _ _; simp
  | cons i l ih =>
    intro acc hl h1 h2
    have hi := hl i (by simp)
    simp only [List.length_cons, Nat.cast_add, Nat.cast_one] at h1 h2
    rw [List.foldl_cons]
    have hstep : Func.averageStep top bottom acc i
        = (acc.1 + ((if top i ≤ 7 then top i else 0) + (if bottom i ≥ 0 then bottom i else 0)),
           acc.2 + ((if top i ≤ 7 then 1 else 0) + (if bottom i ≥ 0 then 1 else 0))) := by
      unfold Func.averageStep
      by_cases ht : top i ≤ 7 <;> by_cases hb : bottom i ≥ 0
      · simp only [ht, hb, if_true]
        rw [wrapInt_eq (acc.1 + top i) (by omega) (by omega),
          wrapInt_eq _ (by omega) (by omega)]
        simp [add_assoc]
      · simp only [ht, hb, if_true, if_false]
        rw [wrapInt_eq (acc.1 + top i) (by omega) (by omega)]
        simp
      · simp only [ht, hb, if_true, if_false]
        rw [wrapInt_eq _ (by omega) (by omega)]
        simp
      · simp only [ht, hb, if_false]
        simp
    rw [hstep, ih _ (fun j hj => hl j (by simp [hj]))]
    · simp only [List.map_cons, List.sum_cons]
      ext
      · simp only; ring
      · simp only; ring
    · simp only
      split_ifs <;> omega
    · simp only
      split_ifs <;> omega

theorem sum_map_bound (l : List Nat) (f : Nat → Int) (B : Int)
    (h : ∀ i ∈ l, -B ≤ f i ∧ f i ≤ B) :
    -(B * l.length) ≤ (l.map f).sum ∧ (l.map f).sum ≤ B * l.length := by
  induction l with
  | nil => simp
  | cons i l ih =>
    have hi := h i (by simp)
    have hl := ih (fun j hj => h j (by simp [hj]))
    simp only [List.map_cons, List.sum_cons, List.length_cons, Nat.cast_add, Nat.cast_one]
    constructor <;> nlinarith [hi.1, hi.2, hl.1, hl.2]

theorem pawnSum_bound (top bottom : Int → Int) (ht : SmallEntries top)
    (hb : SmallEntries bottom) :
    -32752 ≤ pawnSum top bottom ∧ pawnSum top bottom ≤ 32752 := by
  have h := sum_map_bound (List.range 8) (fun i : Nat =>
    (if top i ≤ 7 then top i else 0) + (if bottom i ≥ 0 then bottom i else 0)) 4094
    (by
      intro i hi
      have h1 := ht i (List.mem_range.1 hi)
      have h2 := hb i (List.mem_range.1 hi)
      simp only
      split_ifs <;> omega)
  simp only [List.length_range] at h
  unfold pawnSum
  constructor
  · have := h.1; omega
  · have := h.2; omega

theorem sum_map_le_count (l : List Nat) (f : Nat → Int) (g : Nat → Nat)
    (h : ∀ i ∈ l, -(2047 * (g i : Int)) ≤ f i ∧ f i ≤ 2047 * (g i : Int)) :
    -(2047 * (((l.map g).sum : Nat) : Int)) ≤ (l.map f).sum ∧
      (l.map f).sum ≤ 2047 * (((l.map g).sum : Nat) : Int) := by
  induction l with
  | nil => simp
  | cons i l ih =>
    have hi := h i (by simp)
    have hl := ih (fun j hj => h j (by simp [hj]))
    simp only [List.map_cons, List.sum_cons, Nat.cast_add]
    omega

/-- The sum of the heights is at most 2047 times the number of pawns. -/
theorem pawnSum_le_count (top bottom : Int → Int) (ht : SmallEntries top)
    (hb : SmallEntries bottom) :
    -(2047 * (pawnCount top bottom : Int)) ≤ pawnSum top bottom ∧
      pawnSum top bottom ≤ 2047 * (pawnCount top bottom : Int) := by
  apply sum_map_le_count
  intro i hi
  have h1 := ht i (List.mem_range.1 hi)
  have h2 := hb i (List.mem_range.1 hi)
  split_ifs <;> simp <;> omega

theorem AveragePos_eq (top bottom : Int → Int) (ht : SmallEntries top)
    (hb : SmallEntries bottom) (hc : 0 < pawnCount top bottom) :
    Func.AveragePos top bottom
      = some (roundFloat |roundFloat (averageHeight top bottom) - 7 / 2|) := by
  have hfold := averageStep_foldl top bottom (List.range 8) (0, 0)
    (fun i hi => ⟨ht i (List.mem_range.1 hi), hb i (List.mem_range.1 hi)⟩)
    (by simp) (by simp)
  simp only [zero_add] at hfold
  have hfold2 : (List.range 8).foldl (Func.averageStep top bottom) (0, 0)
      = (pawnSum top bottom, pawnCount top bottom) := hfold
  have hsum := pawnSum_bound top bottom ht hb
  unfold Func.AveragePos averageHeight
  rw [hfold2]
  generalize pawnSum top bottom = s at hsum ⊢
  generalize pawnCount top bottom = c at hc ⊢
  simp only
  rw [if_neg (by omega)]
  unfold floatOfInt
  rw [roundFloat_int s (by rw [abs_le]; constructor <;> omega)]
  congr 2
  split_ifs with h
  · rw [abs_of_pos (by linarith)]
  · rw [abs_of_nonpos (by linarith)]
    ring

/-! ### The last basis function in `float` arithmetic -/

theorem abs_averageHeight_le (top bottom : Int → Int) (ht : SmallEntries top)
    (hb : SmallEntries bottom) (hc : 0 < pawnCount top bottom) :
    |averageHeight top bottom| ≤ 2047 := by
  have h := pawnSum_le_count top bottom ht hb
  have hcq : (0 : ℚ) < (pawnCount top bottom : ℚ) := by exact_mod_cast hc
  have h1 : -(2047 * (pawnCount top bottom : ℚ)) ≤ (pawnSum top bottom : ℚ) := by
    exact_mod_cast h.1
  have h2 : (pawnSum top bottom : ℚ) ≤ 2047 * (pawnCount top bottom : ℚ) := by
    exact_mod_cast h.2
  unfold averageHeight
  rw [abs_le]
  constructor
  · rw [le_div_iff₀ hcq]; linarith
  · rw [div_le_iff₀ hcq]; linarith

/-- The error of the `float` computation of the last basis function: for an average
height `h` of absolute value at most 2047, the integer `k` whose hundredth is returned
is within 1 of the ceiling of `100 * |h - 3.5|`, and the value returned is within
`[-1/1000, 11/1000]` of `|h - 3.5|`. -/
theorem float_distance_bounds (h : ℚ) (hh : |h| ≤ 2047) :
    |Int.ceil (roundFloat (100 * roundFloat |roundFloat h - 7 / 2|))
        - Int.ceil (100 * |h - 7 / 2|)| ≤ 1 ∧
    |h - 7 / 2| - 1 / 1000
      ≤ roundFloat ((Int.ceil (roundFloat (100 * roundFloat |roundFloat h - 7 / 2|)) : ℚ) / 100) ∧
    roundFloat ((Int.ceil (roundFloat (100 * roundFloat |roundFloat h - 7 / 2|)) : ℚ) / 100)
      ≤ |h - 7 / 2| + 11 / 1000 := by
  have hpow : (2 : ℚ) ^ 24 = 16777216 := by norm_num
  have E1 := abs_le.1 (roundFloat_error h)
  have E3 := abs_le.1 (abs_abs_sub_abs_le_abs_sub (roundFloat h - 7 / 2) (h - 7 / 2))
  have e : roundFloat h - 7 / 2 - (h - 7 / 2) = roundFloat h - h := by ring
  rw [e] at E3
  have R := abs_le.2 E1
  have hd0 : 0 ≤ |h - 7 / 2| := abs_nonneg _
  have hd : |h - 7 / 2| ≤ |h| + 7 / 2 := by
    have := abs_sub h (7 / 2)
    rwa [abs_of_pos (by norm_num : (0 : ℚ) < 7 / 2)] at this
  generalize |h - 7 / 2| = d at *
  have hu0 : 0 ≤ |roundFloat h - 7 / 2| := abs_nonneg _
  have E2 := abs_le.1 (roundFloat_error |roundFloat h - 7 / 2|)
  rw [abs_abs] at E2
  generalize |roundFloat h - 7 / 2| = u at *
  generalize |roundFloat h - h| = w at *
  rw [hpow] at E1 E2 R
  have ha0 : 0 ≤ roundFloat u := roundFloat_nonneg u hu0
  have E4 := abs_le.1 (roundFloat_error (100 * roundFloat u))
  rw [abs_of_nonneg (by linarith : (0 : ℚ) ≤ 100 * roundFloat u), hpow] at E4
  generalize roundFloat u = a at *
  have hx0 : 0 ≤ roundFloat (100 * a) := roundFloat_nonneg _ (by linarith)
  have K1 := Int.le_ceil (roundFloat (100 * a))
  have K2 := Int.ceil_lt_add_one (roundFloat (100 * a))
  generalize roundFloat (100 * a) = x at *
  have C1 := Int.le_ceil (100 * d)
  have C2 := Int.ceil_lt_add_one (100 * d)
  have E5 := abs_le.1 (roundFloat_error ((Int.ceil x : ℚ) / 100))
  rw [abs_of_nonneg (by linarith : (0 : ℚ) ≤ (Int.ceil x : ℚ) / 100), hpow] at E5
  generalize roundFloat ((Int.ceil x : ℚ) / 100) = v at *
  generalize Int.ceil (100 * d) = K at *
  generalize Int.ceil x = k at *
  have hhh : |h| ≤ 2047 := hh
  generalize |h| = g at *
  refine ⟨?_, by linarith, by linarith⟩
  rw [abs_le]
  constructor
  · have : (K : ℚ) - 2 < (k : ℚ) := by linarith
    have : K - 2 < k := by exact_mod_cast this
    omega
  · have : (k : ℚ) < (K : ℚ) + 2 := by linarith
    have : k < K + 2 := by exact_mod_cast this
    omega

/-- The value of the last basis function on arrays with small entries and a pawn. -/
theorem Eval_last_value (erf : ℚ → ℚ) (fresh : Func) (top bottom : Int → Int)
    (ht : SmallEntries top) (hb : SmallEntries bottom) (hc : 0 < pawnCount top bottom) :
    (SqrtDifBasis.GenerateBasis fresh 22).Eval erf top bottom
      = some (roundFloat ((Int.ceil (roundFloat
          (100 * roundFloat |roundFloat (averageHeight top bottom) - 7 / 2|)) : ℚ) / 100)) := by
  rw [GenerateBasis_last, Eval_last, AveragePos_eq top bottom ht hb hc]
  rfl

/-! ### The regularised normal equations -/

theorem det_regularised_ne_zero {n d : Nat} (Q : Matrix (Fin n) (Fin d) ℚ) (lam : ℚ)
    (hl : 0 < lam) :
    (Q.transpose * Q + lam • (1 : Matrix (Fin d) (Fin d) ℚ)).det ≠ 0 := by
  intro hdet
  obtain ⟨v, hv, hMv⟩ := Matrix.exists_mulVec_eq_zero_iff.2 hdet
  have h0 : Matrix.dotProduct v
      ((Q.transpose * Q + lam • (1 : Matrix (Fin d) (Fin d) ℚ)).mulVec v) = 0 := by
    rw [hMv]; simp
  rw [Matrix.add_mulVec, Matrix.dotProduct_add, ← Matrix.mulVec_mulVec,
    Matrix.dotProduct_mulVec, Matrix.vecMul_transpose, Matrix.smul_mulVec_assoc,
    Matrix.one_mulVec, Matrix.dotProduct_smul, smul_eq_mul] at h0
  have h1 : 0 ≤ Matrix.dotProduct (Q.mulVec v) (Q.mulVec v) :=
    Finset.sum_nonneg (fun i _ => mul_self_nonneg _)
  have h2 : 0 ≤ Matrix.dotProduct v v := Finset.sum_nonneg (fun i _ => mul_self_nonneg _)
  have h3 : Matrix.dotProduct v v = 0 := by nlinarith
  exact hv (Matrix.dotProduct_self_eq_zero.1 h3)

theorem inverse_eq {d : Nat} (A : Matrix (Fin d) (Fin d) ℚ) (h : A.det ≠ 0) :
    inverse A = some A⁻¹ := by
  unfold inverse
  rw [if_neg h, Matrix.inv_def, Ring.inverse_eq_inv']

/-- The weights that `bestFitF` computes from the matrix `Q` and the outputs `Y`. -/
theorem bestFitF_eq (erf : ℚ → ℚ) (basis : Nat → Func) (X : Nat → Int → Int)
    (data_outputs : Nat → ℚ) (n : Nat) (Q : Matrix (Fin n) (Fin 23) ℚ)
    (hQ : setUpQ erf basis X 23 n = some Q) :
    bestFitF erf basis X data_outputs 23 n
      = some (((Q.transpose * Q + (1 / 1000 : ℚ) • (1 : Matrix (Fin 23) (Fin 23) ℚ))⁻¹
          * Q.transpose).mulVec (setUpYVect data_outputs n)) := by
  unfold bestFitF
  rw [hQ]
  simp only [if_true]
  rw [inverse_eq _ (det_regularised_ne_zero Q (1 / 1000) (by norm_num))]

/-- The weights of `bestFitF` solve the regularised normal equations. -/
theorem normal_equations {n d : Nat} (Q : Matrix (Fin n) (Fin d) ℚ) (Y : Fin n → ℚ)
    (lam : ℚ) (hl : 0 < lam) :
    Q.transpose.mulVec (Q.mulVec (((Q.transpose * Q + lam • (1 : Matrix (Fin d) (Fin d) ℚ))⁻¹
        * Q.transpose).mulVec Y) - Y)
      + lam • (((Q.transpose * Q + lam • (1 : Matrix (Fin d) (Fin d) ℚ))⁻¹
        * Q.transpose).mulVec Y) = 0 := by
  set M := Q.transpose * Q + lam • (1 : Matrix (Fin d) (Fin d) ℚ) with hM
  set θ := (M⁻¹ * Q.transpose).mulVec Y with hθ
  have hunit : IsUnit M.det := isUnit_iff_ne_zero.2 (det_regularised_ne_zero Q lam hl)
  have h1 : M.mulVec θ = Q.transpose.mulVec Y := by
    rw [hθ, Matrix.mulVec_mulVec, ← Matrix.mul_assoc, Matrix.mul_nonsing_inv M hunit,
      Matrix.one_mul]
  have h2 : M.mulVec θ = Q.transpose.mulVec (Q.mulVec θ) + lam • θ := by
    rw [hM, Matrix.add_mulVec, ← Matrix.mulVec_mulVec, Matrix.smul_mulVec_assoc,
      Matrix.one_mulVec]
  rw [Matrix.mulVec_sub, ← h1, h2]
  abel

theorem ridgeError_eq {K : Type} [Field K] {n d : Nat} (Q : Matrix (Fin n) (Fin d) K)
    (Y : Fin n → K) (lam : K) (θ : Fin d → K) :
    ridgeError Q Y lam θ
      = Matrix.dotProduct (Q.mulVec θ - Y) (Q.mulVec θ - Y) + lam * Matrix.dotProduct θ θ := by
  simp only [ridgeError, squaredError, Matrix.dotProduct, Matrix.mulVec, Pi.sub_apply, sq]
  congr 1
  apply Finset.sum_congr rfl
  intro i _
  have : ∑ j, θ j * Q i j = ∑ j, Q i j * θ j :=
    Finset.sum_congr rfl (fun j _ => mul_comm _ _)
  rw [this]

/-- Weights that solve the regularised normal equations minimise the penalised squared
error. -/
theorem ridgeError_min {K : Type} [LinearOrderedField K] {n d : Nat}
    (Q : Matrix (Fin n) (Fin d) K) (Y : Fin n → K) (lam : K) (hl : 0 ≤ lam) (θ : Fin d → K)
    (hθ : Q.transpose.mulVec (Q.mulVec θ - Y) + lam • θ = 0) (θ' : Fin d → K) :
    ridgeError Q Y lam θ ≤ ridgeError Q Y lam θ' := by
  rw [ridgeError_eq, ridgeError_eq]
  set r := Q.mulVec θ - Y with hr
  set dd := θ' - θ with hdd
  set u := Q.mulVec dd with hu
  have e1 : Q.mulVec θ' - Y = r + u := by
    rw [hr, hu, hdd, Matrix.mulVec_sub]; abel
  have e2 : θ' = θ + dd := by rw [hdd]; abel
  have hcross : Matrix.dotProduct u r + lam * Matrix.dotProduct dd θ = 0 := by
    have := congrArg (fun w => Matrix.dotProduct dd w) hθ
    simp only [Matrix.dotProduct_add, Matrix.dotProduct_smul, Matrix.dotProduct_zero,
      smul_eq_mul, Matrix.dotProduct_mulVec, Matrix.vecMul_transpose] at this
    exact this
  have h1 : 0 ≤ Matrix.dotProduct u u := Finset.sum_nonneg (fun i _ => mul_self_nonneg _)
  have h2 : 0 ≤ Matrix.dotProduct dd dd := Finset.sum_nonneg (fun i _ => mul_self_nonneg _)
  rw [e1, e2]
  simp only [Matrix.add_dotProduct, Matrix.dotProduct_add]
  rw [Matrix.dotProduct_comm r u, Matrix.dotProduct_comm θ dd]
  nlinarith [mul_nonneg hl h2]

/-- Over the real weight vectors: the rational weights that solve the regularised
normal equations of rational data minimise the penalised squared error. -/
theorem ridgeError_min_real {n d : Nat} (Q : Matrix (Fin n) (Fin d) ℚ) (Y : Fin n → ℚ)
    (lam : ℚ) (hl : 0 ≤ lam) (θ : Fin d → ℚ)
    (hθ : Q.transpose.mulVec (Q.mulVec θ - Y) + lam • θ = 0) (θ' : Fin d → ℝ) :
    ridgeError (Q.map (fun x => (x : ℝ))) (fun i => (Y i : ℝ)) (lam : ℝ) (fun j => (θ j : ℝ))
      ≤ ridgeError (Q.map (fun x => (x : ℝ))) (fun i => (Y i : ℝ)) (lam : ℝ) θ' := by
  apply ridgeError_min
  · exact_mod_cast hl
  · funext k
    have := congrFun hθ k
    simp only [Matrix.mulVec, Matrix.dotProduct, Matrix.transpose_apply, Pi.add_apply,
      Pi.sub_apply, Pi.smul_apply, smul_eq_mul, Pi.zero_apply, Matrix.map_apply] at this ⊢
    exact_mod_cast this

theorem setUpQ_eq_some (erf : ℚ → ℚ) (basis : Nat → Func) (X : Nat → Int → Int)
    (dimension n : Nat) (Q : Matrix (Fin n) (Fin dimension) ℚ)
    (h : ∀ (i : Fin n) (j : Fin dimension),
      (basis j).Eval erf (X (2 * i)) (X (2 * i + 1)) = some (Q i j)) :
    setUpQ erf basis X dimension n = some Q := by
  unfold setUpQ
  rw [dif_pos (fun i j => by rw [h i j]; rfl)]
  congr 1
  ext i j
  simp [h i j]

theorem setUpQ_entry (erf : ℚ → ℚ) (basis : Nat → Func) (X : Nat → Int → Int)
    (dimension n : Nat) (Q : Matrix (Fin n) (Fin dimension) ℚ)
    (h : setUpQ erf basis X dimension n = some Q) (i : Fin n) (j : Fin dimension) :
    (basis j).Eval erf (X (2 * i)) (X (2 * i + 1)) = some (Q i j) := by
  unfold setUpQ at h
  split at h
  · rename_i hall
    have := Option.some.inj h
    rw [← this]
    simp
  · exact absurd h (by simp)

/-! ### The first data point of `getTheta` -/

theorem smallEntries_firstDataPoint :
    SmallEntries (firstDataPoint 0) ∧ SmallEntries (firstDataPoint 1) := by
  unfold SmallEntries
  constructor <;> decide

theorem averageHeight_firstDataPoint :
    pawnCount (firstDataPoint 0) (firstDataPoint 1) = 16 ∧
    averageHeight (firstDataPoint 0) (firstDataPoint 1) = 25 / 8 := by
  have h1 : pawnSum (firstDataPoint 0) (firstDataPoint 1) = 50 := by decide
  have h2 : pawnCount (firstDataPoint 0) (firstDataPoint 1) = 16 := by decide
  refine ⟨h2, ?_⟩
  unfold averageHeight
  rw [h1, h2]
  norm_num

theorem roundFloat_first_steps :
    roundFloat (25 / 8) = 25 / 8 ∧ roundFloat (3 / 8) = 3 / 8 ∧
      roundFloat (100 * (3 / 8)) = 75 / 2 := by
  have h1 := roundFloat_exact 25 (-3) (by norm_num)
  have h2 := roundFloat_exact 3 (-3) (by norm_num)
  have h3 := roundFloat_exact 75 (-1) (by norm_num)
  norm_num at h1 h2 h3 ⊢
  exact ⟨h1, h2, h3⟩

theorem Eval_last_firstDataPoint :
    (SqrtDifBasis.GenerateBasis freshFunc 22).Eval erfUnused (firstDataPoint 0)
      (firstDataPoint 1) = some (3187671 / 8388608) := by
  rw [Eval_last_value _ _ _ _ smallEntries_firstDataPoint.1 smallEntries_firstDataPoint.2
      (by rw [averageHeight_firstDataPoint.1]; decide),
    averageHeight_firstDataPoint.2]
  congr 1
  have habs : |(25 / 8 : ℚ) - 7 / 2| = 3 / 8 := by
    rw [abs_of_nonpos (by norm_num)]; norm_num
  have hceil : Int.ceil (75 / 2 : ℚ) = 38 := by
    rw [Int.ceil_eq_iff]; norm_num
  rw [roundFloat_first_steps.1, habs, roundFloat_first_steps.2.1, roundFloat_first_steps.2.2,
    hceil, ← roundFloat_nineteen_fiftieths]
  norm_num

set_option maxRecDepth 100000 in
theorem Eval_firstDataPoint (j : Fin 23) :
    (SqrtDifBasis.GenerateBasis freshFunc j).Eval erfUnused (firstDataPoint 0)
      (firstDataPoint 1) = some (firstDataMatrix 0 j) := by
  have hlast := Eval_last_firstDataPoint
  obtain ⟨h1, h2, h3⟩ := Eval_GenerateBasis erfUnused freshFunc (firstDataPoint 0)
    (firstDataPoint 1) smallEntries_firstDataPoint.1 smallEntries_firstDataPoint.2
  have a1 : ∀ i : Nat, i < 7 →
      (((firstDataPoint 0 i - firstDataPoint 0 (i + 1)) ^ 2 : Int) : ℚ)
        = ([0, 1, 9, 0, 1, 0, 9] : List ℚ).getD i 0 := by
    intro i hi
    interval_cases i <;> rfl
  have a2 : ∀ i : Nat, i < 7 →
      (((firstDataPoint 1 i - firstDataPoint 1 (i + 1)) ^ 2 : Int) : ℚ)
        = ([0, 1, 9, 0, 1, 0, 9] : List ℚ).getD i 0 := by
    intro i hi
    interval_cases i <;> rfl
  have a3 : ∀ i : Nat, i < 8 →
      (((firstDataPoint 0 i - firstDataPoint 1 i) ^ 2 : Int) : ℚ) = 1 := by
    intro i hi
    interval_cases i <;> rfl
  obtain ⟨j, hj⟩ := j
  by_cases c1 : j < 7
  · have := h1 j c1
    rw [a1 j c1] at this
    rw [this]
    interval_cases j <;> rfl
  · by_cases c2 : j < 14
    · obtain ⟨i, rfl⟩ : ∃ i, j = 7 + i := ⟨j - 7, by omega⟩
      have := h2 i (by omega)
      rw [a2 i (by omega)] at this
      rw [this]
      have hi : i < 7 := by omega
      interval_cases i <;> rfl
    · by_cases c3 : j < 22
      · obtain ⟨i, rfl⟩ : ∃ i, j = 14 + i := ⟨j - 14, by omega⟩
        have := h3 i (by omega)
        rw [a3 i (by omega)] at this
        rw [this]
        have hi : i < 8 := by omega
        interval_cases i <;> rfl
      · obtain rfl : j = 22 := by omega
        exact hlast

theorem firstDataMatrix_last : firstDataMatrix 0 22 = 3187671 / 8388608 := rfl

/-! ### The data point of index 255 of `getTheta` -/

theorem laterDataPoint_facts :
    SmallEntries (laterDataPoint 0) ∧ SmallEntries (laterDataPoint 1) ∧
    pawnCount (laterDataPoint 0) (laterDataPoint 1) = 10 ∧
    averageHeight (laterDataPoint 0) (laterDataPoint 1) = 39 / 10 := by
  have h1 : pawnSum (laterDataPoint 0) (laterDataPoint 1) = 39 := by decide
  have h2 : pawnCount (laterDataPoint 0) (laterDataPoint 1) = 10 := by decide
  refine ⟨?_, ?_, h2, ?_⟩
  · unfold SmallEntries; decide
  · unfold SmallEntries; decide
  · unfold averageHeight
    rw [h1, h2]
    norm_num

/-- The `float` steps of the last basis function for the average height `3.9`: the
quotient is rounded up, the product with 100 lies half-way between two `float`
numbers above 40, and the ceiling is 41. -/
theorem roundFloat_later_steps :
    roundFloat (39 / 10) = 8178893 / 2097152 ∧
    roundFloat (838861 / 2097152) = 838861 / 2097152 ∧
    roundFloat (100 * (838861 / 2097152)) = 5242881 / 131072 ∧
    roundFloat (41 / 100) = 13757317 / 33554432 := by
  have h1 := roundFloat_eq_pos (39 / 10) 1 16357786 (by norm_num) (by norm_num)
    (by norm_num) (by norm_num)
  have h2 := roundFloat_exact 838861 (-21) (by norm_num)
  have h3 := roundFloat_tie_pos (100 * (838861 / 2097152)) 5 10485762 (by norm_num)
    (by norm_num) (by norm_num) (by norm_num)
  have h4 := roundFloat_eq_pos (41 / 100) (-2) 13757317 (by norm_num) (by norm_num)
    (by norm_num) (by norm_num)
  norm_num at h1 h2 h3 h4 ⊢
  exact ⟨h1, h2, h3, h4⟩

theorem Eval_last_laterDataPoint :
    (SqrtDifBasis.GenerateBasis freshFunc 22).Eval erfUnused (laterDataPoint 0)
      (laterDataPoint 1) = some (13757317 / 33554432) := by
  rw [Eval_last_value _ _ _ _ laterDataPoint_facts.1 laterDataPoint_facts.2.1
      (by rw [laterDataPoint_facts.2.2.1]; decide),
    laterDataPoint_facts.2.2.2]
  congr 1
  have habs : |(8178893 / 2097152 : ℚ) - 7 / 2| = 838861 / 2097152 := by
    rw [abs_of_nonneg (by norm_num)]; norm_num
  have hceil : Int.ceil (5242881 / 131072 : ℚ) = 41 := by
    rw [Int.ceil_eq_iff]; norm_num
  rw [roundFloat_later_steps.1, habs, roundFloat_later_steps.2.1,
    roundFloat_later_steps.2.2.1, hceil, ← roundFloat_later_steps.2.2.2]
  norm_num

theorem setUpQ_firstDataPoint :
    setUpQ erfUnused (SqrtDifBasis.GenerateBasis freshFunc) firstDataPoint 23 1
      = some firstDataMatrix := by
  apply setUpQ_eq_some
  intro i j
  fin_cases i
  exact Eval_firstDataPoint j

/-- With one data point whose row has a nonzero entry and a nonzero output, the
weights of the regularised normal equations leave a residual, while other weights fit
the output exactly. -/
theorem squaredError_one_point (Q : Matrix (Fin 1) (Fin 23) ℚ) (Y : Fin 1 → ℚ)
    (θ : Fin 23 → ℚ) (k : Fin 23) (hk : Q 0 k ≠ 0) (hY : Y 0 ≠ 0)
    (hθ : Q.transpose.mulVec (Q.mulVec θ - Y) + (1 / 1000 : ℚ) • θ = 0) :
    squaredError Q Y (Pi.single k (Y 0 / Q 0 k)) = 0 ∧ 0 < squaredError Q Y θ := by
  constructor
  · simp only [squaredError, Fin.sum_univ_one]
    have : ∑ j, (Pi.single k (Y 0 / Q 0 k) : Fin 23 → ℚ) j * Q 0 j = Y 0 := by
      rw [Finset.sum_eq_single k]
      · rw [Pi.single_eq_same]; field_simp
      · intro j _ hj; rw [Pi.single_eq_of_ne hj]; simp
      · intro h; exact absurd (Finset.mem_univ k) h
    rw [this]; simp
  · simp only [squaredError, Fin.sum_univ_one]
    refine lt_of_le_of_ne (sq_nonneg _) (Ne.symm (pow_ne_zero 2 ?_))
    intro hres
    have hcomp : ∀ l : Fin 23, θ l = 0 := by
      intro l
      have := congrFun hθ l
      simp only [Matrix.mulVec, Matrix.dotProduct, Matrix.transpose_apply, Pi.add_apply,
        Pi.sub_apply, Pi.smul_apply, smul_eq_mul, Pi.zero_apply, Fin.sum_univ_one] at this
      have e : ∑ j, Q 0 j * θ j = ∑ j, θ j * Q 0 j :=
        Finset.sum_congr rfl (fun j _ => mul_comm _ _)
      rw [e, hres] at this
      simpa using this
    have : ∑ j, θ j * Q 0 j = 0 := Finset.sum_eq_zero (fun j _ => by rw [hcomp j]; simp)
    rw [this] at hres
    exact hY (by linarith)

end GeneralRegression

namespace GeneralRegression

/-! ### The offsets read by the basis functions -/

theorem averageStep_congr (top bottom top2 bottom2 : Int → Int)
    (h : ∀ i : Nat, i < 8 → top i = top2 i ∧ bottom i = bottom2 i) :
    Func.AveragePos top bottom = Func.AveragePos top2 bottom2 := by
  have hfold : (List.range 8).foldl (Func.averageStep top bottom) (0, 0)
      = (List.range 8).foldl (Func.averageStep top2 bottom2) (0, 0) := by
    apply List.foldl_ext
    intro acc i hi
    have hi8 := h i (List.mem_range.1 hi)
    unfold Func.averageStep
    rw [hi8.1, hi8.2]
  unfold Func.AveragePos
  rw [hfold]

/-- The value of a function with `func_num` 0 and two arrays does not depend on what
lies outside the offsets `0..7`. -/
theorem Eval_last_congr (erf : ℚ → ℚ) (top bottom top2 bottom2 : Int → Int)
    (h : ∀ i : Nat, i < 8 → top i = top2 i ∧ bottom i = bottom2 i) :
    (Func.InitFunc 0 (-1) 2 (-1)).Eval erf top bottom
      = (Func.InitFunc 0 (-1) 2 (-1)).Eval erf top2 bottom2 := by
  rw [Eval_last, Eval_last, averageStep_congr top bottom top2 bottom2 h]

theorem reads_of_all (f : Func)
    (h : f.Eval_reads.all (fun k => decide (0 ≤ k) && decide (k ≤ 7)) = true) :
    ∀ k ∈ f.Eval_reads, 0 ≤ k ∧ k ≤ 7 := by
  intro k hk
  have := List.all_eq_true.1 h k hk
  simpa using this

theorem reads_SqrtDifBasis (fresh : Func) :
    (∀ i : Nat, i < 22 → ∀ k ∈ (SqrtDifBasis.GenerateBasis fresh i).Eval_reads,
      0 ≤ k ∧ k ≤ 7) ∧
    SqrtDifBasis.GenerateBasis fresh 22 = Func.InitFunc 0 (-1) 2 (-1) := by
  refine ⟨?_, rfl⟩
  intro i hi
  apply reads_of_all
  interval_cases i <;> rfl

theorem reads_AbsErfBasis (fresh : Func) :
    (∀ i : Nat, i < 22 → ∀ k ∈ (AbsErfBasis.GenerateBasis fresh i).Eval_reads,
      0 ≤ k ∧ k ≤ 7) ∧
    AbsErfBasis.GenerateBasis fresh 22 = Func.InitFunc 0 (-1) 2 (-1) := by
  refine ⟨?_, rfl⟩
  intro i hi
  apply reads_of_all
  interval_cases i <;> rfl

theorem reads_AbsSqrtDifBasis (fresh : Func) :
    (∀ i : Nat, i < 22 → ∀ k ∈ (AbsSqrtDifBasis.GenerateBasis fresh i).Eval_reads,
      0 ≤ k ∧ k ≤ 7) ∧
    AbsSqrtDifBasis.GenerateBasis fresh 22 = Func.InitFunc 0 (-1) 2 (-1) := by
  refine ⟨?_, rfl⟩
  intro i hi
  apply reads_of_all
  interval_cases i <;> rfl

theorem reads_SqrtAbsDifBasis (fresh : Func) :
    (∀ i : Nat, i < 22 → ∀ k ∈ (SqrtAbsDifBasis.GenerateBasis fresh i).Eval_reads,
      0 ≤ k ∧ k ≤ 7) ∧
    SqrtAbsDifBasis.GenerateBasis fresh 22 = Func.InitFunc 0 (-1) 2 (-1) := by
  refine ⟨?_, rfl⟩
  intro i hi
  apply reads_of_all
  interval_cases i <;> rfl

theorem reads_last :
    (Func.InitFunc 0 (-1) 2 (-1)).Eval_reads
      = [-1, -1, 0, 0, 1, 1, 2, 2, 3, 3, 4, 4, 5, 5, 6, 6, 7, 7] := by
  decide

/-! ### The matrix that `bestFitF` inverts -/

theorem det_regularised_real {n d : Nat}
    (Q : Matrix (Fin n) (Fin d) ℝ) : (regularised Q).det ≠ 0 := by
  intro hdet
  obtain ⟨v, hv, hMv⟩ := Matrix.exists_mulVec_eq_zero_iff.2 hdet
  have h0 : Matrix.dotProduct v ((regularised Q).mulVec v) = 0 := by
    rw [hMv]; simp
  unfold regularised at h0
  rw [Matrix.add_mulVec, Matrix.dotProduct_add, ← Matrix.mulVec_mulVec,
    Matrix.dotProduct_mulVec, Matrix.vecMul_transpose, Matrix.smul_mulVec_assoc,
    Matrix.one_mulVec, Matrix.dotProduct_smul, smul_eq_mul] at h0
  have h1 : 0 ≤ Matrix.dotProduct (Q.mulVec v) (Q.mulVec v) :=
    Finset.sum_nonneg (fun i _ => mul_self_nonneg _)
  have h2 : 0 ≤ Matrix.dotProduct v v := Finset.sum_nonneg (fun i _ => mul_self_nonneg _)
  have h3 : Matrix.dotProduct v v = 0 := by nlinarith
  exact hv (Matrix.dotProduct_self_eq_zero.1 h3)

theorem no_eigenvalue_real {n d : Nat}
    (Q : Matrix (Fin n) (Fin d) ℝ) (v : Fin d → ℝ) (hv : v ≠ 0) :
    (Q.transpose * Q).mulVec v ≠ (-(1 / 1000 : ℝ)) • v := by
  intro h
  have hz : (regularised Q).mulVec v = 0 := by
    unfold regularised
    rw [Matrix.add_mulVec, h, Matrix.smul_mulVec_assoc, Matrix.one_mulVec]
    ext i
    simp
  exact det_regularised_real Q (Matrix.exists_mulVec_eq_zero_iff.1 ⟨v, hv, hz⟩)

theorem det_regularised_rat {n d : Nat} (Q : Matrix (Fin n) (Fin d) ℚ) :
    (regularised Q).det ≠ 0 :=
  det_regularised_ne_zero Q (1 / 1000) (by norm_num)

/-! ### The two versions of `Evaluate` -/

end GeneralRegression

namespace DFS1P

/-! ### The claims -/

/-- C1: for every board, piece kind and start tile `s` in `0..63`,
`distFromTileToTilesAsPiece` returns (given fuel for the 64 possible iterations) a
grid `d` with `d[s] = 0` such that, for every tile `t`, `d[t]` is the length of a
shortest path from `s` to `t` in the move graph (edges `u -> v`: bit `v` set in
`getLegalMoves(2h + sideToMove, u)`, `v` empty, `v` safe from the opponent's pawns),
and `d[t] = -1` exactly when there is no such path. -/
theorem distFromTileToTilesAsPiece_shortest {β : Type} (B : CFBoard β) (board : β)
    (halfPieceId : Int) (s : Nat) (hs : s < 64) (fuel : Nat) (hf : 64 ≤ fuel) :
    ∃ d, distFromTileToTilesAsPiece fuel B board halfPieceId s = some d ∧
      d (s / 8) (s % 8) = 0 ∧
      ∀ t, t < 64 →
        ((∃ n, MovePath B board halfPieceId s n t) →
          ∃ k : Nat, d (t / 8) (t % 8) = k ∧ MovePath B board halfPieceId s k t ∧
            ∀ n, MovePath B board halfPieceId s n t → k ≤ n) ∧
        (d (t / 8) (t % 8) = -1 ↔ ¬ ∃ n, MovePath B board halfPieceId s n t) := by
  obtain ⟨d, hd, h0, hreach, hmin, _⟩ :=
    distFromTileToTilesAsPiece_sound B board halfPieceId s hs fuel hf
  refine ⟨d, hd, h0, ?_⟩
  intro t _
  refine ⟨?_, ?_⟩
  · rintro ⟨n, hn⟩
    obtain ⟨k, hk, hpath⟩ := hreach t (hmin t n hn).1
    refine ⟨k, hk, hpath, ?_⟩
    intro m hm
    have := (hmin t m hm).2
    rw [hk] at this
    exact_mod_cast this
  · constructor
    · rintro h ⟨n, hn⟩
      exact (hmin t n hn).1 h
    · intro h
      by_contra hne
      obtain ⟨k, _, hpath⟩ := hreach t hne
      exact h ⟨k, hpath⟩

set_option maxRecDepth 100000 in
/-- Witness of C1: the lone white knight on tile 0, with fuel 64; its grid holds 0 at
the start, 1 at the square `(1, 2)` and 6 at the far corner `(7, 7)`. -/
theorem distFromTileToTilesAsPiece_shortest_witness :
    (0 < 64 ∧ 64 ≤ 64) ∧
    ((distFromTileToTilesAsPiece 64 positionStore loneKnight 1 0).map
      (fun d => (d 0 0, d 1 2, d 7 7)) = some (0, 1, 6)) ∧
    ∃ d, distFromTileToTilesAsPiece 64 positionStore loneKnight 1 0 = some d ∧
      d (0 / 8) (0 % 8) = 0 ∧
      ∀ t, t < 64 →
        ((∃ n, MovePath positionStore loneKnight 1 0 n t) →
          ∃ k : Nat, d (t / 8) (t % 8) = k ∧ MovePath positionStore loneKnight 1 0 k t ∧
            ∀ n, MovePath positionStore loneKnight 1 0 n t → k ≤ n) ∧
        (d (t / 8) (t % 8) = -1 ↔ ¬ ∃ n, MovePath positionStore loneKnight 1 0 n t) :=
  ⟨⟨by decide, by decide⟩, by decide,
    distFromTileToTilesAsPiece_shortest positionStore loneKnight 1 0 (by decide) 64 (by decide)⟩

/-- C2: for every side to move, opponent-pawn board and square `(row, col)` of the
board, `squareSafeFromOpponentPawns` is false exactly when an opposing pawn stands on
an in-bounds square `(r', col-1)` or `(r', col+1)` of the rank `r'` (`row-1` for white
to move, `row+1` for black to move); hence every square of the mover's last rank is
safe, and a pawn on the opposite edge file never threatens an edge-file square. -/
theorem squareSafeFromOpponentPawns_spec (currentTurn : Bool) (opponentPawnBoard : Nat)
    (row col : Int) (hr0 : 0 ≤ row) (hr8 : row < 8) (hc0 : 0 ≤ col) (hc8 : col < 8) :
    (squareSafeFromOpponentPawns currentTurn opponentPawnBoard row col = false ↔
        (pawnOn opponentPawnBoard (pawnThreatRow currentTurn row) (col - 1) ∨
         pawnOn opponentPawnBoard (pawnThreatRow currentTurn row) (col + 1)))
    ∧ (row = (if currentTurn then 7 else 0) →
        squareSafeFromOpponentPawns currentTurn opponentPawnBoard row col = true)
    ∧ (∀ r : Nat, r < 8 →
        squareSafeFromOpponentPawns currentTurn (2 ^ (r * 8 + 7)) row 0 = true ∧
        squareSafeFromOpponentPawns currentTurn (2 ^ (r * 8)) row 7 = true) := by
  refine ⟨?_, ?_, ?_⟩
  · have e6 : 0 ≤ col + 1 := by omega
    have e8 : col - 1 < 8 := by omega
    have k2 : (0 ≤ col - 1) ↔ ¬ col = 0 := by omega
    have k3 : (col + 1 < 8) ↔ ¬ col = 7 := by omega
    cases currentTurn
    · simp only [squareSafeFromOpponentPawns, isBitSet, Heatmap.posToTile, pawnOn, pawnThreatRow,
        Bool.false_eq_true, if_false, if_true]
      generalize opponentPawnBoard.testBit ((row - 1) * 8 + (col - 1)).toNat = A
      generalize opponentPawnBoard.testBit ((row - 1) * 8 + (col + 1)).toNat = B
      have e7 : row - 1 < 8 := by omega
      have k1 : (0 ≤ row - 1) ↔ ¬ row = 0 := by omega
      by_cases h1 : row = 0 <;> by_cases h2 : col = 0 <;> by_cases h3 : col = 7 <;>
        cases A <;> cases B <;> simp [h1, h2, h3, e6, e7, e8, k1, k2, k3] <;> omega
    · simp only [squareSafeFromOpponentPawns, isBitSet, Heatmap.posToTile, pawnOn, pawnThreatRow,
        Bool.false_eq_true, if_false, if_true]
      generalize opponentPawnBoard.testBit ((row + 1) * 8 + (col - 1)).toNat = A
      generalize opponentPawnBoard.testBit ((row + 1) * 8 + (col + 1)).toNat = B
      have e7 : 0 ≤ row + 1 := by omega
      have k1 : (row + 1 < 8) ↔ ¬ row = 7 := by omega
      by_cases h1 : row = 7 <;> by_cases h2 : col = 0 <;> by_cases h3 : col = 7 <;>
        cases A <;> cases B <;> simp [h1, h2, h3, e6, e7, e8, k1, k2, k3] <;> omega
  · intro h
    cases currentTurn <;> simp_all [squareSafeFromOpponentPawns]
  · intro r hr
    have key : ∀ (a : Nat) (t : Int), (∀ n : Nat, t = n → n ≠ a) → isBitSet (2 ^ a) t = false := by
      intro a t ht
      unfold isBitSet
      by_cases h0 : 0 ≤ t
      · have := ht t.toNat (by omega)
        simp [h0, Nat.testBit_two_pow, Ne.symm this]
      · simp [h0]
    cases currentTurn
    · simp only [squareSafeFromOpponentPawns, Heatmap.posToTile]
      rw [key (r * 8 + 7) ((row - 1) * 8 + (0 + 1)) (by intro n hn; omega),
        key (r * 8) ((row - 1) * 8 + (7 - 1)) (by intro n hn; omega)]
      simp
    · simp only [squareSafeFromOpponentPawns, Heatmap.posToTile]
      rw [key (r * 8 + 7) ((row + 1) * 8 + (0 + 1)) (by intro n hn; omega),
        key (r * 8) ((row + 1) * 8 + (7 - 1)) (by intro n hn; omega)]
      simp

/-- Witness of C2: white to move, a black pawn on `(3, 2)`, the square `(4, 3)`. -/
theorem squareSafeFromOpponentPawns_spec_witness :
    ((0 : Int) ≤ 4 ∧ (4 : Int) < 8 ∧ (0 : Int) ≤ 3 ∧ (3 : Int) < 8) ∧
    ((squareSafeFromOpponentPawns false (2 ^ 26) 4 3 = false ↔
        (pawnOn (2 ^ 26) (pawnThreatRow false 4) (3 - 1) ∨
         pawnOn (2 ^ 26) (pawnThreatRow false 4) (3 + 1)))
    ∧ ((4 : Int) = (if false then 7 else 0) →
        squareSafeFromOpponentPawns false (2 ^ 26) 4 3 = true)
    ∧ (∀ r : Nat, r < 8 →
        squareSafeFromOpponentPawns false (2 ^ (r * 8 + 7)) 4 0 = true ∧
        squareSafeFromOpponentPawns false (2 ^ (r * 8)) 4 7 = true)) :=
  ⟨⟨by decide, by decide, by decide, by decide⟩,
    squareSafeFromOpponentPawns_spec false (2 ^ 26) 4 3 (by decide) (by decide) (by decide)
      (by decide)⟩

/-- C3: `distFromHeatmap` returns (given fuel for the searches) the distance of the
last candidate of its fixed iteration order - piece kinds `0..5`, then the pieces of
the side to move of that kind in `bitSetPositions` order, then rows, then columns -
whatever the earlier candidates are, and `0` when there is no candidate; a candidate
is a `(kind, piece, i, j)` with `heatMap[kind][i][j] != 0` and the entry `[i][j]` of
the distance grid of the piece other than `-1`. -/
theorem distFromHeatmap_last_candidate {β : Type} (B : CFBoard β) (board : β)
    (heatMap : HeatMap) (fuel : Nat) (hf : 64 ≤ fuel) :
    (∀ (earlier : List Candidate) (c : Candidate),
      heatmapCandidates fuel B board heatMap = earlier ++ [c] →
      distFromHeatmap fuel B board heatMap = some c.dist) ∧
    (heatmapCandidates fuel B board heatMap = [] →
      distFromHeatmap fuel B board heatMap = some 0) ∧
    (∀ c : Candidate, c ∈ heatmapCandidates fuel B board heatMap ↔
      c.kind < 6 ∧
      c.piece ∈ bitSetPositions (B.getPieceColorBitBoard board
        (Int.lor (2 * (c.kind : Int)) (boolToInt (B.getCurrentPlayer board)))) ∧
      c.row < 8 ∧ c.col < 8 ∧ heatMap c.kind c.row c.col ≠ 0 ∧
      ∃ grid, distFromTileToTilesAsPiece fuel B board c.kind c.piece = some grid ∧
        grid c.row c.col ≠ -1 ∧ c.dist = grid c.row c.col) := by
  have h := distFromHeatmap_eq fuel hf B board heatMap
  refine ⟨?_, ?_, mem_heatmapCandidates fuel B board heatMap⟩
  · intro earlier c hc
    rw [h, hc]
    simp [lastDist]
  · intro hc
    rw [h, hc]
    rfl

set_option maxRecDepth 100000 in
/-- Witness of C3: the lone white knight and a heatmap with the two knight targets
`(1, 2)`, at distance 1, and `(7, 7)`, at distance 6: the result is 6. -/
theorem distFromHeatmap_last_candidate_witness :
    64 ≤ 64 ∧
    distFromHeatmap 64 positionStore loneKnight knightTargets = some 6 ∧
    ((∀ (earlier : List Candidate) (c : Candidate),
      heatmapCandidates 64 positionStore loneKnight knightTargets = earlier ++ [c] →
      distFromHeatmap 64 positionStore loneKnight knightTargets = some c.dist) ∧
    (heatmapCandidates 64 positionStore loneKnight knightTargets = [] →
      distFromHeatmap 64 positionStore loneKnight knightTargets = some 0) ∧
    (∀ c : Candidate, c ∈ heatmapCandidates 64 positionStore loneKnight knightTargets ↔
      c.kind < 6 ∧
      c.piece ∈ bitSetPositions (positionStore.getPieceColorBitBoard loneKnight
        (Int.lor (2 * (c.kind : Int)) (boolToInt (positionStore.getCurrentPlayer loneKnight)))) ∧
      c.row < 8 ∧ c.col < 8 ∧ knightTargets c.kind c.row c.col ≠ 0 ∧
      ∃ grid, distFromTileToTilesAsPiece 64 positionStore loneKnight c.kind c.piece = some grid ∧
        grid c.row c.col ≠ -1 ∧ c.dist = grid c.row c.col)) :=
  ⟨by decide, by decide,
    distFromHeatmap_last_candidate positionStore loneKnight knightTargets 64 (by decide)⟩

/-- C4: on a lawful board, whenever `DFS1pAux` records at least one line,
`getNextMove` returns the first move of a recorded line whose `distFromHeatmap`
value, computed on the board after replaying the whole line (each move followed by a
turn flip), is minimal over all recorded lines, and strictly smaller than the value of
every line recorded earlier. -/
theorem getNextMove_first_least_line {β : Type} (B : CFBoard β) (hL : B.Lawful)
    (addHeatMap : β → HeatMap → Nat → β × HeatMap) (b : β) (fuel : Nat) (hf : 64 ≤ fuel) :
    ∃ lines,
      DFS1pAux B fuel (addHeatMap b (fun _ _ _ => 0) 8).1 0 3 [] []
        = some ((addHeatMap b (fun _ _ _ => 0) 8).1, lines) ∧
      (lines ≠ [] →
        ∃ (i : Nat) (best : Line) (first : Move) (v : Int),
          lines[i]? = some best ∧ best[0]? = some first ∧
          getNextMove fuel B addHeatMap b
            = some ((addHeatMap b (fun _ _ _ => 0) 8).1, some first) ∧
          distFromHeatmap fuel B (replayLine B (addHeatMap b (fun _ _ _ => 0) 8).1 best)
            (addHeatMap b (fun _ _ _ => 0) 8).2 = some v ∧
          ∀ (j : Nat) (other : Line), lines[j]? = some other →
            ∃ w, distFromHeatmap fuel B
                (replayLine B (addHeatMap b (fun _ _ _ => 0) 8).1 other)
                (addHeatMap b (fun _ _ _ => 0) 8).2 = some w ∧
              v ≤ w ∧ (j < i → v < w)) := by
  have hrun := DFS1pAux_eq B hL 3 fuel (addHeatMap b (fun _ _ _ => 0) 8).1 0 3 [] []
    (by omega) (by simp)
  simp only [List.nil_append, List.map_id'] at hrun
  refine ⟨_, hrun, ?_⟩
  intro hne
  have hscore : ∀ l, distFromHeatmap fuel B
      (replayLine B (addHeatMap b (fun _ _ _ => 0) 8).1 l)
      (addHeatMap b (fun _ _ _ => 0) 8).2
      = some (lastDist (heatmapCandidates fuel B
          (replayLine B (addHeatMap b (fun _ _ _ => 0) 8).1 l)
          (addHeatMap b (fun _ _ _ => 0) 8).2) 0) :=
    fun l => distFromHeatmap_eq fuel hf B _ _
  have hle : ∀ l, lastDist (heatmapCandidates fuel B
      (replayLine B (addHeatMap b (fun _ _ _ => 0) 8).1 l)
      (addHeatMap b (fun _ _ _ => 0) 8).2) 0 ≤ 63 := by
    intro l
    obtain ⟨v, hv, _, h63⟩ := distFromHeatmap_bounds fuel hf B
      (replayLine B (addHeatMap b (fun _ _ _ => 0) 8).1 l) (addHeatMap b (fun _ _ _ => 0) 8).2
    rw [hscore l] at hv
    cases hv
    exact h63
  have hnext := getNextMove_eq fuel hf B hL addHeatMap b _ hscore
  rcases keepBetter_foldl (fun l => lastDist (heatmapCandidates fuel B
      (replayLine B (addHeatMap b (fun _ _ _ => 0) 8).1 l)
      (addHeatMap b (fun _ _ _ => 0) 8).2) 0)
      (linesFrom B 3 (addHeatMap b (fun _ _ _ => 0) 8).1) (1000000000, [])
    with ⟨_, h2⟩ | ⟨i, best, hi, h1, _, h3⟩
  · obtain ⟨l, hl⟩ := List.exists_mem_of_ne_nil _ hne
    have := h2 l hl
    have := hle l
    simp only at *
    omega
  · have hlen := length_of_mem_linesFrom B 3 _ best (List.mem_iff_getElem?.2 ⟨i, hi⟩)
    obtain ⟨first, rest, rfl⟩ : ∃ first rest, best = first :: rest := by
      cases best with
      | nil => simp at hlen
      | cons a t => exact ⟨a, t, rfl⟩
    refine ⟨i, first :: rest, first, _, hi, by simp, ?_, hscore _, ?_⟩
    · rw [hnext, h1]
      simp
    · intro j other hj
      exact ⟨_, hscore other, h3 j other hj⟩

set_option maxRecDepth 100000 in
set_option maxHeartbeats 4000000 in
/-- Witness of C4: white pawns on the tiles 49, 53 and 54, black pawns on the tiles 23
and 56, white to move, and the targets `(0, 7)` and `(6, 0)` for pawns. Fourteen lines
are recorded, with the distances 1, 1, 2, 2, 1, 1, 2, 2, 0, 1, 1, 2, 2, 0. The least
distance 0 is first reached by the ninth line (53-61, 56-48, 54-62) and again by the
last line (54-62, 56-48, 53-61); the answer is the first move 53-61 of the ninth line,
not the first move 49-57 of the first line nor the first move 54-62 of the last. -/
theorem getNextMove_first_least_line_witness :
    (positionStore.Lawful ∧ 64 ≤ 64) ∧
    (DFS1pAux positionStore 64 pawnRace 0 3 [] []).map (fun r => r.2.map (fun l =>
        (l.map (fun m => (m.start, m.dest)),
          distFromHeatmap 64 positionStore (replayLine positionStore pawnRace l) pawnTargets)))
      = some [([(49, 57), (23, 15), (53, 61)], some 1), ([(49, 57), (23, 15), (54, 62)], some 1),
          ([(49, 57), (53, 61), (54, 62)], some 2), ([(49, 57), (54, 62), (53, 61)], some 2),
          ([(53, 61), (23, 15), (49, 57)], some 1), ([(53, 61), (23, 15), (54, 62)], some 1),
          ([(53, 61), (49, 57), (54, 62)], some 2), ([(53, 61), (54, 62), (49, 57)], some 2),
          ([(53, 61), (56, 48), (54, 62)], some 0),
          ([(54, 62), (23, 15), (49, 57)], some 1), ([(54, 62), (23, 15), (53, 61)], some 1),
          ([(54, 62), (49, 57), (53, 61)], some 2), ([(54, 62), (53, 61), (49, 57)], some 2),
          ([(54, 62), (56, 48), (53, 61)], some 0)] ∧
    getNextMove 64 positionStore addPawnTargets pawnRace
      = some (pawnRace, some (Move.mk 53 61 0)) ∧
    ∃ lines,
      DFS1pAux positionStore 64 (addPawnTargets pawnRace (fun _ _ _ => 0) 8).1 0 3 [] []
        = some ((addPawnTargets pawnRace (fun _ _ _ => 0) 8).1, lines) ∧
      (lines ≠ [] →
        ∃ (i : Nat) (best : Line) (first : Move) (v : Int),
          lines[i]? = some best ∧ best[0]? = some first ∧
          getNextMove 64 positionStore addPawnTargets pawnRace
            = some ((addPawnTargets pawnRace (fun _ _ _ => 0) 8).1, some first) ∧
          distFromHeatmap 64 positionStore
            (replayLine positionStore (addPawnTargets pawnRace (fun _ _ _ => 0) 8).1 best)
            (addPawnTargets pawnRace (fun _ _ _ => 0) 8).2 = some v ∧
          ∀ (j : Nat) (other : Line), lines[j]? = some other →
            ∃ w, distFromHeatmap 64 positionStore
                (replayLine positionStore (addPawnTargets pawnRace (fun _ _ _ => 0) 8).1 other)
                (addPawnTargets pawnRace (fun _ _ _ => 0) 8).2 = some w ∧
              v ≤ w ∧ (j < i → v < w)) :=
  ⟨⟨positionStore_lawful, by decide⟩, by decide!, by decide!,
    getNextMove_first_least_line positionStore positionStore_lawful addPawnTargets pawnRace 64
      (by decide)⟩

set_option maxRecDepth 100000 in
/-- C5 (the code departs from the claim): with black to move the test of line 83,
`pieceId & (1 != currentTurn)`, is `pieceId & 0` and never skips an occupied square,
so `DFS1pAux` also moves the pieces of the side not to move. With a white king on
tile 0, a black king on tile 63 and black to move, one ply records the three moves of
the white king (piece id 10, colour bit 0) next to those of the black king. -/
theorem DFS1pAux_black_to_move_moves_white :
    (∀ pieceId : Int, skipStartTile pieceId true = (pieceId == -1)) ∧
    positionStore.getCurrentPlayer twoKingsBlackToMove = true ∧
    positionStore.getPieceFromCoords twoKingsBlackToMove 0 = 10 ∧
    Int.land 10 1 = 0 ∧
    (DFS1pAux positionStore 2 twoKingsBlackToMove 0 1 [] []).map (fun r => r.2)
      = some [[Move.mk 0 1 0], [Move.mk 0 8 0], [Move.mk 0 9 0],
          [Move.mk 63 54 0], [Move.mk 63 55 0], [Move.mk 63 62 0]] := by
  refine ⟨?_, by decide, by decide, by decide, by decide⟩
  intro pieceId
  have h0 : Int.land pieceId 0 = 0 := by
    cases pieceId with
    | ofNat m => simp [Int.land]
    | negSucc m =>
      have : Nat.ldiff 0 m = 0 :=
        Nat.eq_of_testBit_eq (fun k => by simp [Nat.testBit_ldiff])
      simp [Int.land, this]
  simp [skipStartTile, boolToInt, h0]

/-- C6: on a lawful board, `DFS1pAux` called with depth 0, an empty line and
`maxDepth = n` returns, and for every line it records and every move `(start, end)`
of the line, in the position reached by applying the preceding moves of the line (a
turn flip after each): bit `end` is set in `getLegalMoves(piece at start, start)`,
the square `end` is empty, and `end` is safe from the pawns of the opponent of the
side to move. -/
theorem DFS1pAux_recorded_moves_survive {β : Type} (B : CFBoard β) (hL : B.Lawful) (b : β)
    (n fuel : Nat) (hf : n + 1 ≤ fuel) :
    ∃ lines, DFS1pAux B fuel b 0 n [] [] = some (b, lines) ∧
      ∀ ln ∈ lines, ∀ (i : Nat) (m : Move), ln[i]? = some m →
        moveSurvives B (replayLine B b (ln.take i)) m := by
  refine ⟨_, DFS1pAux_eq B hL n fuel b 0 n [] [] hf (by simp), ?_⟩
  intro ln hln i m hm
  simp only [List.nil_append, List.map_id'] at hln
  exact ((mem_survivingMoves B _ m).1
    (survives_of_mem_linesFrom B n b ln hln i m hm)).2.2.2.2

set_option maxRecDepth 100000 in
/-- Witness of C6: the lone white knight, one ply: the lines 0-10 and 0-17. -/
theorem DFS1pAux_recorded_moves_survive_witness :
    (positionStore.Lawful ∧ 1 + 1 ≤ 2) ∧
    DFS1pAux positionStore 2 loneKnight 0 (1 : Nat) [] []
      = some (loneKnight, [[Move.mk 0 10 0], [Move.mk 0 17 0]]) ∧
    ∃ lines, DFS1pAux positionStore 2 loneKnight 0 (1 : Nat) [] [] = some (loneKnight, lines) ∧
      ∀ ln ∈ lines, ∀ (i : Nat) (m : Move), ln[i]? = some m →
        moveSurvives positionStore (replayLine positionStore loneKnight (ln.take i)) m :=
  ⟨⟨positionStore_lawful, by decide⟩, by decide,
    DFS1pAux_recorded_moves_survive positionStore positionStore_lawful loneKnight 1 2
      (by decide)⟩

/-- C7: called with depth 0, an empty current line and `maxDepth = n`, `DFS1pAux`
returns and every line it records has exactly `n` moves; with `n = 0` it records
exactly the empty line; on a lawful board the recorded lines are the sequences of
moves applied on the paths to the leaves, in depth-first order; and `getNextMove`
makes this call with `maxDepth = 3`, so that its lines have exactly 3 moves. -/
theorem DFS1pAux_line_length {β : Type} (B : CFBoard β) (b : β) (n fuel : Nat)
    (hf : n + 1 ≤ fuel) :
    (∃ r, DFS1pAux B fuel b 0 n [] [] = some r ∧
      (∀ line ∈ r.2, line.length = n) ∧
      (n = 0 → r.2 = [[]]) ∧
      (B.Lawful → r.2 = linesFrom B n b)) ∧
    (∀ (addHeatMap : β → HeatMap → Nat → β × HeatMap),
      getNextMove fuel B addHeatMap b
        = (DFS1pAux B fuel (addHeatMap b (fun _ _ _ => 0) 8).1 0 3 [] []).bind (fun r =>
            (List.foldlM (scoreLine fuel B (addHeatMap b (fun _ _ _ => 0) 8).2)
              (ScoreState.mk r.1 1000000000 []) r.2).map
              (fun st => (st.board, st.ansLine[0]?)))) ∧
    (4 ≤ fuel → ∀ b' : β, ∃ r, DFS1pAux B fuel b' 0 3 [] [] = some r ∧
      ∀ line ∈ r.2, line.length = 3) := by
  have key : ∀ (k : Nat) (b' : β), k + 1 ≤ fuel →
      ∃ r, DFS1pAux B fuel b' 0 k [] [] = some r ∧ (∀ line ∈ r.2, line.length = k) := by
    intro k b' hk
    obtain ⟨r, hr, added, hadd, hall⟩ := DFS1pAux_shape B k fuel b' 0 k [] [] hk (by simp)
    refine ⟨r, hr, ?_⟩
    intro line hline
    rw [hadd, List.nil_append] at hline
    obtain ⟨suffix, rfl, hlen⟩ := hall line hline
    simpa using hlen
  refine ⟨?_, fun _ => rfl, ?_⟩
  · obtain ⟨r, hr, hlen⟩ := key n b hf
    refine ⟨r, hr, hlen, ?_, ?_⟩
    · intro hn
      subst hn
      obtain ⟨f, rfl⟩ : ∃ f, fuel = f + 1 := ⟨fuel - 1, by omega⟩
      simp [DFS1pAux] at hr
      rw [← hr]
    · intro hL
      have := DFS1pAux_eq B hL n fuel b 0 n [] [] hf (by simp)
      rw [hr] at this
      have h2 := congrArg Prod.snd (Option.some.inj this)
      simpa using h2
  · intro h4 b'
    have := key 3 b' (by omega)
    simpa using this

/-- Witness of C7: the lone white knight, three plies. -/
theorem DFS1pAux_line_length_witness :
    3 + 1 ≤ 4 ∧
    ((∃ r, DFS1pAux positionStore 4 loneKnight 0 (3 : Nat) [] [] = some r ∧
      (∀ line ∈ r.2, line.length = 3) ∧
      (3 = 0 → r.2 = [[]]) ∧
      (positionStore.Lawful → r.2 = linesFrom positionStore 3 loneKnight)) ∧
    (∀ (addHeatMap : Position → HeatMap → Nat → Position × HeatMap),
      getNextMove 4 positionStore addHeatMap loneKnight
        = (DFS1pAux positionStore 4 (addHeatMap loneKnight (fun _ _ _ => 0) 8).1 0 3 [] []).bind
          (fun r =>
            (List.foldlM (scoreLine 4 positionStore (addHeatMap loneKnight (fun _ _ _ => 0) 8).2)
              (ScoreState.mk r.1 1000000000 []) r.2).map
              (fun st => (st.board, st.ansLine[0]?)))) ∧
    (4 ≤ 4 → ∀ b' : Position, ∃ r, DFS1pAux positionStore 4 b' 0 3 [] [] = some r ∧
      ∀ line ∈ r.2, line.length = 3)) :=
  ⟨by decide, DFS1pAux_line_length positionStore loneKnight 3 4 (by decide)⟩

/-- C8: on a lawful board (`undoLastMove` exactly reverses the most recent
`movePiece`, `forceFlipTurn` only toggles the side to move), `DFS1pAux` called with
`depth <= maxDepth` returns with the board identical to its state on entry. -/
theorem DFS1pAux_restores_board {β : Type} (B : CFBoard β) (hL : B.Lawful) (b : β)
    (depth maxDepth : Int) (hd : depth ≤ maxDepth) (curLine : Line)
    (possibleLines : List Line) (fuel : Nat) (hf : (maxDepth - depth).toNat + 1 ≤ fuel) :
    ∃ lines, DFS1pAux B fuel b depth maxDepth curLine possibleLines = some (b, lines) :=
  ⟨_, DFS1pAux_eq B hL (maxDepth - depth).toNat fuel b depth maxDepth curLine possibleLines hf
    (by omega)⟩

set_option maxRecDepth 100000 in
/-- Witness of C8: the two kings, from depth 1 to `maxDepth` 3: 27 lines are added and
the board is the one on entry. -/
theorem DFS1pAux_restores_board_witness :
    (positionStore.Lawful ∧ (1 : Int) ≤ 3 ∧ ((3 : Int) - 1).toNat + 1 ≤ 3) ∧
    ((DFS1pAux positionStore 3 twoKingsBlackToMove 1 3 [Move.mk 1 0 0] []).map
      (fun r => (decide (r.1 = twoKingsBlackToMove), r.2.length)) = some (true, 27)) ∧
    ∃ lines, DFS1pAux positionStore 3 twoKingsBlackToMove 1 3 [Move.mk 1 0 0] []
      = some (twoKingsBlackToMove, lines) :=
  ⟨⟨positionStore_lawful, by decide, by decide⟩, by decide,
    DFS1pAux_restores_board positionStore positionStore_lawful twoKingsBlackToMove 1 3
      (by decide) [Move.mk 1 0 0] [] 3 (by decide)⟩

/-- C9: on a lawful board and with a heatmap builder that does not modify the board,
`getNextMove` returns and leaves the board exactly as it found it. -/
theorem getNextMove_restores_board {β : Type} (B : CFBoard β) (hL : B.Lawful)
    (addHeatMap : β → HeatMap → Nat → β × HeatMap)
    (hadd : ∀ board heatMap weakPawns, (addHeatMap board heatMap weakPawns).1 = board)
    (b : β) (fuel : Nat) (hf : 64 ≤ fuel) :
    ∃ answer, getNextMove fuel B addHeatMap b = some (b, answer) := by
  have hscore : ∀ l, distFromHeatmap fuel B
      (replayLine B (addHeatMap b (fun _ _ _ => 0) 8).1 l)
      (addHeatMap b (fun _ _ _ => 0) 8).2
      = some (lastDist (heatmapCandidates fuel B
          (replayLine B (addHeatMap b (fun _ _ _ => 0) 8).1 l)
          (addHeatMap b (fun _ _ _ => 0) 8).2) 0) :=
    fun l => distFromHeatmap_eq fuel hf B _ _
  have hnext := getNextMove_eq fuel hf B hL addHeatMap b _ hscore
  rw [hadd] at hnext
  exact ⟨_, hnext⟩

set_option maxRecDepth 100000 in
/-- Witness of C9: a lone white pawn on tile 8. -/
theorem getNextMove_restores_board_witness :
    (positionStore.Lawful ∧
      (∀ (board : Position) (heatMap : HeatMap) (weakPawns : Nat),
        (addKnightTargets board heatMap weakPawns).1 = board) ∧
      64 ≤ 64) ∧
    ((getNextMove 64 positionStore addKnightTargets lonePawn).map (fun r => r.1)
      = some lonePawn) ∧
    ∃ answer, getNextMove 64 positionStore addKnightTargets lonePawn
      = some (lonePawn, answer) :=
  ⟨⟨positionStore_lawful, fun _ _ _ => rfl, by decide⟩, by decide,
    getNextMove_restores_board positionStore positionStore_lawful addKnightTargets
      (fun _ _ _ => rfl) lonePawn 64 (by decide)⟩

/-- C10: on a lawful board and with `maxDepth = 2`, `DFS1pAux` records exactly the
two-move sequences `[m, m']` with `m` a surviving move of the position and `m'` a
surviving move of the position after `m` and a turn flip, each once; their number is
the sum over the surviving moves `m` of the number of surviving replies, hence
`n0 * n1` when each of the `n0` moves has `n1` replies. -/
theorem DFS1pAux_depth_two {β : Type} (B : CFBoard β) (hL : B.Lawful) (b : β)
    (fuel : Nat) (hf : 3 ≤ fuel) :
    ∃ lines, DFS1pAux B fuel b 0 2 [] [] = some (b, lines) ∧
      lines = (survivingMoves B b).flatMap
        (fun m => (survivingMoves B (afterMove B b m)).map (fun m' => [m, m'])) ∧
      lines.length
        = ((survivingMoves B b).map
            (fun m => (survivingMoves B (afterMove B b m)).length)).sum ∧
      (∀ n1, (∀ m ∈ survivingMoves B b, (survivingMoves B (afterMove B b m)).length = n1) →
        lines.length = (survivingMoves B b).length * n1) ∧
      lines.Nodup ∧
      (∀ l, l ∈ lines ↔ ∃ m m', l = [m, m'] ∧ m ∈ survivingMoves B b ∧
        m' ∈ survivingMoves B (afterMove B b m)) := by
  have hrun := DFS1pAux_eq B hL 2 fuel b 0 2 [] [] (by omega) (by simp)
  have hlines : (linesFrom B 2 b)
      = (survivingMoves B b).flatMap
        (fun m => (survivingMoves B (afterMove B b m)).map (fun m' => [m, m'])) := by
    have hone : ∀ b' : β, linesFrom B 1 b' = (survivingMoves B b').map (fun m' => [m']) := by
      intro b'
      simp only [linesFrom, List.map_cons, List.map_nil]
      induction survivingMoves B b' with
      | nil => rfl
      | cons a l ih => simp [List.flatMap_cons, ih]
    show (survivingMoves B b).flatMap
        (fun m => (linesFrom B 1 (afterMove B b m)).map (fun l => m :: l)) = _
    simp only [hone, List.map_map]
    rfl
  have hnodup := nodup_linesFrom B 2 b
  simp only [List.nil_append, List.map_id'] at hrun
  rw [hlines] at hrun hnodup
  have hlen : ((survivingMoves B b).flatMap
        (fun m => (survivingMoves B (afterMove B b m)).map (fun m' => [m, m']))).length
      = ((survivingMoves B b).map
          (fun m => (survivingMoves B (afterMove B b m)).length)).sum := by
    rw [List.length_flatMap]
    congr 1
    apply List.map_congr_left
    intro m _
    simp
  refine ⟨_, hrun, rfl, hlen, ?_, hnodup, ?_⟩
  · intro n1 h
    rw [hlen]
    exact sum_map_const_length _ _ _ h
  · intro l
    simp only [List.mem_flatMap, List.mem_map]
    constructor
    · rintro ⟨m, hm, m', hm', rfl⟩
      exact ⟨m, m', rfl, hm, hm'⟩
    · rintro ⟨m, m', rfl, hm, hm'⟩
      exact ⟨m, hm, m', hm', rfl⟩

set_option maxRecDepth 100000 in
/-- Witness of C10: the lone white knight, two plies: 2 first moves with 6 replies
each, 12 lines. -/
theorem DFS1pAux_depth_two_witness :
    (positionStore.Lawful ∧ 3 ≤ 3) ∧
    ((DFS1pAux positionStore 3 loneKnight 0 2 [] []).map (fun r => r.2.length) = some 12) ∧
    ∃ lines, DFS1pAux positionStore 3 loneKnight 0 2 [] [] = some (loneKnight, lines) ∧
      lines = (survivingMoves positionStore loneKnight).flatMap
        (fun m => (survivingMoves positionStore (afterMove positionStore loneKnight m)).map
          (fun m' => [m, m'])) ∧
      lines.length
        = ((survivingMoves positionStore loneKnight).map
            (fun m => (survivingMoves positionStore
              (afterMove positionStore loneKnight m)).length)).sum ∧
      (∀ n1, (∀ m ∈ survivingMoves positionStore loneKnight,
          (survivingMoves positionStore (afterMove positionStore loneKnight m)).length = n1) →
        lines.length = (survivingMoves positionStore loneKnight).length * n1) ∧
      lines.Nodup ∧
      (∀ l, l ∈ lines ↔ ∃ m m', l = [m, m'] ∧ m ∈ survivingMoves positionStore loneKnight ∧
        m' ∈ survivingMoves positionStore (afterMove positionStore loneKnight m)) :=
  ⟨⟨positionStore_lawful, by decide⟩, by decide,
    DFS1pAux_depth_two positionStore positionStore_lawful loneKnight 3 (by decide)⟩


/-- C11: on every board and for all `depth ≤ maxDepth` (in particular for
`0 ≤ depth ≤ maxDepth`), `DFS1pAux` terminates without a call below
`depth = maxDepth`: fuel for the `maxDepth - depth + 1` levels from `depth` to
`maxDepth` is enough for it to return, more fuel does not change the result, the loops
of a level run over 64 start tiles and at most 64 destinations, and the call adds at
most `(64 * 64) ^ (maxDepth - depth)` lines to the result set. -/
theorem DFS1pAux_terminates {β : Type} (B : CFBoard β) (board : β) (depth maxDepth : Int)
    (curLine : Line) (possibleLines : List Line) (h : depth ≤ maxDepth) :
    (∃ r, DFS1pAux B ((maxDepth - depth).toNat + 1) board depth maxDepth curLine possibleLines
        = some r ∧
      (∀ fuel, (maxDepth - depth).toNat + 1 ≤ fuel →
        DFS1pAux B fuel board depth maxDepth curLine possibleLines = some r) ∧
      Grows ((64 * 64) ^ (maxDepth - depth).toNat) possibleLines r.2) ∧
    (List.range 64).length = 64 ∧
    ∀ legalMoves : Nat, (bitSetPositions legalMoves).length ≤ 64 := by
  have hk : maxDepth = depth + ((maxDepth - depth).toNat : Nat) := by
    rw [Int.toNat_of_nonneg (by omega)]
    omega
  obtain ⟨r, hr, hg⟩ := DFS1pAux_grows B (maxDepth - depth).toNat
    ((maxDepth - depth).toNat + 1) board depth maxDepth curLine possibleLines (le_refl _) hk
  refine ⟨⟨r, hr, ?_, hg⟩, List.length_range 64, length_bitSetPositions_le⟩
  intro fuel hfuel
  rw [← hr]
  exact DFS1pAux_fuel_irrelevant B (maxDepth - depth).toNat fuel _ board depth maxDepth
    curLine possibleLines hfuel (le_refl _) hk

set_option maxRecDepth 100000 in
/-- Witness of C11: the search with `maxDepth = 2` from depth 0 on the lone white
knight returns with fuel for the three levels 0, 1 and 2, so no call is made at
depth 3; it records 12 lines, and with fuel for two levels only it does not return. -/
theorem DFS1pAux_terminates_witness :
    (0 : Int) ≤ 2 ∧
    (DFS1pAux positionStore 3 loneKnight 0 2 [] []).map (fun r => r.2.length) = some 12 ∧
    DFS1pAux positionStore 2 loneKnight 0 2 [] [] = none ∧
    ((∃ r, DFS1pAux positionStore (((2 : Int) - 0).toNat + 1) loneKnight 0 2 [] [] = some r ∧
      (∀ fuel, ((2 : Int) - 0).toNat + 1 ≤ fuel →
        DFS1pAux positionStore fuel loneKnight 0 2 [] [] = some r) ∧
      Grows ((64 * 64) ^ ((2 : Int) - 0).toNat) [] r.2) ∧
    (List.range 64).length = 64 ∧
    ∀ legalMoves : Nat, (bitSetPositions legalMoves).length ≤ 64) :=
  ⟨by decide, by decide, by decide,
    DFS1pAux_terminates positionStore loneKnight 0 2 [] [] (by decide)⟩

/-- C12: the FEN export is the exact inverse of the FEN import. For every FEN string
`fen` that the import accepts and whose piece placement is written with merged runs of
empty squares (as the FEN of a position is), exporting the imported board gives `fen`
back character for character, with the castling, en-passant and counter fields it
had. The FEN of the starting position and of every position reachable from it by
legal moves is such a string: importing it succeeds, exporting the imported board
gives it back, and the imported board has the lookup and the side to move of the
position. In particular this holds for
`rnbqkbnr/pppppppp/8/8/8/8/PPPPPPPP/RNBQKBNR w KQkq - 0 1`. -/
theorem toFEN_fromFEN_round_trip (fen : String) (board : Position)
    (h : Position.fromFEN fen = some board) (hc : canonicalFEN fen = true) :
    board.toFEN = fen ∧
    (∀ p : Position, p.Reachable →
      ∃ q, Position.fromFEN p.toFEN = some q ∧ q.toFEN = p.toFEN ∧
        q.squares = p.squares ∧ q.turn = p.turn) ∧
    (∃ q, Position.fromFEN startFEN = some q ∧ q.toFEN = startFEN) ∧
    startFEN = "rnbqkbnr/pppppppp/8/8/8/8/PPPPPPPP/RNBQKBNR w KQkq - 0 1" := by
  refine ⟨toFEN_fromFEN fen board h hc, fun p hp => ⟨Position.mk p.squares p.turn [] p.fenFields,
    fromFEN_toFEN p (wellFormed_of_reachable p hp), toFEN_congr _ _ rfl rfl rfl, rfl, rfl⟩,
    ⟨Position.startingLayout, fromFEN_startFEN, toFEN_startingLayout⟩, rfl⟩

set_option maxRecDepth 1000000 in
/-- Witness of C12: the FEN after 1. Nc3, whose half-move counter is 1, is imported as
the lookup of the starting layout with the knight moved from tile 1 to tile 18, black
to move, and exported as the same text; so is the FEN that `main` of `DFS1P.cpp`
imports, which has no castling rights. A placement with a split run of empty squares
(`44`) is imported too, but exported with the run merged (`8`). -/
theorem toFEN_fromFEN_round_trip_witness :
    Position.fromFEN "rnbqkbnr/pppppppp/8/8/8/2N5/PPPPPPPP/R1BQKBNR b KQkq - 1 1"
      = some (Position.mk (Position.startingLayout.movePiece 1 18).squares true []
          [['K', 'Q', 'k', 'q'], ['-'], ['1'], ['1']]) ∧
    canonicalFEN "rnbqkbnr/pppppppp/8/8/8/2N5/PPPPPPPP/R1BQKBNR b KQkq - 1 1" = true ∧
    (Position.fromFEN blockedFEN).map Position.toFEN
      = some "rkq1bnnr/2b2p1p/4pPpP/3pP1P1/p1pP2N1/PpP5/1P4K1/RNBQ1B1R w - - 0 1" ∧
    (canonicalFEN "8/8/8/8/44/8/8/8 w - - 0 1" = false ∧
      (Position.fromFEN "8/8/8/8/44/8/8/8 w - - 0 1").map Position.toFEN
        = some "8/8/8/8/8/8/8/8 w - - 0 1") ∧
    (Position.startingLayout.movePiece 8 16).forceFlipTurn.Reachable ∧
    (Position.startingLayout.movePiece 8 16).forceFlipTurn.toFEN
      = "rnbqkbnr/pppppppp/8/8/8/P7/1PPPPPPP/RNBQKBNR b KQkq - 0 1" ∧
    ((Position.mk (Position.startingLayout.movePiece 1 18).squares true []
          [['K', 'Q', 'k', 'q'], ['-'], ['1'], ['1']]).toFEN
        = "rnbqkbnr/pppppppp/8/8/8/2N5/PPPPPPPP/R1BQKBNR b KQkq - 1 1" ∧
    (∀ p : Position, p.Reachable →
      ∃ q, Position.fromFEN p.toFEN = some q ∧ q.toFEN = p.toFEN ∧
        q.squares = p.squares ∧ q.turn = p.turn) ∧
    (∃ q, Position.fromFEN startFEN = some q ∧ q.toFEN = startFEN) ∧
    startFEN = "rnbqkbnr/pppppppp/8/8/8/8/PPPPPPPP/RNBQKBNR w KQkq - 0 1") :=
  ⟨by decide, by decide, by decide, ⟨by decide, by decide⟩,
    Position.Reachable.flip _ (Position.Reachable.move _ 8 16 Position.Reachable.start
      (by decide) (by decide) (by decide) (by decide) (by decide)),
    by decide,
    toFEN_fromFEN_round_trip "rnbqkbnr/pppppppp/8/8/8/2N5/PPPPPPPP/R1BQKBNR b KQkq - 1 1" _
      (by decide) (by decide)⟩

/-- C13: the default-constructed board is the standard starting position: its FEN
export is exactly `rnbqkbnr/pppppppp/8/8/8/8/PPPPPPPP/RNBQKBNR w KQkq - 0 1`, and
the board imported from that string is equal to it (lookup, hence all bitboards, side
to move and history). -/
theorem startingLayout_is_start_position :
    Position.startingLayout.toFEN = "rnbqkbnr/pppppppp/8/8/8/8/PPPPPPPP/RNBQKBNR w KQkq - 0 1" ∧
    Position.fromFEN "rnbqkbnr/pppppppp/8/8/8/8/PPPPPPPP/RNBQKBNR w KQkq - 0 1"
      = some Position.startingLayout ∧
    ∀ q, Position.fromFEN "rnbqkbnr/pppppppp/8/8/8/8/PPPPPPPP/RNBQKBNR w KQkq - 0 1" = some q →
      decide (Position.startingLayout = q) = true ∧
      ∀ pieceColorIndex, Position.startingLayout.getPieceColorBitBoard pieceColorIndex
        = q.getPieceColorBitBoard pieceColorIndex := by
  refine ⟨toFEN_startingLayout, fromFEN_startFEN, ?_⟩
  intro q hq
  have e : Position.fromFEN startFEN = some q := hq
  rw [fromFEN_startFEN] at e
  cases e
  exact ⟨by simp, fun _ => rfl⟩

set_option maxRecDepth 1000000 in
/-- C14: for every position and colour `c`, `naiveCheckCheck(c)` is true if and only
if the square of the king of `c` (a square of the board that holds the king `10 + c`,
read off the king's bitboard) is set in the legal-move bitmask of at least one enemy
piece on the board. It is false for both colours in the starting position; in the
position of the board test with the white queen on a4 it is true for black and false
for white. -/
theorem naiveCheckCheck_spec (p : Position) (color : Bool) :
    (p.naiveCheckCheck color = true ↔
      ∃ king, p.kingSquare color = some king ∧
        ∃ s, s < 64 ∧ p.pieceAt s ≠ -1 ∧ p.pieceAt s % 2 ≠ boolToInt color ∧
          (p.getLegalMoves (p.pieceAt s) s).testBit king = true) ∧
    (∀ king, p.kingSquare color = some king →
      king < 64 ∧ p.pieceAt king = 10 + boolToInt color) ∧
    (p.kingSquare color = none → ∀ s, s < 64 → p.pieceAt s ≠ 10 + boolToInt color) ∧
    Position.startingLayout.naiveCheckCheck false = false ∧
    Position.startingLayout.naiveCheckCheck true = false ∧
    (Position.fromFEN queenCheckFEN).map (fun q => q.naiveCheckCheck true) = some true ∧
    (Position.fromFEN queenCheckFEN).map (fun q => q.naiveCheckCheck false) = some false ∧
    queenCheckFEN = "rnbqkbnr/ppp1pppp/3p4/8/Q7/2P5/PP1PPPPP/RNBQKBNR w KQkq - 0 1" :=
  ⟨naiveCheckCheck_iff p color, kingSquare_some p color, kingSquare_none p color,
    by decide, by decide, by decide, by decide, rfl⟩

set_option maxRecDepth 100000 in
/-- C15: for every position `P` and every move `(origin, destination)`, legal or not,
capture or not, `movePiece(origin, destination)` followed by `undoLastMove()` gives a
position equal to `P`: the same twelve bitboards, the same piece-at-square lookup, the
same side to move (and the same history). With the turn flips of the search driver in
between, the flipped position is restored. The knight on tile 0 capturing the pawn on
tile 10 is an instance. -/
theorem undoLastMove_after_movePiece (p : Position) (origin destination : Nat) :
    (p.movePiece origin destination).undoLastMove = p ∧
    (∀ pieceColorIndex, ((p.movePiece origin destination).undoLastMove).getPieceColorBitBoard
      pieceColorIndex = p.getPieceColorBitBoard pieceColorIndex) ∧
    (∀ square, ((p.movePiece origin destination).undoLastMove).getPieceFromCoords square
      = p.getPieceFromCoords square) ∧
    ((p.movePiece origin destination).undoLastMove).getCurrentPlayer = p.getCurrentPlayer ∧
    ((p.movePiece origin destination).forceFlipTurn.undoLastMove).forceFlipTurn = p ∧
    (knightAndPawn.getPieceFromCoords 10 = 1 ∧
      (knightAndPawn.getLegalMoves 2 0).testBit 10 = true ∧
      (knightAndPawn.movePiece 0 10).getPieceFromCoords 10 = 2 ∧
      (knightAndPawn.movePiece 0 10).getPieceColorBitBoard 1 = 0 ∧
      (knightAndPawn.movePiece 0 10).undoLastMove = knightAndPawn) := by
  have e := undoLastMove_movePiece p origin destination
  refine ⟨e, ?_, ?_, ?_, ?_, by decide⟩
  · intro i; rw [e]
  · intro s; rw [e]
  · rw [e]
  · have h1 := positionStore_lawful.1 p origin destination
    have h2 := positionStore_lawful.2 p
    simp only [positionStore] at h1 h2
    rw [h1, h2]

end DFS1P

namespace GeneralRegression

/-- C16: for the 23-element basis returned by `SqrtDifBasis::GenerateBasis` and all
8-entry pawn arrays `top` and `bottom` (entries of absolute value at most 2047, so that
the `int` square neither overflows nor loses digits as a `float`):
`basis[i].Eval(top, bottom) = (top[i] - top[i+1])^2` for `i` in `0..6`,
`basis[7+i].Eval(top, bottom) = (bottom[i] - bottom[i+1])^2` for `i` in `0..6`, and
`basis[14+j].Eval(top, bottom) = (top[j] - bottom[j])^2` for `j` in `0..7`. -/
theorem GenerateBasis_Eval_square_differences (erf : ℚ → ℚ) (fresh : Func)
    (top bottom : Int → Int) (ht : SmallEntries top) (hb : SmallEntries bottom) :
    (∀ i : Nat, i < 7 → (SqrtDifBasis.GenerateBasis fresh i).Eval erf top bottom
      = some (((top i - top (i + 1)) ^ 2 : Int) : ℚ)) ∧
    (∀ i : Nat, i < 7 → (SqrtDifBasis.GenerateBasis fresh (7 + i)).Eval erf top bottom
      = some (((bottom i - bottom (i + 1)) ^ 2 : Int) : ℚ)) ∧
    (∀ j : Nat, j < 8 → (SqrtDifBasis.GenerateBasis fresh (14 + j)).Eval erf top bottom
      = some (((top j - bottom j) ^ 2 : Int) : ℚ)) :=
  Eval_GenerateBasis erf fresh top bottom ht hb

set_option maxRecDepth 100000 in
/-- Witness of C16: the first data point of `getTheta`, top pawns
`3, 3, 4, 1, 1, 2, 2, 5` and bottom pawns `4, 4, 5, 2, 2, 3, 3, 6`; the function of
index 2 has the value `(4 - 1)^2 = 9`. -/
theorem GenerateBasis_Eval_square_differences_witness :
    (SmallEntries (firstDataPoint 0) ∧ SmallEntries (firstDataPoint 1)) ∧
    firstDataPoint 0 2 = 4 ∧ firstDataPoint 0 3 = 1 ∧
    ((∀ i : Nat, i < 7 →
      (SqrtDifBasis.GenerateBasis freshFunc i).Eval erfUnused (firstDataPoint 0)
        (firstDataPoint 1)
        = some (((firstDataPoint 0 i - firstDataPoint 0 (i + 1)) ^ 2 : Int) : ℚ)) ∧
    (∀ i : Nat, i < 7 →
      (SqrtDifBasis.GenerateBasis freshFunc (7 + i)).Eval erfUnused (firstDataPoint 0)
        (firstDataPoint 1)
        = some (((firstDataPoint 1 i - firstDataPoint 1 (i + 1)) ^ 2 : Int) : ℚ)) ∧
    (∀ j : Nat, j < 8 →
      (SqrtDifBasis.GenerateBasis freshFunc (14 + j)).Eval erfUnused (firstDataPoint 0)
        (firstDataPoint 1)
        = some (((firstDataPoint 0 j - firstDataPoint 1 j) ^ 2 : Int) : ℚ))) :=
  ⟨smallEntries_firstDataPoint, by decide, by decide,
    GenerateBasis_Eval_square_differences erfUnused freshFunc (firstDataPoint 0)
      (firstDataPoint 1) smallEntries_firstDataPoint.1 smallEntries_firstDataPoint.2⟩

/-- C17 as stated fails: for the first data point of `getTheta` alone, with its output
`0.01`, `bestFitF` returns weights whose sum of squared residuals is positive, while
other weights have the sum of squared residuals 0. -/
theorem bestFitF_not_least_squares :
    setUpQ erfUnused (SqrtDifBasis.GenerateBasis freshFunc) firstDataPoint 23 1
      = some firstDataMatrix ∧
    ∃ theta, bestFitF erfUnused (SqrtDifBasis.GenerateBasis freshFunc) firstDataPoint
        firstOutputs 23 1 = some theta ∧
      ∃ other : Fin 23 → ℚ,
        squaredError firstDataMatrix (setUpYVect firstOutputs 1) other
          < squaredError firstDataMatrix (setUpYVect firstOutputs 1) theta := by
  refine ⟨setUpQ_firstDataPoint, _,
    bestFitF_eq erfUnused _ firstDataPoint firstOutputs 1 firstDataMatrix setUpQ_firstDataPoint,
    Pi.single 22 (setUpYVect firstOutputs 1 0 / firstDataMatrix 0 22), ?_⟩
  have h := squaredError_one_point firstDataMatrix (setUpYVect firstOutputs 1) _ 22
    (by rw [firstDataMatrix_last]; norm_num) (by simp [setUpYVect, firstOutputs])
    (normal_equations firstDataMatrix (setUpYVect firstOutputs 1) (1 / 1000) (by norm_num))
  rw [h.1]
  exact h.2

/-- C17, amended: for dimension 23 and any data set whose matrix `Q` exists,
`Q(i,j) = basis[j].Eval(X[2i], X[2i+1])`, `bestFitF` returns weights `theta`, and with
`Y(i) = data_outputs[i]` they minimise the penalised sum
`sum_i (sum_j theta_j * Q(i,j) - Y(i))^2 + 0.001 * sum_j theta_j^2` over all real weight
vectors. -/
theorem bestFitF_minimises_ridgeError (erf : ℚ → ℚ) (basis : Nat → Func)
    (X : Nat → Int → Int) (data_outputs : Nat → ℚ) (n : Nat)
    (Q : Matrix (Fin n) (Fin 23) ℚ) (hQ : setUpQ erf basis X 23 n = some Q) :
    (∀ (i : Fin n) (j : Fin 23),
      (basis j).Eval erf (X (2 * i)) (X (2 * i + 1)) = some (Q i j)) ∧
    ∃ theta, bestFitF erf basis X data_outputs 23 n = some theta ∧
      ∀ other : Fin 23 → ℝ,
        ridgeError (Q.map (fun x => (x : ℝ))) (fun i => (data_outputs i : ℝ)) (1 / 1000)
            (fun j => (theta j : ℝ))
          ≤ ridgeError (Q.map (fun x => (x : ℝ))) (fun i => (data_outputs i : ℝ)) (1 / 1000)
            other := by
  refine ⟨setUpQ_entry erf basis X 23 n Q hQ, _,
    bestFitF_eq erf basis X data_outputs n Q hQ, ?_⟩
  intro other
  have h := ridgeError_min_real Q (setUpYVect data_outputs n) (1 / 1000) (by norm_num) _
    (normal_equations Q (setUpYVect data_outputs n) (1 / 1000) (by norm_num)) other
  have e : (((1 / 1000 : ℚ) : ℚ) : ℝ) = 1 / 1000 := by norm_num
  rw [e] at h
  exact h

/-- Witness of C17 (amended): the first data point of `getTheta` with its output. -/
theorem bestFitF_minimises_ridgeError_witness :
    setUpQ erfUnused (SqrtDifBasis.GenerateBasis freshFunc) firstDataPoint 23 1
      = some firstDataMatrix ∧
    ((∀ (i : Fin 1) (j : Fin 23),
      (SqrtDifBasis.GenerateBasis freshFunc j).Eval erfUnused (firstDataPoint (2 * i))
        (firstDataPoint (2 * i + 1)) = some (firstDataMatrix i j)) ∧
    ∃ theta, bestFitF erfUnused (SqrtDifBasis.GenerateBasis freshFunc) firstDataPoint
        firstOutputs 23 1 = some theta ∧
      ∀ other : Fin 23 → ℝ,
        ridgeError (firstDataMatrix.map (fun x => (x : ℝ))) (fun i => (firstOutputs i : ℝ))
            (1 / 1000) (fun j => (theta j : ℝ))
          ≤ ridgeError (firstDataMatrix.map (fun x => (x : ℝ)))
            (fun i => (firstOutputs i : ℝ)) (1 / 1000) other) :=
  ⟨setUpQ_firstDataPoint,
    bestFitF_minimises_ridgeError erfUnused (SqrtDifBasis.GenerateBasis freshFunc)
      firstDataPoint firstOutputs 1 firstDataMatrix setUpQ_firstDataPoint⟩

/-- C18 as stated fails: on the first data point of `getTheta` all 16 pawns are
present, their average height is `25/8`, at the distance `3/8` from `3.5`, and the
last basis function has the value `float(0.38) = 3187671/8388608`. On the data point
of index 255 (`X[510]`, `X[511]`) ten pawns are present, their average height is
`39/10`, at the distance `2/5`, and the value is `float(0.41) = 13757317/33554432`:
the quotient `3.9` is rounded up to a `float`, so that the product with 100 exceeds
40. -/
theorem Eval_last_basis_not_distance :
    (0 < pawnCount (firstDataPoint 0) (firstDataPoint 1) ∧
    |averageHeight (firstDataPoint 0) (firstDataPoint 1) - 7 / 2| = 3 / 8 ∧
    (SqrtDifBasis.GenerateBasis freshFunc 22).Eval erfUnused (firstDataPoint 0)
      (firstDataPoint 1) = some (roundFloat (19 / 50)) ∧
    roundFloat (19 / 50) = 3187671 / 8388608 ∧
    (SqrtDifBasis.GenerateBasis freshFunc 22).Eval erfUnused (firstDataPoint 0)
      (firstDataPoint 1)
      ≠ some |averageHeight (firstDataPoint 0) (firstDataPoint 1) - 7 / 2|) ∧
    (0 < pawnCount (laterDataPoint 0) (laterDataPoint 1) ∧
    |averageHeight (laterDataPoint 0) (laterDataPoint 1) - 7 / 2| = 2 / 5 ∧
    (SqrtDifBasis.GenerateBasis freshFunc 22).Eval erfUnused (laterDataPoint 0)
      (laterDataPoint 1) = some (roundFloat (41 / 100)) ∧
    roundFloat (41 / 100) = 13757317 / 33554432 ∧
    (SqrtDifBasis.GenerateBasis freshFunc 22).Eval erfUnused (laterDataPoint 0)
      (laterDataPoint 1)
      ≠ some |averageHeight (laterDataPoint 0) (laterDataPoint 1) - 7 / 2|) := by
  have habs : |averageHeight (firstDataPoint 0) (firstDataPoint 1) - 7 / 2| = 3 / 8 := by
    rw [averageHeight_firstDataPoint.2, abs_of_nonpos (by norm_num)]
    norm_num
  have habs2 : |averageHeight (laterDataPoint 0) (laterDataPoint 1) - 7 / 2| = 2 / 5 := by
    rw [laterDataPoint_facts.2.2.2, abs_of_nonneg (by norm_num)]
    norm_num
  refine ⟨⟨by rw [averageHeight_firstDataPoint.1]; decide, habs, ?_,
    roundFloat_nineteen_fiftieths, ?_⟩,
    ⟨by rw [laterDataPoint_facts.2.2.1]; decide, habs2, ?_,
    roundFloat_later_steps.2.2.2, ?_⟩⟩
  · rw [roundFloat_nineteen_fiftieths]
    exact Eval_last_firstDataPoint
  · rw [Eval_last_firstDataPoint, habs]
    intro h
    have := Option.some.inj h
    norm_num at this
  · rw [roundFloat_later_steps.2.2.2]
    exact Eval_last_laterDataPoint
  · rw [Eval_last_laterDataPoint, habs2]
    intro h
    have := Option.some.inj h
    norm_num at this

/-- C18, amended: in `float` arithmetic the last basis function (index 22, `func_num`
0) evaluates, for all pawn arrays `top` and `bottom` (entries of absolute value at
most 2047) with at least one pawn present, to the distance `|avg - 3.5|` between 3.5
and the average height of the pawns of both players rounded up to hundredths: the
value is the `float` nearest to `k/100`, where the integer `k` is the ceiling of the
`float` product of 100 and the `float` distance and differs by at most 1 from the
ceiling of `100 * |avg - 3.5|`; the value is at least the distance minus `1/1000`
and at most the distance plus `11/1000`. -/
theorem Eval_last_basis_rounded_up (erf : ℚ → ℚ) (fresh : Func) (top bottom : Int → Int)
    (ht : SmallEntries top) (hb : SmallEntries bottom) (hc : 0 < pawnCount top bottom) :
    ∃ k : Int,
      (SqrtDifBasis.GenerateBasis fresh 22).Eval erf top bottom
        = some (roundFloat ((k : ℚ) / 100)) ∧
      k = Int.ceil (roundFloat
          (100 * roundFloat |roundFloat (averageHeight top bottom) - 7 / 2|)) ∧
      |k - Int.ceil (100 * |averageHeight top bottom - 7 / 2|)| ≤ 1 ∧
      |averageHeight top bottom - 7 / 2| - 1 / 1000 ≤ roundFloat ((k : ℚ) / 100) ∧
      roundFloat ((k : ℚ) / 100) ≤ |averageHeight top bottom - 7 / 2| + 11 / 1000 := by
  have hb3 := float_distance_bounds (averageHeight top bottom)
    (abs_averageHeight_le top bottom ht hb hc)
  exact ⟨_, Eval_last_value erf fresh top bottom ht hb hc, rfl, hb3.1, hb3.2.1, hb3.2.2⟩

/-- Witness of C18 (amended): the first data point of `getTheta`, where the distance
`3/8` is rounded up to the `float` nearest to `0.38`. -/
theorem Eval_last_basis_rounded_up_witness :
    (SmallEntries (firstDataPoint 0) ∧ SmallEntries (firstDataPoint 1) ∧
      0 < pawnCount (firstDataPoint 0) (firstDataPoint 1)) ∧
    (SqrtDifBasis.GenerateBasis freshFunc 22).Eval erfUnused (firstDataPoint 0)
        (firstDataPoint 1) = some (3187671 / 8388608) ∧
    ∃ k : Int,
      (SqrtDifBasis.GenerateBasis freshFunc 22).Eval erfUnused (firstDataPoint 0)
          (firstDataPoint 1)
        = some (roundFloat ((k : ℚ) / 100)) ∧
      k = Int.ceil (roundFloat (100 * roundFloat
          |roundFloat (averageHeight (firstDataPoint 0) (firstDataPoint 1)) - 7 / 2|)) ∧
      |k - Int.ceil (100 * |averageHeight (firstDataPoint 0) (firstDataPoint 1) - 7 / 2|)|
        ≤ 1 ∧
      |averageHeight (firstDataPoint 0) (firstDataPoint 1) - 7 / 2| - 1 / 1000
        ≤ roundFloat ((k : ℚ) / 100) ∧
      roundFloat ((k : ℚ) / 100)
        ≤ |averageHeight (firstDataPoint 0) (firstDataPoint 1) - 7 / 2| + 11 / 1000 :=
  ⟨⟨smallEntries_firstDataPoint.1, smallEntries_firstDataPoint.2,
      by rw [averageHeight_firstDataPoint.1]; decide⟩,
    Eval_last_firstDataPoint,
    Eval_last_basis_rounded_up erfUnused freshFunc (firstDataPoint 0) (firstDataPoint 1)
      smallEntries_firstDataPoint.1 smallEntries_firstDataPoint.2
      (by rw [averageHeight_firstDataPoint.1]; decide)⟩

end GeneralRegression

namespace DFS1P

/-- C19 as stated fails: with white to move (`currentTurn = false`) and an opposing
pawn on `(row+1, col-1) = (5, 2)`, the square `(4, 3)` is reported safe; with black to
move and an opposing pawn on `(row-1, col-1) = (3, 2)`, it is reported safe as well. -/
theorem squareSafeFromOpponentPawns_not_spec_direction :
    (pawnOn (2 ^ 42) (4 + 1) (3 - 1) ∧
      squareSafeFromOpponentPawns false (2 ^ 42) 4 3 = true) ∧
    (pawnOn (2 ^ 26) (4 - 1) (3 - 1) ∧
      squareSafeFromOpponentPawns true (2 ^ 26) 4 3 = true) := by
  unfold pawnOn
  decide

/-- C19, amended: the pawn-safety predicate looks one rank away in the direction
`-row` for white to move and `+row` for black to move: for white to move
(`currentTurn = false`) `squareSafeFromOpponentPawns` reports the square `(row, col)`
of the board unsafe exactly when an opposing pawn stands on `(row-1, col-1)` or
`(row-1, col+1)`, and for black to move exactly when one stands on `(row+1, col-1)` or
`(row+1, col+1)`. -/
theorem squareSafeFromOpponentPawns_direction (opponentPawnBoard : Nat) (row col : Int)
    (hr0 : 0 ≤ row) (hr8 : row < 8) (hc0 : 0 ≤ col) (hc8 : col < 8) :
    (squareSafeFromOpponentPawns false opponentPawnBoard row col = false ↔
      (pawnOn opponentPawnBoard (row - 1) (col - 1) ∨
       pawnOn opponentPawnBoard (row - 1) (col + 1))) ∧
    (squareSafeFromOpponentPawns true opponentPawnBoard row col = false ↔
      (pawnOn opponentPawnBoard (row + 1) (col - 1) ∨
       pawnOn opponentPawnBoard (row + 1) (col + 1))) :=
  ⟨squareSafe_false_iff false opponentPawnBoard row col hr0 hr8 hc0 hc8,
    squareSafe_false_iff true opponentPawnBoard row col hr0 hr8 hc0 hc8⟩

/-- Witness of C19 (amended): an opposing pawn on `(3, 2)` and the square `(4, 3)`:
unsafe for white to move, safe for black to move. -/
theorem squareSafeFromOpponentPawns_direction_witness :
    ((0 : Int) ≤ 4 ∧ (4 : Int) < 8 ∧ (0 : Int) ≤ 3 ∧ (3 : Int) < 8) ∧
    squareSafeFromOpponentPawns false (2 ^ 26) 4 3 = false ∧
    squareSafeFromOpponentPawns true (2 ^ 26) 4 3 = true ∧
    ((squareSafeFromOpponentPawns false (2 ^ 26) 4 3 = false ↔
      (pawnOn (2 ^ 26) (4 - 1) (3 - 1) ∨ pawnOn (2 ^ 26) (4 - 1) (3 + 1))) ∧
    (squareSafeFromOpponentPawns true (2 ^ 26) 4 3 = false ↔
      (pawnOn (2 ^ 26) (4 + 1) (3 - 1) ∨ pawnOn (2 ^ 26) (4 + 1) (3 + 1)))) :=
  ⟨⟨by decide, by decide, by decide, by decide⟩, by decide, by decide,
    squareSafeFromOpponentPawns_direction (2 ^ 26) 4 3 (by decide) (by decide) (by decide)
      (by decide)⟩

set_option maxRecDepth 100000 in
/-- C20 as stated fails: for the lone white knight (piece 2) on tile 0 the search from
tile 0 asks `getLegalMoves(2, 0)` first and `getLegalMoves(2, 10)` next, and tile 10
is empty on the board. -/
theorem legalMovesOrigins_not_all_hold_piece :
    (distFromTileToTilesAsPiece 64 positionStore loneKnight 1 0).isSome = true ∧
    (legalMovesOrigins 64 positionStore loneKnight 1 0).take 2 = [0, 10] ∧
    2 * 1 + boolToInt (positionStore.getCurrentPlayer loneKnight) = 2 ∧
    positionStore.getPieceFromCoords loneKnight 0 = 2 ∧
    positionStore.getPieceFromCoords loneKnight 10 = -1 := by
  decide

/-- C20, amended: of the calls to `getLegalMoves` made by
`distFromTileToTilesAsPiece`, the first is for the start tile and satisfies the move
generator's precondition when the start tile holds the piece
`2*halfPieceId + sideToMove`; every tile dequeued later is an empty square of the
(unmodified) board, so the origin passed for it does not hold the piece passed. -/
theorem legalMovesOrigins_only_start_holds_piece {β : Type} (B : CFBoard β) (board : β)
    (halfPieceId : Int) (startTile : Nat) (fuel : Nat) (hs : startTile < 64)
    (hf : 64 ≤ fuel)
    (hp : B.getPieceFromCoords board startTile
      = 2 * halfPieceId + boolToInt (B.getCurrentPlayer board))
    (hne : B.getPieceFromCoords board startTile ≠ -1) :
    (∃ d, distFromTileToTilesAsPiece fuel B board halfPieceId startTile = some d) ∧
    ∃ later, legalMovesOrigins fuel B board halfPieceId startTile = startTile :: later ∧
      ∀ t ∈ later, t < 64 ∧ B.getPieceFromCoords board t = -1 ∧
        B.getPieceFromCoords board t
          ≠ 2 * halfPieceId + boolToInt (B.getCurrentPlayer board) := by
  obtain ⟨d, hd, _⟩ := distFromTileToTilesAsPiece_sound B board halfPieceId startTile hs fuel hf
  obtain ⟨later, hl, hempty⟩ := legalMovesOrigins_eq B board halfPieceId startTile fuel
    (by omega)
  have hst : startTile / 8 * 8 + startTile % 8 = startTile := by omega
  rw [hst] at hl
  refine ⟨⟨d, hd⟩, later, hl, ?_⟩
  intro t ht
  have h := hempty t ht
  refine ⟨h.1, h.2, ?_⟩
  rw [h.2, ← hp]
  exact Ne.symm hne

set_option maxRecDepth 100000 in
/-- Witness of C20 (amended): the lone white knight on tile 0, searched from tile 0
with fuel 64. -/
theorem legalMovesOrigins_only_start_holds_piece_witness :
    (0 < 64 ∧ 64 ≤ 64 ∧
      positionStore.getPieceFromCoords loneKnight 0
        = 2 * 1 + boolToInt (positionStore.getCurrentPlayer loneKnight) ∧
      positionStore.getPieceFromCoords loneKnight 0 ≠ -1) ∧
    ((∃ d, distFromTileToTilesAsPiece 64 positionStore loneKnight 1 0 = some d) ∧
    ∃ later, legalMovesOrigins 64 positionStore loneKnight 1 0 = 0 :: later ∧
      ∀ t ∈ later, t < 64 ∧ positionStore.getPieceFromCoords loneKnight t = -1 ∧
        positionStore.getPieceFromCoords loneKnight t
          ≠ 2 * 1 + boolToInt (positionStore.getCurrentPlayer loneKnight)) :=
  ⟨⟨by decide, by decide, by decide, by decide⟩,
    legalMovesOrigins_only_start_holds_piece positionStore loneKnight 1 0 64 (by decide)
      (by decide) (by decide) (by decide)⟩

end DFS1P

namespace DFS1P

set_option maxRecDepth 100000 in
/-- C21: `distFromHeatmap` does not return the minimum: there are a board and a
heatmap with two candidates for which the value returned is strictly greater than the
smallest candidate distance. For the lone white knight on tile 0 and the knight
targets `(1, 2)` and `(7, 7)` the candidates have the distances 1 and 6, and the value
returned is 6. -/
theorem distFromHeatmap_not_minimum :
    ∃ (board : Position) (heatMap : HeatMap) (value smallest : Int),
      2 ≤ (heatmapCandidates 64 positionStore board heatMap).length ∧
      distFromHeatmap 64 positionStore board heatMap = some value ∧
      (∃ c ∈ heatmapCandidates 64 positionStore board heatMap, c.dist = smallest) ∧
      (∀ c ∈ heatmapCandidates 64 positionStore board heatMap, smallest ≤ c.dist) ∧
      smallest < value :=
  ⟨loneKnight, knightTargets, 6, 1, by decide, by decide,
    ⟨Candidate.mk 1 0 1 2 1, by decide, rfl⟩, by decide, by decide⟩

/-- C22: in `getNextMove` the final access `ansLine[0]` is in bounds if and only if
`DFS1pAux` recorded at least one line. Every recorded line has 3 moves; the first
recorded line replaces the empty `ansLine`, since its `distFromHeatmap` value is below
the initial `minDist` of `10^9`; and if no line is recorded `ansLine` is still empty
when it is indexed. Holds on every board, with fuel for the searches. -/
theorem getNextMove_answer_in_bounds {β : Type} (B : CFBoard β)
    (addHeatMap : β → HeatMap → Nat → β × HeatMap) (b : β) (fuel : Nat) (hf : 64 ≤ fuel) :
    ∃ r, DFS1pAux B fuel (addHeatMap b (fun _ _ _ => 0) 8).1 0 3 [] [] = some r ∧
      (∀ l ∈ r.2, l.length = 3) ∧
      (∀ first rest, r.2 = first :: rest →
        ∃ v st, distFromHeatmap fuel B (replayLine B r.1 first)
            (addHeatMap b (fun _ _ _ => 0) 8).2 = some v ∧ v < 1000000000 ∧
          scoreLine fuel B (addHeatMap b (fun _ _ _ => 0) 8).2
            (ScoreState.mk r.1 1000000000 []) first = some st ∧
          st.ansLine = first ∧ st.minDist = v) ∧
      ∃ board answer, getNextMove fuel B addHeatMap b = some (board, answer) ∧
        (answer.isSome = true ↔ r.2 ≠ []) ∧ (r.2 = [] → answer = none) := by
  obtain ⟨r, hr, hlen⟩ := lines_length_three B fuel (by omega)
    (addHeatMap b (fun _ _ _ => 0) 8).1
  have hfirst : ∀ first, ∃ v, distFromHeatmap fuel B (replayLine B r.1 first)
        (addHeatMap b (fun _ _ _ => 0) 8).2 = some v ∧ v < 1000000000 ∧
      scoreLine fuel B (addHeatMap b (fun _ _ _ => 0) 8).2
        (ScoreState.mk r.1 1000000000 []) first
        = some (ScoreState.mk (unwindLine B (replayLine B r.1 first) first) v first) := by
    intro first
    obtain ⟨v, hv, _, h63, hs⟩ := scoreLine_some fuel hf B
      (addHeatMap b (fun _ _ _ => 0) 8).2 (ScoreState.mk r.1 1000000000 []) first
    have hlt : v < 1000000000 := by omega
    simp only [hlt, if_true] at hs
    exact ⟨v, hv, hlt, hs⟩
  refine ⟨r, hr, hlen, ?_, ?_⟩
  · intro first rest _
    obtain ⟨v, hv, hlt, hs⟩ := hfirst first
    exact ⟨v, _, hv, hlt, hs, rfl, rfl⟩
  · unfold getNextMove
    simp only [hr, Option.some_bind]
    cases hls : r.2 with
    | nil =>
      refine ⟨r.1, none, ?_, by simp, fun _ => rfl⟩
      simp
    | cons first rest =>
      obtain ⟨v, _, _, hs⟩ := hfirst first
      have hl1 : first.length = 3 := hlen first (by rw [hls]; simp)
      obtain ⟨st', hst', h3⟩ := scoreLine_foldlM_kept fuel hf B
        (addHeatMap b (fun _ _ _ => 0) 8).2 rest
        (fun x hx => hlen x (by rw [hls]; simp [hx]))
        (ScoreState.mk (unwindLine B (replayLine B r.1 first) first) v first) hl1
      obtain ⟨m, tl, hm⟩ : ∃ m tl, st'.ansLine = m :: tl := by
        cases hc : st'.ansLine with
        | nil => rw [hc] at h3; simp at h3
        | cons m tl => exact ⟨m, tl, rfl⟩
      refine ⟨st'.board, some m, ?_, by simp, by simp⟩
      rw [List.foldlM_cons, hs, Option.bind_eq_bind, Option.some_bind, hst']
      simp [hm]

set_option maxRecDepth 100000 in
/-- Witness of C22: the lone white pawn on tile 8 has one line and the answer is its
first move; on a board without pieces no line is recorded and the index is out of
bounds. -/
theorem getNextMove_answer_in_bounds_witness :
    64 ≤ 64 ∧
    getNextMove 64 positionStore addKnightTargets lonePawn
      = some (lonePawn, some (Move.mk 8 16 0)) ∧
    getNextMove 64 positionStore addKnightTargets emptyBoard = some (emptyBoard, none) ∧
    ∃ r, DFS1pAux positionStore 64 (addKnightTargets lonePawn (fun _ _ _ => 0) 8).1 0 3 [] []
        = some r ∧
      (∀ l ∈ r.2, l.length = 3) ∧
      (∀ first rest, r.2 = first :: rest →
        ∃ v st, distFromHeatmap 64 positionStore (replayLine positionStore r.1 first)
            (addKnightTargets lonePawn (fun _ _ _ => 0) 8).2 = some v ∧ v < 1000000000 ∧
          scoreLine 64 positionStore (addKnightTargets lonePawn (fun _ _ _ => 0) 8).2
            (ScoreState.mk r.1 1000000000 []) first = some st ∧
          st.ansLine = first ∧ st.minDist = v) ∧
      ∃ board answer, getNextMove 64 positionStore addKnightTargets lonePawn
          = some (board, answer) ∧
        (answer.isSome = true ↔ r.2 ≠ []) ∧ (r.2 = [] → answer = none) :=
  ⟨by decide, by decide, by decide,
    getNextMove_answer_in_bounds positionStore addKnightTargets lonePawn 64 (by decide)⟩

/-- C23: with fuel for the searches `distFromHeatmap` returns a value that is never
negative, and 0 whenever there is no candidate; there is no candidate when the heatmap
is all zero, when the side to move has no pieces, or when no target is reachable. So
the value of a position without a reachable target is at most the value of every other
position, and a line kept with it is not replaced by the minimisation of
`getNextMove`. -/
theorem distFromHeatmap_nonneg_zero {β : Type} (B : CFBoard β) (board : β)
    (heatMap : HeatMap) (fuel : Nat) (hf : 64 ≤ fuel) :
    ∃ v, distFromHeatmap fuel B board heatMap = some v ∧ 0 ≤ v ∧
      (heatmapCandidates fuel B board heatMap = [] → v = 0) ∧
      ((∀ kind i j, heatMap kind i j = 0) → heatmapCandidates fuel B board heatMap = []) ∧
      ((∀ kind : Nat, kind < 6 →
          bitSetPositions (B.getPieceColorBitBoard board
            (Int.lor (2 * (kind : Int)) (boolToInt (B.getCurrentPlayer board)))) = []) →
        heatmapCandidates fuel B board heatMap = []) ∧
      ((∀ (kind piece : Nat) (grid : Grid) (i j : Nat), kind < 6 →
          piece ∈ bitSetPositions (B.getPieceColorBitBoard board
            (Int.lor (2 * (kind : Int)) (boolToInt (B.getCurrentPlayer board)))) →
          distFromTileToTilesAsPiece fuel B board kind piece = some grid →
          i < 8 → j < 8 → heatMap kind i j ≠ 0 → grid i j = -1) →
        heatmapCandidates fuel B board heatMap = []) ∧
      (heatmapCandidates fuel B board heatMap = [] →
        (∀ (other : β) (otherMap : HeatMap),
          ∃ w, distFromHeatmap fuel B other otherMap = some w ∧ v ≤ w) ∧
        ∀ (score : Line → Int) (kept ln : Line), 0 ≤ score ln →
          keepBetter score (v, kept) ln = (v, kept)) := by
  obtain ⟨v, hv, h0, _⟩ := distFromHeatmap_bounds fuel hf B board heatMap
  have hzero : heatmapCandidates fuel B board heatMap = [] → v = 0 := by
    intro hc
    have h := distFromHeatmap_eq fuel hf B board heatMap
    rw [hv, hc] at h
    exact Option.some.inj h
  refine ⟨v, hv, h0, hzero, heatmapCandidates_nil_of_zero fuel B board heatMap,
    heatmapCandidates_nil_of_no_pieces fuel B board heatMap,
    heatmapCandidates_nil_of_unreachable fuel B board heatMap, ?_⟩
  intro hc
  have hv0 := hzero hc
  refine ⟨?_, ?_⟩
  · intro other otherMap
    obtain ⟨w, hw, hw0, _⟩ := distFromHeatmap_bounds fuel hf B other otherMap
    exact ⟨w, hw, by omega⟩
  · intro score kept ln hs
    unfold keepBetter
    rw [if_neg (by simp only; omega)]

set_option maxRecDepth 100000 in
/-- Witness of C23: the lone white knight with the heatmap without targets has the
value 0; with the targets `(1, 2)` and `(7, 7)` it has the value 6. -/
theorem distFromHeatmap_nonneg_zero_witness :
    64 ≤ 64 ∧
    distFromHeatmap 64 positionStore loneKnight zeroHeatMap = some 0 ∧
    distFromHeatmap 64 positionStore loneKnight knightTargets = some 6 ∧
    ∃ v, distFromHeatmap 64 positionStore loneKnight zeroHeatMap = some v ∧ 0 ≤ v ∧
      (heatmapCandidates 64 positionStore loneKnight zeroHeatMap = [] → v = 0) ∧
      ((∀ kind i j, zeroHeatMap kind i j = 0) →
        heatmapCandidates 64 positionStore loneKnight zeroHeatMap = []) ∧
      ((∀ kind : Nat, kind < 6 →
          bitSetPositions (positionStore.getPieceColorBitBoard loneKnight
            (Int.lor (2 * (kind : Int))
              (boolToInt (positionStore.getCurrentPlayer loneKnight)))) = []) →
        heatmapCandidates 64 positionStore loneKnight zeroHeatMap = []) ∧
      ((∀ (kind piece : Nat) (grid : Grid) (i j : Nat), kind < 6 →
          piece ∈ bitSetPositions (positionStore.getPieceColorBitBoard loneKnight
            (Int.lor (2 * (kind : Int))
              (boolToInt (positionStore.getCurrentPlayer loneKnight)))) →
          distFromTileToTilesAsPiece 64 positionStore loneKnight kind piece = some grid →
          i < 8 → j < 8 → zeroHeatMap kind i j ≠ 0 → grid i j = -1) →
        heatmapCandidates 64 positionStore loneKnight zeroHeatMap = []) ∧
      (heatmapCandidates 64 positionStore loneKnight zeroHeatMap = [] →
        (∀ (other : Position) (otherMap : HeatMap),
          ∃ w, distFromHeatmap 64 positionStore other otherMap = some w ∧ v ≤ w) ∧
        ∀ (score : Line → Int) (kept ln : Line), 0 ≤ score ln →
          keepBetter score (v, kept) ln = (v, kept)) :=
  ⟨by decide, by decide, by decide,
    distFromHeatmap_nonneg_zero positionStore loneKnight zeroHeatMap 64 (by decide)⟩

set_option maxRecDepth 100000 in
/-- C24 as stated fails: its two givens do not fix the side to move at the scoring.
On the board `restoringStore`, whose `movePiece` leaves the side to move as it is and
whose `forceFlipTurn` toggles it, but whose `undoLastMove` puts the recorded side
back, the search hands the board of the lone white pawn back with black to move, and
the one line is scored with white to move, the side on entry. The same happens on
`positionStore`, which keeps the side to move in `undoLastMove`, when the heatmap
builder hands the board back with the other side to move. -/
theorem getNextMove_scores_entry_side :
    ((∀ b s e, restoringStore.getCurrentPlayer (restoringStore.movePiece b s e)
        = restoringStore.getCurrentPlayer b) ∧
      (∀ b, restoringStore.getCurrentPlayer (restoringStore.forceFlipTurn b)
        = !restoringStore.getCurrentPlayer b) ∧
      restoringStore.getCurrentPlayer lonePawn = false ∧
      (DFS1pAux restoringStore 64 (addKnightTargets lonePawn (fun _ _ _ => 0) 8).1 0 3 [] []).map
          (fun r => (r.2, restoringStore.getCurrentPlayer r.1,
            (scoredBoards restoringStore r.1 r.2).map restoringStore.getCurrentPlayer))
        = some ([[Move.mk 8 16 0, Move.mk 16 24 0, Move.mk 24 32 0]], true, [false])) ∧
    (positionStore.TurnLaws ∧
      positionStore.getCurrentPlayer lonePawn = false ∧
      (DFS1pAux positionStore 64 (addFlippedBoard lonePawn (fun _ _ _ => 0) 8).1 0 3 [] []).map
          (fun r => (r.2, positionStore.getCurrentPlayer r.1,
            (scoredBoards positionStore r.1 r.2).map positionStore.getCurrentPlayer))
        = some ([[Move.mk 8 16 0, Move.mk 16 24 0, Move.mk 24 32 0]], true, [false])) :=
  ⟨⟨positionStore_turnLaws.1, positionStore_turnLaws.2.1, rfl, by decide⟩,
    ⟨positionStore_turnLaws, rfl, by decide⟩⟩

/-- C24, amended: given that `movePiece` and `undoLastMove` leave the side to move as
it is and `forceFlipTurn` toggles it, and that the heatmap builder leaves the side to
move as it is: every recorded line has 3 moves, and on every board on which
`getNextMove` calls `distFromHeatmap` the side to move is the opposite of the side to
move on entry. So the pieces whose distances are taken are those of the opponent of the
player on entry, and the pawn board of the safety test is the board of index
`boolToInt` of the player on entry. -/
theorem getNextMove_scores_opposite_side {β : Type} (B : CFBoard β) (hT : B.TurnLaws)
    (addHeatMap : β → HeatMap → Nat → β × HeatMap) (b : β) (fuel : Nat) (hf : 64 ≤ fuel)
    (hH : B.getCurrentPlayer (addHeatMap b (fun _ _ _ => 0) 8).1 = B.getCurrentPlayer b) :
    ∃ r, DFS1pAux B fuel (addHeatMap b (fun _ _ _ => 0) 8).1 0 3 [] [] = some r ∧
      (∀ l ∈ r.2, l.length = 3) ∧
      ∀ scored ∈ scoredBoards B r.1 r.2,
        B.getCurrentPlayer scored = !B.getCurrentPlayer b ∧
        (∀ (heatMap : HeatMap) (c : Candidate),
          c ∈ heatmapCandidates fuel B scored heatMap →
          c.piece ∈ bitSetPositions (B.getPieceColorBitBoard scored
            (Int.lor (2 * (c.kind : Int)) (boolToInt (!B.getCurrentPlayer b))))) ∧
        ∀ (halfPieceId : Int) (startTile : Nat),
          distFromTileToTilesAsPiece fuel B scored halfPieceId startTile
            = bfsLoop B scored (2 * halfPieceId + boolToInt (!B.getCurrentPlayer b))
                (!B.getCurrentPlayer b)
                (B.getPieceColorBitBoard scored (boolToInt (B.getCurrentPlayer b)))
                fuel (Grid.set (fun _ _ => -1) (startTile / 8) (startTile % 8) 0)
                [(startTile / 8, startTile % 8)] := by
  obtain ⟨r, hr, hlen⟩ := lines_length_three B fuel (by omega)
    (addHeatMap b (fun _ _ _ => 0) 8).1
  refine ⟨r, hr, hlen, ?_⟩
  intro scored hsc
  have hturn : B.getCurrentPlayer scored = !B.getCurrentPlayer b := by
    rw [scoredBoards_turn B hT r.2 hlen r.1 scored hsc,
      DFS1pAux_turn B hT fuel _ 0 3 [] [] r hr, hH]
  refine ⟨hturn, ?_, ?_⟩
  · intro heatMap c hc
    obtain ⟨_, hp, _⟩ := (mem_heatmapCandidates fuel B scored heatMap c).1 hc
    rw [hturn] at hp
    exact hp
  · intro halfPieceId startTile
    unfold distFromTileToTilesAsPiece
    simp only [hturn, Bool.not_not]

set_option maxRecDepth 100000 in
/-- Witness of C24 (amended): the lone white pawn on tile 8, white to move on entry: the one
board that is scored has black to move. -/
theorem getNextMove_scores_opposite_side_witness :
    (positionStore.TurnLaws ∧ 64 ≤ 64 ∧
      positionStore.getCurrentPlayer (addKnightTargets lonePawn (fun _ _ _ => 0) 8).1
        = positionStore.getCurrentPlayer lonePawn) ∧
    positionStore.getCurrentPlayer lonePawn = false ∧
    (scoredBoards positionStore lonePawn [[Move.mk 8 16 0, Move.mk 16 24 0, Move.mk 24 32 0]]).map
      positionStore.getCurrentPlayer = [true] ∧
    ∃ r, DFS1pAux positionStore 64 (addKnightTargets lonePawn (fun _ _ _ => 0) 8).1 0 3 [] []
        = some r ∧
      (∀ l ∈ r.2, l.length = 3) ∧
      ∀ scored ∈ scoredBoards positionStore r.1 r.2,
        positionStore.getCurrentPlayer scored = !positionStore.getCurrentPlayer lonePawn ∧
        (∀ (heatMap : HeatMap) (c : Candidate),
          c ∈ heatmapCandidates 64 positionStore scored heatMap →
          c.piece ∈ bitSetPositions (positionStore.getPieceColorBitBoard scored
            (Int.lor (2 * (c.kind : Int))
              (boolToInt (!positionStore.getCurrentPlayer lonePawn))))) ∧
        ∀ (halfPieceId : Int) (startTile : Nat),
          distFromTileToTilesAsPiece 64 positionStore scored halfPieceId startTile
            = bfsLoop positionStore scored
                (2 * halfPieceId + boolToInt (!positionStore.getCurrentPlayer lonePawn))
                (!positionStore.getCurrentPlayer lonePawn)
                (positionStore.getPieceColorBitBoard scored
                  (boolToInt (positionStore.getCurrentPlayer lonePawn)))
                64 (Grid.set (fun _ _ => -1) (startTile / 8) (startTile % 8) 0)
                [(startTile / 8, startTile % 8)] :=
  ⟨⟨positionStore_turnLaws, by decide, rfl⟩, rfl, by decide,
    getNextMove_scores_opposite_side positionStore positionStore_turnLaws addKnightTargets
      lonePawn 64 (by decide) rfl⟩

end DFS1P

namespace GeneralRegression

/-- C25 fails on the code: the function of index 22 of each of the four bases has
`placement = -1`, and `Func::Eval` reads the offset `-1` of both arrays before it
tests `func_num` (then the offsets `0..7` in `AveragePos`). The functions of the
indices `0..21` read offsets in `0..7` only, and the value of the function of index 22
does not depend on what lies at the offset `-1`. -/
theorem Eval_reads_last_basis_out_of_bounds :
    (SqrtDifBasis.GenerateBasis freshFunc 22).Eval_reads
      = [-1, -1, 0, 0, 1, 1, 2, 2, 3, 3, 4, 4, 5, 5, 6, 6, 7, 7] ∧
    (AbsErfBasis.GenerateBasis freshFunc 22).Eval_reads
      = [-1, -1, 0, 0, 1, 1, 2, 2, 3, 3, 4, 4, 5, 5, 6, 6, 7, 7] ∧
    (AbsSqrtDifBasis.GenerateBasis freshFunc 22).Eval_reads
      = [-1, -1, 0, 0, 1, 1, 2, 2, 3, 3, 4, 4, 5, 5, 6, 6, 7, 7] ∧
    (SqrtAbsDifBasis.GenerateBasis freshFunc 22).Eval_reads
      = [-1, -1, 0, 0, 1, 1, 2, 2, 3, 3, 4, 4, 5, 5, 6, 6, 7, 7] ∧
    (∀ (fresh : Func) (i : Nat), i < 22 →
      (∀ k ∈ (SqrtDifBasis.GenerateBasis fresh i).Eval_reads, 0 ≤ k ∧ k ≤ 7) ∧
      (∀ k ∈ (AbsErfBasis.GenerateBasis fresh i).Eval_reads, 0 ≤ k ∧ k ≤ 7) ∧
      (∀ k ∈ (AbsSqrtDifBasis.GenerateBasis fresh i).Eval_reads, 0 ≤ k ∧ k ≤ 7) ∧
      (∀ k ∈ (SqrtAbsDifBasis.GenerateBasis fresh i).Eval_reads, 0 ≤ k ∧ k ≤ 7)) ∧
    (∀ (erf : ℚ → ℚ) (fresh : Func) (top bottom top2 bottom2 : Int → Int),
      (∀ i : Nat, i < 8 → top i = top2 i ∧ bottom i = bottom2 i) →
      (SqrtDifBasis.GenerateBasis fresh 22).Eval erf top bottom
        = (SqrtDifBasis.GenerateBasis fresh 22).Eval erf top2 bottom2) := by
  refine ⟨?_, ?_, ?_, ?_, ?_, ?_⟩
  · rw [(reads_SqrtDifBasis freshFunc).2]; exact reads_last
  · rw [(reads_AbsErfBasis freshFunc).2]; exact reads_last
  · rw [(reads_AbsSqrtDifBasis freshFunc).2]; exact reads_last
  · rw [(reads_SqrtAbsDifBasis freshFunc).2]; exact reads_last
  · intro fresh i hi
    exact ⟨(reads_SqrtDifBasis fresh).1 i hi, (reads_AbsErfBasis fresh).1 i hi,
      (reads_AbsSqrtDifBasis fresh).1 i hi, (reads_SqrtAbsDifBasis fresh).1 i hi⟩
  · intro erf fresh top bottom top2 bottom2 h
    rw [(reads_SqrtDifBasis fresh).2]
    exact Eval_last_congr erf top bottom top2 bottom2 h

/-- C26: for every real data matrix `Q` with 23 columns, any number of rows and any
entries, the matrix `Q^T * Q + 0.001 * I` is invertible: its determinant is not 0 and
`-0.001` is not an eigenvalue of `Q^T * Q`. For the rational matrix that `bestFitF`
builds, `inverse` returns the two-sided inverse, and `bestFitF` applies it. -/
theorem regularised_invertible (n : Nat) (Q : Matrix (Fin n) (Fin 23) ℝ) :
    IsUnit (regularised Q) ∧ (regularised Q).det ≠ 0 ∧
    (∀ v : Fin 23 → ℝ, v ≠ 0 → (Q.transpose * Q).mulVec v ≠ (-(1 / 1000 : ℝ)) • v) ∧
    (∀ Qr : Matrix (Fin n) (Fin 23) ℚ,
      ∃ M, inverse (regularised Qr) = some M ∧ regularised Qr * M = 1 ∧
        M * regularised Qr = 1) ∧
    (∀ (erf : ℚ → ℚ) (basis : Nat → Func) (X : Nat → Int → Int) (data_outputs : Nat → ℚ)
      (Qr : Matrix (Fin n) (Fin 23) ℚ), setUpQ erf basis X 23 n = some Qr →
      bestFitF erf basis X data_outputs 23 n
        = (inverse (regularised Qr)).map
            (fun M => (M * Qr.transpose).mulVec (setUpYVect data_outputs n))) := by
  have hdetQ : (regularised Q).det ≠ 0 := det_regularised_real Q
  have heig : ∀ v : Fin 23 → ℝ, v ≠ 0 →
      (Q.transpose * Q).mulVec v ≠ (-(1 / 1000 : ℝ)) • v := no_eigenvalue_real Q
  refine ⟨?_, hdetQ, heig, ?_, ?_⟩
  · rw [Matrix.isUnit_iff_isUnit_det]
    exact isUnit_iff_ne_zero.2 hdetQ
  · intro Qr
    have hdet := det_regularised_rat Qr
    refine ⟨(regularised Qr)⁻¹, inverse_eq _ hdet, ?_, ?_⟩
    · exact Matrix.mul_nonsing_inv _ (isUnit_iff_ne_zero.2 hdet)
    · exact Matrix.nonsing_inv_mul _ (isUnit_iff_ne_zero.2 hdet)
  · intro erf basis X data_outputs Qr hQ
    unfold bestFitF regularised
    rw [hQ]
    simp only [if_true]
    cases inverse (Qr.transpose * Qr + (1 / 1000 : ℚ) • (1 : Matrix (Fin 23) (Fin 23) ℚ)) <;> rfl

end GeneralRegression

namespace CFBoardTester

/-- C28 fails on the code: `test_pieceCharToId` compares each piece character with
the number `i` itself and never calls `pieceCharToId`; all twelve comparisons find a
difference, so it prints `Failure` twelve times and never `Success`. The table the
claim states is the one of `pieceCharToId`. -/
theorem test_pieceCharToId_reports_failure :
    test_pieceCharToId = ["test_pieceCarToId ", "["] ++ List.replicate 12 "Failure" ∧
    "Success" ∉ test_pieceCharToId ∧
    (∀ i : Nat, i < 12 → (testChars.getD i 'P').toNat ≠ i) ∧
    (∀ i : Nat, i < 12 → DFS1P.pieceCharToId (testChars.getD i 'P') = some (i : Int)) := by
  decide

end CFBoardTester
